import Mathlib

/-!
# Conjure3 code generator (`example/qi/compiler_tutorial/conjure3/compiler.cpp`)

A shallow embedding of `client::code_gen::compiler`.  The compiler walks the
AST and drives an LLVM `IRBuilder`; here the builder, the module and the
symbol table are an explicit state (`compiler`) threaded through every
operation.

* A `llvm::Value*` is the term of the instruction (or constant) it points to;
  the null pointer is `none`.
* The builder is an `llvm::IRBuilder<>` with its default `ConstantFolder`: a
  call on constant operands returns the folded constant and inserts no
  instruction, and `CreateOr`/`CreateAnd` return the left operand for `| 0`
  and `& -1`.  The types of the operands, which LLVM asserts to agree, are
  not tracked.
* Basic blocks live in an arena (`compiler.blocks`); a `llvm::BasicBlock*` is
  an index into it.  A `llvm::Function*` is the name of the function in the
  module.
* `compile_expression` contains loops that need not terminate, so every
  recursive routine takes a fuel argument that bounds the call depth; running
  out of fuel is the result `out_of_fuel`.
-/

/-!
# Lexer functor (`boost/spirit/home/lex/lexer/lexertl/functor.hpp`)

A shallow embedding of `lexertl::functor::get_next` for a functor with
semantic actions and lexer states.  An iterator is a position in the input;
the shared data `mp.shared->ftor` is an explicit state.
-/

namespace lexertl

/-- Modelled from the spec: the constant `boost::lexer::npos`, the largest
`std::size_t` (its header is not under `src/`); the width is taken as 64
bits. -/
def npos : Nat := 2 ^ 64 - 1

/-- The template parameter `Token`, by the three constructor calls of
`get_next`: `result_type()` (the value of the member `eof`),
`result_type(0)`, and `result_type(id, state, first, end)`. -/
inductive Token where
  | eof
  | of_int (n : Int)
  | matched (id state first end_ : Nat)
  deriving DecidableEq, Repr

/-- The members of `detail::data` that change: the shared position `first`
(a reference to the iterator of the caller), the end of input `last`, and
the lexer state. -/
structure data where
  first : Nat
  last : Nat
  state : Nat
  deriving DecidableEq, Repr

/-- The type `iterpair_type`: the matched range. -/
abbrev iterpair_type : Type := Nat × Nat

/-- The signature `void functor_type(iterpair_type, std::size_t, bool&,
data&)` of a semantic action: the flag `match` and the data are passed by
reference, so the action returns both. -/
abbrev functor_type : Type := iterpair_type → Nat → Bool → data → Bool × data

/-- The type `semantic_actions_type`: for each lexer state, the actions by
unique id; an empty `boost::function` is `none`. -/
abbrev semantic_actions_type : Type := List (List (Option functor_type))

/-- What a call of the tokenizer leaves in its reference parameters,
together with the id it returns. -/
structure next_result where
  id : Nat
  dfa_state : Nat
  end_ : Nat
  unique_id : Nat
  deriving DecidableEq, Repr

/-- Modelled from the spec: the signature of
`basic_iterator_tokeniser<Iterator>::next(state_machine, dfa_state, start,
end, last, unique_id)` of `iterator_tokenizer.hpp`, which is not under
`src/`.  The state machine is fixed; the tokenizer reads the DFA state, the
start position, the initial `end`, the end of input and the initial unique
id, and writes the DFA state, `end` and the unique id. -/
abbrev tokenizer_type : Type := Nat → Nat → Nat → Nat → Nat → next_result

/-- The member `data::next` of the specialization with states: the result
is the id, the new `end`, the new `unique_id`, and the data with the state
the tokenizer left. -/
def data.next (tokenizer : tokenizer_type) (d : data) (end_ unique_id : Nat) :
    Nat × Nat × Nat × data :=
  let r := tokenizer d.state d.first end_ d.last unique_id
  (r.id, r.end_, r.unique_id, { d with state := r.dfa_state })

/-- The member `data::invoke_actions` of the specialization with actors. -/
def data.invoke_actions (actions_ : semantic_actions_type) (d : data)
    (state id unique_id end_ : Nat) : Bool × data :=
  match actions_[state]? with
  | none => (true, d)
  | some actions =>
    match actions[unique_id]? with
    | none => (true, d)
    | some none => (true, d)
    | some (some action) => action (d.first, end_) id true d

/-- The static member `functor::eof`, initialized with `result_type()`. -/
def functor.eof : Token := .eof

/-- The function `functor::get_next`: the token assigned to `result` and the
shared data afterwards. -/
def functor.get_next (tokenizer : tokenizer_type) (actions_ : semantic_actions_type)
    (d : data) : Token × data :=
  if d.first = d.last then
    (functor.eof, d)
  else
    let (id, end_, unique_id, d1) := d.next tokenizer d.first npos
    if npos = id then
      (.of_int 0, d1)
    else if 0 = id then
      (functor.eof, d1)
    else
      let state := d1.state
      let (accepted, d2) := d1.invoke_actions actions_ state id unique_id end_
      if !accepted then
        (.of_int 0, d2)
      else
        (.matched id state d2.first end_, { d2 with first := end_ })

/-- Every attached action leaves the shared position `first` where it
is. -/
def keeps_position (actions_ : semantic_actions_type) : Prop :=
  ∀ actions ∈ actions_, ∀ action, some action ∈ actions →
    ∀ itp id accepted d, (action itp id accepted d).2.first = d.first

/-- What the tokenizer answers when `get_next` calls it on the data `d`:
`end` starts at `first` and the unique id at `npos`. -/
def tokenized (tokenizer : tokenizer_type) (d : data) : next_result :=
  tokenizer d.state d.first d.first d.last npos

/-- A small tokenizer, used in the examples: at position 0 it matches two characters
with id 7 and unique id 0 and enters state 1; at position 2 it matches one
character with id 8 and unique id 1; at position 3 it reports the end of
input; elsewhere it finds no match. -/
def sample_tokenizer : tokenizer_type := fun dfa_state start end_ _ unique_id =>
  if start = 0 then { id := 7, dfa_state := 1, end_ := 2, unique_id := 0 }
  else if start = 2 then { id := 8, dfa_state := dfa_state, end_ := 3, unique_id := 1 }
  else if start = 3 then { id := 0, dfa_state := dfa_state, end_ := end_, unique_id := unique_id }
  else { id := npos, dfa_state := dfa_state, end_ := end_, unique_id := npos }

/-- A small table of actions, used in the examples: in state 1, the action of unique id 0 accepts
and sets the state to 5, the action of unique id 1 rejects; state 0 has no
action. -/
def sample_actions : semantic_actions_type :=
  [ [],
    [ some (fun _ _ accepted d => (accepted, { d with state := 5 })),
      some (fun _ _ _ d => (false, d)) ] ]

/-- A table of actions that move the shared position, used in the examples:
in state 1, the action of unique id 0 accepts after it moved `first` one
character on, and the action of unique id 1 moves `first` one character on
and rejects. -/
def moving_actions : semantic_actions_type :=
  [ [],
    [ some (fun _ _ accepted d => (accepted, { d with first := d.first + 1 })),
      some (fun _ _ _ d => (false, { d with first := d.first + 1 })) ] ]

end lexertl

namespace client

/-! ## Tokens -/

/-- Modelled from the spec: the token enumeration (`ids.hpp`) is not under
`src/`.  The binary operators are listed in the order of the comments of the
`precedence` table, which is the order of their table index; `not_` is the
unary operator `compiler::operator()(ast::unary)` names besides `plus` and
`minus`. -/
inductive token where
  | comma
  | assign
  | plus_assign
  | minus_assign
  | times_assign
  | divide_assign
  | mod_assign
  | bit_and_assign
  | bit_xor_assign
  | bitor_assign
  | shift_left_assign
  | shift_right_assign
  | logical_or
  | logical_and
  | bit_or
  | bit_xor
  | bit_and
  | equal
  | not_equal
  | less
  | less_equal
  | greater
  | greater_equal
  | shift_left
  | shift_right
  | plus
  | minus
  | times
  | divide
  | mod
  | not_
  deriving DecidableEq, Repr

/-- Modelled from the spec: `op & 0xFF`, the position of an operator in the
`precedence` table (`ids.hpp` is not under `src/`).  A unary-only token lies
past the end of the table. -/
def token.index : token → Nat
  | .comma => 0
  | .assign => 1
  | .plus_assign => 2
  | .minus_assign => 3
  | .times_assign => 4
  | .divide_assign => 5
  | .mod_assign => 6
  | .bit_and_assign => 7
  | .bit_xor_assign => 8
  | .bitor_assign => 9
  | .shift_left_assign => 10
  | .shift_right_assign => 11
  | .logical_or => 12
  | .logical_and => 13
  | .bit_or => 14
  | .bit_xor => 15
  | .bit_and => 16
  | .equal => 17
  | .not_equal => 18
  | .less => 19
  | .less_equal => 20
  | .greater => 21
  | .greater_equal => 22
  | .shift_left => 23
  | .shift_right => 24
  | .plus => 25
  | .minus => 26
  | .times => 27
  | .divide => 28
  | .mod => 29
  | .not_ => 30

/-! ## Abstract syntax -/

namespace ast

/-- The node `ast::identifier`: a name tagged with its source position. -/
structure identifier where
  id : Nat
  name : String
  deriving DecidableEq, Repr

/-- The node `ast::literal`: its `val` is an `unsigned int` or a `bool`. -/
inductive literal where
  | uint (x : Nat)
  | bool (x : Bool)
  deriving DecidableEq, Repr

mutual
/-- The variant `ast::operand`. -/
inductive operand where
  | literal (x : literal)
  | identifier (x : identifier)
  | unary (operator_ : token) (operand_ : operand)
  | function_call (function_name : identifier) (args : List expression)
  | expression (x : expression)
/-- The node `ast::operation`: an operator and its right operand. -/
inductive operation where
  | mk (operator_ : token) (operand_ : operand)
/-- The node `ast::expression`: the flat list `first (op operand)*`. -/
inductive expression where
  | mk (first : operand) (rest : List operation)
end

/-- The field `operator_` of an operation. -/
def operation.operator_ : operation → token
  | .mk op _ => op

/-- The field `operand_` of an operation. -/
def operation.operand_ : operation → operand
  | .mk _ o => o

/-- The field `first` of an expression. -/
def expression.first : expression → operand
  | .mk f _ => f

/-- The field `rest` of an expression. -/
def expression.rest : expression → List operation
  | .mk _ r => r

/-- The node `ast::assignment`. -/
structure assignment where
  lhs : identifier
  rhs : expression

/-- The node `ast::variable_declaration`. -/
structure variable_declaration where
  lhs : identifier
  rhs : Option expression

/-- The variant `ast::statement` with the six forms the compiler handles. -/
inductive statement where
  | variable_declaration (x : variable_declaration)
  | assignment (x : assignment)
  | if_statement (condition : expression) (then_ : statement) (else_ : Option statement)
  | while_statement (condition : expression) (body : statement)
  | return_statement (id : Nat) (expr : Option expression)
  | statement_list (x : List statement)

/-- The node `ast::function`. -/
structure function where
  return_type : String
  function_name : identifier
  args : List identifier
  body : Option (List statement)

end ast

/-! ## The IR -/

namespace llvm

/-- The opcodes `compile_binary_expression` emits. -/
inductive Opcode where
  | Add
  | Sub
  | Mul
  | SDiv
  | ICmpEQ
  | ICmpNE
  | ICmpSLT
  | ICmpSLE
  | ICmpSGT
  | ICmpSGE
  | Or
  | And
  deriving DecidableEq, Repr

/-- A value handle: a constant, a function argument, or the instruction that
computes the value.  `ConstantExpr e` is the constant the folder of the
builder returns for the operation `e` on constant operands where this
development does not evaluate it (operands of different widths, a division by
zero, the overflowing division). -/
inductive Value where
  | ConstantInt (bits : Nat) (x : Nat)
  | ConstantExpr (e : Value)
  | Argument (function : String) (index : Nat)
  | Alloca (name : String)
  | Load (ptr : Value) (name : String)
  | Neg (v : Value)
  | Not (v : Value)
  | BinOp (opc : Opcode) (lhs rhs : Value)
  | Call (callee : String) (args : List Value)

mutual
/-- Equality of two value handles is decidable. -/
def Value.decEq : (a b : Value) → Decidable (a = b)
  | .ConstantInt b1 x1, y =>
    match y with
    | .ConstantInt b2 x2 =>
      if h : b1 = b2 ∧ x1 = x2 then isTrue (by rw [h.1, h.2])
      else isFalse (fun e => h (by injection e with e1 e2; exact ⟨e1, e2⟩))
    | .ConstantExpr _ | .Argument _ _ | .Alloca _ | .Load _ _ | .Neg _ | .Not _ | .BinOp _ _ _ | .Call _ _ =>
      isFalse (fun e => Value.noConfusion e)
  | .ConstantExpr v1, y =>
    match y with
    | .ConstantExpr v2 =>
      match Value.decEq v1 v2 with
      | isTrue hp => isTrue (by rw [hp])
      | isFalse hp => isFalse (fun e => hp (by injection e))
    | .ConstantInt _ _ | .Argument _ _ | .Alloca _ | .Load _ _ | .Neg _ | .Not _ | .BinOp _ _ _ | .Call _ _ =>
      isFalse (fun e => Value.noConfusion e)
  | .Argument f1 i1, y =>
    match y with
    | .Argument f2 i2 =>
      if h : f1 = f2 ∧ i1 = i2 then isTrue (by rw [h.1, h.2])
      else isFalse (fun e => h (by injection e with e1 e2; exact ⟨e1, e2⟩))
    | .ConstantInt _ _ | .ConstantExpr _ | .Alloca _ | .Load _ _ | .Neg _ | .Not _ | .BinOp _ _ _ | .Call _ _ =>
      isFalse (fun e => Value.noConfusion e)
  | .Alloca n1, y =>
    match y with
    | .Alloca n2 =>
      if h : n1 = n2 then isTrue (by rw [h])
      else isFalse (fun e => h (by injection e))
    | .ConstantInt _ _ | .ConstantExpr _ | .Argument _ _ | .Load _ _ | .Neg _ | .Not _ | .BinOp _ _ _ | .Call _ _ =>
      isFalse (fun e => Value.noConfusion e)
  | .Load p1 n1, y =>
    match y with
    | .Load p2 n2 =>
      match Value.decEq p1 p2 with
      | isTrue hp =>
        if h : n1 = n2 then isTrue (by rw [hp, h])
        else isFalse (fun e => h (by injection e))
      | isFalse hp => isFalse (fun e => hp (by injection e))
    | .ConstantInt _ _ | .ConstantExpr _ | .Argument _ _ | .Alloca _ | .Neg _ | .Not _ | .BinOp _ _ _ | .Call _ _ =>
      isFalse (fun e => Value.noConfusion e)
  | .Neg v1, y =>
    match y with
    | .Neg v2 =>
      match Value.decEq v1 v2 with
      | isTrue hp => isTrue (by rw [hp])
      | isFalse hp => isFalse (fun e => hp (by injection e))
    | .ConstantInt _ _ | .ConstantExpr _ | .Argument _ _ | .Alloca _ | .Load _ _ | .Not _ | .BinOp _ _ _ | .Call _ _ =>
      isFalse (fun e => Value.noConfusion e)
  | .Not v1, y =>
    match y with
    | .Not v2 =>
      match Value.decEq v1 v2 with
      | isTrue hp => isTrue (by rw [hp])
      | isFalse hp => isFalse (fun e => hp (by injection e))
    | .ConstantInt _ _ | .ConstantExpr _ | .Argument _ _ | .Alloca _ | .Load _ _ | .Neg _ | .BinOp _ _ _ | .Call _ _ =>
      isFalse (fun e => Value.noConfusion e)
  | .BinOp o1 l1 r1, y =>
    match y with
    | .BinOp o2 l2 r2 =>
      match Value.decEq l1 l2, Value.decEq r1 r2 with
      | isTrue hl, isTrue hr =>
        if h : o1 = o2 then isTrue (by rw [hl, hr, h])
        else isFalse (fun e => h (by injection e))
      | isFalse hl, _ => isFalse (fun e => hl (by injection e))
      | _, isFalse hr => isFalse (fun e => hr (by injection e))
    | .ConstantInt _ _ | .ConstantExpr _ | .Argument _ _ | .Alloca _ | .Load _ _ | .Neg _ | .Not _ | .Call _ _ =>
      isFalse (fun e => Value.noConfusion e)
  | .Call c1 a1, y =>
    match y with
    | .Call c2 a2 =>
      match Value.decEqList a1 a2 with
      | isTrue ha =>
        if h : c1 = c2 then isTrue (by rw [ha, h])
        else isFalse (fun e => h (by injection e))
      | isFalse ha => isFalse (fun e => ha (by injection e))
    | .ConstantInt _ _ | .ConstantExpr _ | .Argument _ _ | .Alloca _ | .Load _ _ | .Neg _ | .Not _ | .BinOp _ _ _ =>
      isFalse (fun e => Value.noConfusion e)
/-- Equality of two lists of value handles is decidable. -/
def Value.decEqList : (a b : List Value) → Decidable (a = b)
  | [], [] => isTrue rfl
  | [], _ :: _ => isFalse (fun e => List.noConfusion e)
  | _ :: _, [] => isFalse (fun e => List.noConfusion e)
  | a :: as, b :: bs =>
    match Value.decEq a b, Value.decEqList as bs with
    | isTrue h1, isTrue h2 => isTrue (by rw [h1, h2])
    | isFalse h1, _ => isFalse (fun e => h1 (by injection e))
    | _, isFalse h2 => isFalse (fun e => h2 (by injection e))
end
instance : DecidableEq Value := Value.decEq

/-- The values that are an `llvm::Constant`: the integer constants and what the
folder makes of them.  Arguments and instructions are not. -/
def Value.isConstant : Value → Bool
  | .ConstantInt _ _ => true
  | .ConstantExpr _ => true
  | _ => false

/-- The signed reading of the `bits`-wide integer `x`. -/
def APInt.signed (bits x : Nat) : Int :=
  if 2 * (x % 2 ^ bits) < 2 ^ bits then ((x % 2 ^ bits : Nat) : Int)
  else ((x % 2 ^ bits : Nat) : Int) - ((2 ^ bits : Nat) : Int)

/-- The `bits`-wide integer with the signed reading `i`. -/
def APInt.ofInt (bits : Nat) (i : Int) : Nat :=
  (i % ((2 ^ bits : Nat) : Int)).toNat

/-- The one-bit constant of a comparison. -/
def ConstantInt.ofBool (b : Bool) : Value :=
  .ConstantInt 1 (if b then 1 else 0)

/-- The constant `ConstantExpr::get(opc, lhs, rhs)` and `ConstantExpr::getICmp`
of two constants: two integer constants of one width are folded in the
arithmetic of that width (the division as LLVM orders its cases: by one, by
zero, the overflow, the rest); anything else is left as a constant
expression. -/
def ConstantFolder.CreateBinOp (opc : Opcode) (lhs rhs : Value) : Value :=
  match lhs, rhs with
  | .ConstantInt bits x, .ConstantInt bits_r y =>
    if bits = bits_r then
      match opc with
      | .Add => .ConstantInt bits ((x + y) % 2 ^ bits)
      | .Sub => .ConstantInt bits ((x % 2 ^ bits + (2 ^ bits - y % 2 ^ bits)) % 2 ^ bits)
      | .Mul => .ConstantInt bits ((x * y) % 2 ^ bits)
      | .SDiv =>
        if y % 2 ^ bits = 1 then .ConstantInt bits x
        else if y % 2 ^ bits = 0 then .ConstantExpr (.BinOp opc lhs rhs)
        else if y % 2 ^ bits = 2 ^ bits - 1 ∧ x % 2 ^ bits = 2 ^ (bits - 1) then
          .ConstantExpr (.BinOp opc lhs rhs)
        else
          .ConstantInt bits
            (APInt.ofInt bits ((APInt.signed bits x).tdiv (APInt.signed bits y)))
      | .ICmpEQ => ConstantInt.ofBool (x % 2 ^ bits == y % 2 ^ bits)
      | .ICmpNE => ConstantInt.ofBool (x % 2 ^ bits != y % 2 ^ bits)
      | .ICmpSLT => ConstantInt.ofBool (decide (APInt.signed bits x < APInt.signed bits y))
      | .ICmpSLE => ConstantInt.ofBool (decide (APInt.signed bits x ≤ APInt.signed bits y))
      | .ICmpSGT => ConstantInt.ofBool (decide (APInt.signed bits x > APInt.signed bits y))
      | .ICmpSGE => ConstantInt.ofBool (decide (APInt.signed bits x ≥ APInt.signed bits y))
      | .Or => .ConstantInt bits ((x % 2 ^ bits) ||| (y % 2 ^ bits))
      | .And => .ConstantInt bits ((x % 2 ^ bits) &&& (y % 2 ^ bits))
    else .ConstantExpr (.BinOp opc lhs rhs)
  | _, _ => .ConstantExpr (.BinOp opc lhs rhs)

/-- The two shortcuts of `IRBuilder::CreateOr` and `IRBuilder::CreateAnd` on a
constant right operand, `LHS | 0 -> LHS` and `LHS & -1 -> LHS`: the builder
returns the left operand as it is. -/
def IRBuilder.returnsLHS (opc : Opcode) (rhs : Value) : Bool :=
  match opc, rhs with
  | .Or, .ConstantInt bits x => x % 2 ^ bits == 0
  | .And, .ConstantInt bits x => x % 2 ^ bits == 2 ^ bits - 1
  | _, _ => false

/-- The constant `ConstantExpr::getNeg(v)`: zero minus `v`. -/
def ConstantFolder.CreateNeg (v : Value) : Value :=
  match v with
  | .ConstantInt bits x => .ConstantInt bits ((2 ^ bits - x % 2 ^ bits) % 2 ^ bits)
  | _ => .ConstantExpr (.Neg v)

/-- The constant `ConstantExpr::getNot(v)`: `v` xor all ones. -/
def ConstantFolder.CreateNot (v : Value) : Value :=
  match v with
  | .ConstantInt bits x => .ConstantInt bits (2 ^ bits - 1 - x % 2 ^ bits)
  | _ => .ConstantExpr (.Not v)

/-- An instruction of a basic block. -/
inductive Instruction where
  | value (v : Value)
  | Store (v ptr : Value)
  | Br (dest : Nat)
  | CondBr (cond : Value) (iftrue iffalse : Nat)
  | Ret (v : Value)
  | RetVoid
  deriving DecidableEq

/-- Branches and returns end a block. -/
def Instruction.isTerminator : Instruction → Bool
  | .Br _ => true
  | .CondBr _ _ _ => true
  | .Ret _ => true
  | .RetVoid => true
  | _ => false

/-- The two return instructions. -/
def Instruction.isReturn : Instruction → Bool
  | .Ret _ => true
  | .RetVoid => true
  | _ => false

/-- The stack allocations. -/
def Instruction.isAlloca : Instruction → Bool
  | .value (.Alloca _) => true
  | _ => false

/-- A basic block: its name, the function it is attached to, its
instructions in order. -/
structure BasicBlock where
  name : String
  parent : Option String
  insts : List Instruction
  deriving DecidableEq

/-- The terminator of a block: its last instruction when that is a
terminator (`BasicBlock::getTerminator`). -/
def BasicBlock.getTerminator (b : BasicBlock) : Option Instruction :=
  match b.insts.getLast? with
  | some i => if i.isTerminator then some i else none
  | none => none

/-- A function of the module: name, return kind, argument names, and the
handles of its blocks in order. -/
structure Function where
  name : String
  void_return : Bool
  args : List String
  blocks : List Nat
  deriving DecidableEq

end llvm

/-! ## The compiler state and its results -/

namespace code_gen

open llvm

/-- Modelled from the spec: the constant `int_size` of `config.hpp`, which is
not under `src/` (the fixed bit width of the language's integers). -/
def int_size : Nat := 32

/-- The members of `compiler` together with the objects they point to. -/
structure compiler where
  blocks : List BasicBlock
  module : List Function
  insert_block : Option Nat
  named_values : List (String × Option Value)
  errors : List (Nat × String)
  void_return : Bool
  current_function_name : String
  return_alloca : Option Value
  return_block : Option Nat
  deriving DecidableEq

/-- How a run ends: the fuel ran out, `BOOST_ASSERT(0)` was reached, a null
pointer was used, or the routine returned a value in a new state. -/
inductive Result (α : Type) where
  | out_of_fuel
  | assertion_failed
  | null_dereference
  | returns (value : α) (state : compiler)
  deriving DecidableEq

/-- A routine of the compiler. -/
def gen (α : Type) : Type := compiler → Result α

/-- Sequencing of two routines. -/
def gen.bind {α β : Type} (m : gen α) (k : α → gen β) : gen β := fun c =>
  match m c with
  | .out_of_fuel => .out_of_fuel
  | .assertion_failed => .assertion_failed
  | .null_dereference => .null_dereference
  | .returns a c1 => k a c1

instance : Monad gen where
  pure a := fun c => .returns a c
  bind := gen.bind

/-- The routine that stops for lack of fuel. -/
def out_of_fuel {α : Type} : gen α := fun _ => .out_of_fuel

/-- The routine that reaches `BOOST_ASSERT(0)`. -/
def assertion_failed {α : Type} : gen α := fun _ => .assertion_failed

/-- The routine that uses a null pointer. -/
def null_dereference {α : Type} : gen α := fun _ => .null_dereference

/-- The call `error_handler(id, message)`. -/
def error_handler (id : Nat) (message : String) : gen Unit := fun c =>
  .returns () { c with errors := c.errors ++ [(id, message)] }

/-! ### The symbol table `named_values` (a `std::map`) -/

/-- The lookup `named_values.find(name)`: the mapped pointer when the key is
present. -/
def named_values_find (name : String) (c : compiler) : Option (Option Value) :=
  (c.named_values.find? (fun e => e.1 == name)).map (fun e => e.2)

/-- The access `named_values[name]` for reading: a missing key is inserted
with a null pointer, as `std::map::operator[]` does. -/
def named_values_index (name : String) : gen (Option Value) := fun c =>
  match named_values_find name c with
  | some value => .returns value c
  | none => .returns none { c with named_values := c.named_values ++ [(name, none)] }

/-- The assignment `named_values[name] = value`. -/
def named_values_assign (name : String) (value : Value) : gen Unit := fun c =>
  .returns ()
    { c with named_values :=
        c.named_values.filter (fun e => !(e.1 == name)) ++ [(name, some value)] }

/-! ### The module and the builder -/

/-- The lookup `vm.module()->getFunction(name)`. -/
def getFunction (name : String) (c : compiler) : Option Function :=
  c.module.find? (fun f => f.name == name)

/-- The builder inserts an instruction at the end of the insertion block; a
builder without insertion block inserts nowhere. -/
def Insert (i : Instruction) : gen Unit := fun c =>
  match c.insert_block with
  | none => .returns () c
  | some b =>
    .returns ()
      { c with blocks := c.blocks.modify (fun bb => { bb with insts := bb.insts ++ [i] }) b }

/-- The call `builder.CreateLoad(ptr, name)`. -/
def CreateLoad (ptr : Value) (name : String) : gen Value := do
  Insert (.value (.Load ptr name))
  pure (.Load ptr name)

/-- The call `builder.CreateNeg(v, "negtmp")`: a constant operand is folded
and nothing is inserted. -/
def CreateNeg (v : Value) : gen Value :=
  if v.isConstant then
    pure (ConstantFolder.CreateNeg v)
  else do
    Insert (.value (.Neg v))
    pure (.Neg v)

/-- The call `builder.CreateNot(v, "nottmp")`: a constant operand is folded
and nothing is inserted. -/
def CreateNot (v : Value) : gen Value :=
  if v.isConstant then
    pure (ConstantFolder.CreateNot v)
  else do
    Insert (.value (.Not v))
    pure (.Not v)

/-- The call `builder.CreateCall(callee, args, "calltmp")`. -/
def CreateCall (callee : String) (args : List Value) : gen Value := do
  Insert (.value (.Call callee args))
  pure (.Call callee args)

/-- The call `builder.CreateStore(v, ptr)`. -/
def CreateStore (v ptr : Value) : gen Unit :=
  Insert (.Store v ptr)

/-- The call `builder.CreateBr(dest)`. -/
def CreateBr (dest : Nat) : gen Unit :=
  Insert (.Br dest)

/-- The call `builder.CreateCondBr(cond, iftrue, iffalse)`. -/
def CreateCondBr (cond : Value) (iftrue iffalse : Nat) : gen Unit :=
  Insert (.CondBr cond iftrue iffalse)

/-- The call `builder.SetInsertPoint(block)`. -/
def SetInsertPoint (block : Nat) : gen Unit := fun c =>
  .returns () { c with insert_block := some block }

/-- The call `function->getBasicBlockList().push_back(block)`. -/
def push_back (function : Option String) (block : Nat) : gen Unit := fun c =>
  match function with
  | none => .null_dereference
  | some f =>
    match getFunction f c with
    | none => .null_dereference
    | some _ =>
      .returns ()
        { c with
          module := c.module.map
            (fun g => if g.name == f then { g with blocks := g.blocks ++ [block] } else g)
          blocks := c.blocks.modify (fun bb => { bb with parent := some f }) block }

/-- The call `llvm::BasicBlock::Create(context(), name)`: a new, detached
block. -/
def BasicBlock_Create (name : String) : gen Nat := fun c =>
  .returns c.blocks.length
    { c with blocks := c.blocks ++ [{ name := name, parent := none, insts := [] }] }

/-- The call `llvm::BasicBlock::Create(context(), name, function)`: a new
block, appended to `function` unless that is null. -/
def BasicBlock_Create_in (name : String) (function : Option String) : gen Nat := do
  let block ← BasicBlock_Create name
  match function with
  | none => pure block
  | some f => do
    push_back (some f) block
    pure block

/-- The expression `builder.GetInsertBlock()->getParent()`. -/
def getParent : gen (Option String) := fun c =>
  match c.insert_block with
  | none => .null_dereference
  | some b =>
    match c.blocks[b]? with
    | none => .null_dereference
    | some bb => .returns bb.parent c

/-- The query `block->getTerminator()`. -/
def getTerminator (block : Nat) : gen (Option Instruction) := fun c =>
  match c.blocks[block]? with
  | none => .null_dereference
  | some bb => .returns bb.getTerminator c

/-! ## Values and expressions -/

/-- The routine `compiler::operator()(unsigned int)`. -/
def unsigned_int_ (x : Nat) : gen (Option Value) :=
  pure (some (.ConstantInt int_size x))

/-- The routine `compiler::operator()(bool)`. -/
def bool_ (x : Bool) : gen (Option Value) :=
  pure (some (.ConstantInt 1 (if x then 1 else 0)))

/-- The routine `compiler::operator()(ast::literal const&)`. -/
def literal_ : ast.literal → gen (Option Value)
  | .uint x => unsigned_int_ x
  | .bool x => bool_ x

/-- The routine `compiler::operator()(ast::identifier const&)`. -/
def identifier_ (x : ast.identifier) : gen (Option Value) := do
  let value ← named_values_index x.name
  match value with
  | none => do
    error_handler x.id ("Undeclared variable: " ++ x.name)
    pure none
  | some value => do
    let load ← CreateLoad value x.name
    pure (some load)

/-- The table `precedence`. -/
def precedence : List Nat :=
  [ 1,
    2, 2, 2, 2, 2, 2, 2, 2, 2, 2, 2,
    3,
    4,
    5,
    6,
    7,
    8, 8,
    9, 9, 9, 9,
    10, 10,
    11, 11,
    12, 12, 12 ]

/-- The function `precedence_of`; a read past the table is given the value
0. -/
def precedence_of (op : token) : Nat :=
  precedence.getD op.index 0

/-- The calls `builder.CreateAdd(lhs, rhs, "addtmp")`, `CreateSub`, ...: the
builder dereferences both operands; `CreateOr` with a zero and `CreateAnd`
with an all-ones right operand return the left operand; two constants are
folded and nothing is inserted (the builder is an `llvm::IRBuilder<>`, whose
folder is the `ConstantFolder`); anything else becomes one instruction. -/
def CreateBinOp (opc : Opcode) (lhs rhs : Option Value) : gen (Option Value) :=
  match lhs, rhs with
  | some lhs, some rhs =>
    if IRBuilder.returnsLHS opc rhs then
      pure (some lhs)
    else if lhs.isConstant && rhs.isConstant then
      pure (some (ConstantFolder.CreateBinOp opc lhs rhs))
    else do
      Insert (.value (.BinOp opc lhs rhs))
      pure (some (.BinOp opc lhs rhs))
  | _, _ => null_dereference

/-- The routine `compiler::compile_binary_expression`. -/
def compile_binary_expression (lhs rhs : Option Value) (op : token) : gen (Option Value) :=
  match op with
  | .plus => CreateBinOp .Add lhs rhs
  | .minus => CreateBinOp .Sub lhs rhs
  | .times => CreateBinOp .Mul lhs rhs
  | .divide => CreateBinOp .SDiv lhs rhs
  | .equal => CreateBinOp .ICmpEQ lhs rhs
  | .not_equal => CreateBinOp .ICmpNE lhs rhs
  | .less => CreateBinOp .ICmpSLT lhs rhs
  | .less_equal => CreateBinOp .ICmpSLE lhs rhs
  | .greater => CreateBinOp .ICmpSGT lhs rhs
  | .greater_equal => CreateBinOp .ICmpSGE lhs rhs
  | .logical_or => CreateBinOp .Or lhs rhs
  | .logical_and => CreateBinOp .And lhs rhs
  | _ => assertion_failed

mutual

/-- The dispatch `boost::apply_visitor(*this, operand)`. -/
def operand_ : Nat → ast.operand → gen (Option Value)
  | 0, _ => out_of_fuel
  | _ + 1, .literal x => literal_ x
  | _ + 1, .identifier x => identifier_ x
  | n + 1, .unary operator_ operand_1 => unary_ n operator_ operand_1
  | n + 1, .function_call function_name args => function_call_ n function_name args
  | n + 1, .expression x => expression_ n x

/-- The routine `compiler::operator()(ast::unary const&)`. -/
def unary_ : Nat → token → ast.operand → gen (Option Value)
  | 0, _, _ => out_of_fuel
  | n + 1, operator_, operand_1 => do
    let operand ← operand_ n operand_1
    match operand with
    | none => pure none
    | some operand =>
      match operator_ with
      | .minus => do
        let v ← CreateNeg operand
        pure (some v)
      | .not_ => do
        let v ← CreateNot operand
        pure (some v)
      | .plus => pure (some operand)
      | _ => assertion_failed

/-- The routine `compiler::operator()(ast::function_call const&)`. -/
def function_call_ : Nat → ast.identifier → List ast.expression → gen (Option Value)
  | 0, _, _ => out_of_fuel
  | n + 1, function_name, x_args => fun c =>
    match getFunction function_name.name c with
    | none =>
      (do
        error_handler function_name.id ("Function not found: " ++ function_name.name)
        pure none) c
    | some callee =>
      if callee.args.length ≠ x_args.length then
        (do
          error_handler function_name.id
            ("Wrong number of arguments: " ++ function_name.name)
          pure none) c
      else
        (do
          let args ← function_call_args n x_args []
          match args with
          | none => pure none
          | some args => do
            let v ← CreateCall callee.name args
            pure (some v)) c

/-- The loop over `x.args` in `operator()(ast::function_call const&)`: each
argument is compiled and pushed; a null result ends the call. -/
def function_call_args : Nat → List ast.expression → List Value → gen (Option (List Value))
  | 0, _, _ => out_of_fuel
  | _ + 1, [], args => pure (some args)
  | n + 1, expr :: more, args => do
    let v ← expression_ n expr
    match v with
    | none => pure none
    | some v => function_call_args n more (args ++ [v])

/-- The routine `compiler::compile_expression`: one turn of the outer
`while` loop per call.  The cursor `rest_begin` is the list of operations not
yet consumed; it is returned with the value. -/
def compile_expression :
    Nat → Nat → Option Value → List ast.operation → gen (Option Value × List ast.operation)
  | 0, _, _, _ => out_of_fuel
  | _ + 1, _, lhs, [] => pure (lhs, [])
  | n + 1, min_precedence, lhs, operation :: rest =>
    if precedence_of operation.operator_ ≥ min_precedence then do
      let op := operation.operator_
      let rhs ← operand_ n operation.operand_
      match rhs with
      | none => pure (none, operation :: rest)
      | some rhs => do
        let (rhs, rest_begin) ← compile_expression_inner n op (some rhs) rest
        let lhs ← compile_binary_expression lhs rhs op
        compile_expression n min_precedence lhs rest_begin
    else
      pure (lhs, operation :: rest)

/-- The inner `while` loop of `compile_expression`: while the next operator
binds tighter than `op`, the right operand is replaced by the result of the
recursive call. -/
def compile_expression_inner :
    Nat → token → Option Value → List ast.operation → gen (Option Value × List ast.operation)
  | 0, _, _, _ => out_of_fuel
  | _ + 1, _, rhs, [] => pure (rhs, [])
  | n + 1, op, rhs, next :: rest =>
    if precedence_of next.operator_ > precedence_of op then do
      let next_op := next.operator_
      let (rhs, rest_begin) ← compile_expression n (precedence_of next_op) rhs (next :: rest)
      compile_expression_inner n op rhs rest_begin
    else
      pure (rhs, next :: rest)

/-- The routine `compiler::operator()(ast::expression const&)`. -/
def expression_ : Nat → ast.expression → gen (Option Value)
  | 0, _ => out_of_fuel
  | n + 1, x => do
    let lhs ← operand_ n x.first
    match lhs with
    | none => pure none
    | some lhs => do
      let (v, _) ← compile_expression n 0 (some lhs) x.rest
      pure v

end

/-! ## Statements -/

/-- The routine `compiler::operator()(ast::assignment const&)`. -/
def assignment_ (n : Nat) (x : ast.assignment) : gen (Option Value) := do
  let lhs ← named_values_index x.lhs.name
  match lhs with
  | none => do
    error_handler x.lhs.id ("Undeclared variable: " ++ x.lhs.name)
    pure none
  | some lhs => do
    let rhs ← expression_ n x.rhs
    match rhs with
    | none => pure none
    | some rhs => do
      CreateStore rhs lhs
      pure (some rhs)

/-- The function `create_entry_block_alloca`: an alloca inserted at the
beginning of the entry block of `function`. -/
def create_entry_block_alloca (function : Option String) (var : String) : gen Value := fun c =>
  match function with
  | none => .null_dereference
  | some f =>
    match getFunction f c with
    | none => .null_dereference
    | some fn =>
      match fn.blocks.head? with
      | none => .null_dereference
      | some entry =>
        .returns (.Alloca var)
          { c with
            blocks :=
              c.blocks.modify (fun bb => { bb with insts := .value (.Alloca var) :: bb.insts })
                entry }

/-- The routine `compiler::operator()(ast::variable_declaration const&)`. -/
def variable_declaration_ (n : Nat) (x : ast.variable_declaration) : gen Bool := fun c =>
  match named_values_find x.lhs.name c with
  | some _ =>
    (do
      error_handler x.lhs.id ("Duplicate variable: " ++ x.lhs.name)
      pure false) c
  | none =>
    (do
      let function ← getParent
      match x.rhs with
      | some rhs => do
        let init ← expression_ n rhs
        match init with
        | none => pure false
        | some init => do
          let alloca ← create_entry_block_alloca function x.lhs.name
          CreateStore init alloca
          named_values_assign x.lhs.name alloca
          pure true
      | none => do
        let alloca ← create_entry_block_alloca function x.lhs.name
        named_values_assign x.lhs.name alloca
        pure true) c

/-- The member `return_alloca`, as a pointer the builder dereferences. -/
def get_return_alloca : gen Value := fun c =>
  match c.return_alloca with
  | none => .null_dereference
  | some return_alloca => .returns return_alloca c

/-- The member `return_block`, as a pointer the builder dereferences. -/
def get_return_block : gen Nat := fun c =>
  match c.return_block with
  | none => .null_dereference
  | some return_block => .returns return_block c

/-- The routine `compiler::operator()(ast::return_statement const&)`. -/
def return_statement_ (n : Nat) (id : Nat) (expr : Option ast.expression) : gen Bool := fun c =>
  if c.void_return && expr.isSome then
    (do
      error_handler id "'void' function returning a value: "
      pure false) c
  else if !c.void_return && expr.isNone then
    (do
      error_handler id (c.current_function_name ++ " function must return a value: ")
      pure false) c
  else
    match expr with
    | some expr =>
      (do
        let return_val ← expression_ n expr
        match return_val with
        | none => pure false
        | some return_val => do
          let return_alloca ← get_return_alloca
          CreateStore return_val return_alloca
          let return_block ← get_return_block
          CreateBr return_block
          pure true) c
    | none =>
      (do
        let return_block ← get_return_block
        CreateBr return_block
        pure true) c

/-- The lines `if (block->getTerminator() == 0) { if (exit_block == 0)
exit_block = BasicBlock::Create(context(), "if.end");
builder.CreateBr(exit_block); }` of `operator()(ast::if_statement const&)`;
the result is the new `exit_block`. -/
def if_statement_fall_through (block : Nat) (exit_block : Option Nat) : gen (Option Nat) := do
  let terminator ← getTerminator block
  match terminator with
  | some _ => pure exit_block
  | none =>
    match exit_block with
    | none => do
      let exit_block ← BasicBlock_Create "if.end"
      CreateBr exit_block
      pure (some exit_block)
    | some exit_block => do
      CreateBr exit_block
      pure (some exit_block)

/-- The lines `if (x.else_) { else_block = BasicBlock::Create(context(),
"if.else"); builder.CreateCondBr(condition, then_block, else_block); } else {
exit_block = BasicBlock::Create(context(), "if.end");
builder.CreateCondBr(condition, then_block, exit_block); }` of
`operator()(ast::if_statement const&)`; the result is the pair of
`else_block` and `exit_block`. -/
def if_statement_branch (condition : Value) (then_block : Nat) (has_else : Bool) :
    gen (Option Nat × Option Nat) :=
  if has_else then do
    let else_block ← BasicBlock_Create "if.else"
    CreateCondBr condition then_block else_block
    pure (some else_block, none)
  else do
    let exit_block ← BasicBlock_Create "if.end"
    CreateCondBr condition then_block exit_block
    pure (none, some exit_block)

/-- The lines `if (exit_block != 0) { push_back(exit_block);
SetInsertPoint(exit_block); } return true;` of
`operator()(ast::if_statement const&)`. -/
def if_statement_exit (function : Option String) (exit_block : Option Nat) : gen Bool :=
  match exit_block with
  | none => pure true
  | some exit_block => do
    push_back function exit_block
    SetInsertPoint exit_block
    pure true

mutual

/-- The routine `compiler::operator()(ast::statement const&)`: the visitor
`as_statement()` turns each result into a `bool`. -/
def statement_ : Nat → ast.statement → gen Bool
  | 0, _ => out_of_fuel
  | n + 1, .variable_declaration x => variable_declaration_ n x
  | n + 1, .assignment x => do
    let v ← assignment_ n x
    pure v.isSome
  | n + 1, .if_statement condition then_ else_ => if_statement_ n condition then_ else_
  | n + 1, .while_statement condition body => while_statement_ n condition body
  | n + 1, .return_statement id expr => return_statement_ n id expr
  | n + 1, .statement_list x => statement_list_ n x

/-- The routine `compiler::operator()(ast::statement_list const&)`. -/
def statement_list_ : Nat → List ast.statement → gen Bool
  | 0, _ => out_of_fuel
  | _ + 1, [] => pure true
  | n + 1, s :: rest => do
    let ok ← statement_ n s
    if ok then statement_list_ n rest else pure false

/-- The routine `compiler::operator()(ast::if_statement const&)`.  (The two
assignments `then_block = builder.GetInsertBlock()` and `else_block =
builder.GetInsertBlock()` are not read afterwards.) -/
def if_statement_ : Nat → ast.expression → ast.statement → Option ast.statement → gen Bool
  | 0, _, _, _ => out_of_fuel
  | n + 1, x_condition, x_then, x_else => do
    let condition ← expression_ n x_condition
    match condition with
    | none => pure false
    | some condition => do
      let function ← getParent
      let then_block ← BasicBlock_Create_in "if.then" function
      let (else_block, exit_block) ← if_statement_branch condition then_block x_else.isSome
      SetInsertPoint then_block
      let ok ← statement_ n x_then
      if ok then do
        let exit_block ← if_statement_fall_through then_block exit_block
        match x_else with
        | some x_else =>
          match else_block with
          | none => null_dereference
          | some else_block => do
            push_back function else_block
            SetInsertPoint else_block
            let ok ← statement_ n x_else
            if ok then do
              let exit_block ← if_statement_fall_through else_block exit_block
              if_statement_exit function exit_block
            else
              pure false
        | none => if_statement_exit function exit_block
      else
        pure false

/-- The routine `compiler::operator()(ast::while_statement const&)`. -/
def while_statement_ : Nat → ast.expression → ast.statement → gen Bool
  | 0, _, _ => out_of_fuel
  | n + 1, x_condition, x_body => do
    let function ← getParent
    let cond_block ← BasicBlock_Create_in "while.cond" function
    let body_block ← BasicBlock_Create "while.body"
    let exit_block ← BasicBlock_Create "while.end"
    CreateBr cond_block
    SetInsertPoint cond_block
    let condition ← expression_ n x_condition
    match condition with
    | none => pure false
    | some condition => do
      CreateCondBr condition body_block exit_block
      push_back function body_block
      SetInsertPoint body_block
      let ok ← statement_ n x_body
      if ok then do
        let terminator ← getTerminator body_block
        (match terminator with
          | none => CreateBr cond_block
          | some _ => pure ())
        push_back function exit_block
        SetInsertPoint exit_block
        pure true
      else
        pure false

end

/-! ## Functions -/

/-- The routine `compiler::function_decl`.  `Function::Create` gives the new
function another name when the requested one is taken; that function is
erased again at once, so only the function already in the module is touched. -/
def function_decl (x : ast.function) : gen (Option String) := fun c0 =>
  let c := { c0 with
    void_return := x.return_type == "void"
    current_function_name := x.function_name.name }
  match getFunction x.function_name.name c with
  | none =>
    .returns (some x.function_name.name)
      { c with
        module :=
          c.module ++
            [{ name := x.function_name.name
               void_return := x.return_type == "void"
               args := x.args.map (fun _ => "")
               blocks := [] }] }
  | some function =>
    if !function.blocks.isEmpty then
      (do
        error_handler x.function_name.id ("Duplicate function: " ++ x.function_name.name)
        pure none) c
    else if function.args.length ≠ x.args.length then
      (do
        error_handler x.function_name.id
          ("Redefinition of function with different # args: " ++ x.function_name.name)
        pure none) c
    else
      .returns (some x.function_name.name)
        { c with
          module :=
            c.module.map (fun g =>
              if g.name == x.function_name.name then
                { g with args := x.args.map (fun a => a.name) }
              else g) }

/-- The loop over `x.args` in `compiler::function_allocas`; `iter` is the
position of the argument iterator. -/
def function_allocas_args (function : String) : List ast.identifier → Nat → gen Unit
  | [], _ => pure ()
  | arg :: rest, iter => do
    let alloca ← create_entry_block_alloca (some function) arg.name
    CreateStore (.Argument function iter) alloca
    named_values_assign arg.name alloca
    function_allocas_args function rest (iter + 1)

/-- The routine `compiler::function_allocas`. -/
def function_allocas (x : ast.function) (function : String) : gen Unit := do
  function_allocas_args function x.args 0
  fun c =>
    if !c.void_return then
      (do
        let alloca ← create_entry_block_alloca (some function) "return.val"
        fun c1 => .returns () { c1 with return_alloca := some alloca }) c
    else
      .returns () c

/-- The call `function->eraseFromParent()`. -/
def eraseFromParent (function : String) : gen Unit := fun c =>
  .returns () { c with module := c.module.filter (fun g => !(g.name == function)) }

/-- The expression `&function->getBasicBlockList().back()`. -/
def back (function : String) : gen Nat := fun c =>
  match getFunction function c with
  | none => .null_dereference
  | some fn =>
    match fn.blocks.getLast? with
    | none => .null_dereference
    | some b => .returns b c

/-- The end of `compiler::operator()(ast::function const&)`: the return
instruction emitted into the return block. -/
def function_return : gen Unit := fun c =>
  if c.void_return then
    Insert .RetVoid c
  else
    match c.return_alloca with
    | none => .null_dereference
    | some return_alloca =>
      (do
        let v ← CreateLoad return_alloca "return.val"
        Insert (.Ret v)) c

/-- The assignment `return_block = ...` to the member. -/
def set_return_block (block : Nat) : gen Unit := fun c =>
  .returns () { c with return_block := some block }

/-- The routine `compiler::operator()(ast::function const&)`, up to the calls
of `llvm::verifyFunction` and of the optimizer, which belong to the backend. -/
def function_ (n : Nat) (x : ast.function) : gen Bool := do
  let function ← function_decl x
  match function with
  | none => pure false
  | some function =>
    match x.body with
    | none => pure true
    | some body => do
      let block ← BasicBlock_Create_in "entry" (some function)
      SetInsertPoint block
      function_allocas x function
      let return_block ← BasicBlock_Create "return"
      set_return_block return_block
      let ok ← statement_list_ n body
      if ok then do
        let last_block ← back function
        let terminator ← getTerminator last_block
        (match terminator with
          | none => do
            SetInsertPoint last_block
            let return_block ← get_return_block
            CreateBr return_block
          | some _ => pure ())
        let return_block ← get_return_block
        push_back (some function) return_block
        SetInsertPoint return_block
        function_return
        pure true
      else do
        eraseFromParent function
        pure false

/-- The call `named_values.clear()`. -/
def named_values_clear : gen Unit := fun c =>
  .returns () { c with named_values := [] }

/-- The routine `compiler::operator()(ast::function_list const&)`. -/
def function_list_ (n : Nat) : List ast.function → gen Bool
  | [] => pure true
  | f :: rest => do
    named_values_clear
    let ok ← function_ n f
    if ok then function_list_ n rest else pure false

/-- A compiler on an empty module, before any function is compiled. -/
def compiler.init : compiler :=
  { blocks := []
    module := []
    insert_block := none
    named_values := []
    errors := []
    void_return := false
    current_function_name := ""
    return_alloca := none
    return_block := none }

/-! ## Definitions used to state the properties -/

/-- One result refines another: it ran out of fuel, or both are the same. -/
def Result.le {α : Type} (r r1 : Result α) : Prop := r = .out_of_fuel ∨ r = r1

/-- Pointwise refinement of routines. -/
def gen.le {α : Type} (m m1 : gen α) : Prop := ∀ c, Result.le (m c) (m1 c)

/-- The name is not bound to a slot: it is absent from the table or mapped
to a null pointer. -/
def undeclared (name : String) (c : compiler) : Prop :=
  named_values_find name c = none ∨ named_values_find name c = some none

/-- The expression `a op1 b op2 u` over three identifiers. -/
def flat3 (a : ast.identifier) (op1 : token) (b : ast.identifier) (op2 : token)
    (u : ast.identifier) : ast.expression :=
  .mk (.identifier a) [.mk op1 (.identifier b), .mk op2 (.identifier u)]

/-- The state in which the body of `int f(a, b)` is compiled: the entry block
holds the slots of `a`, `b` and of the return value, and the symbol table
binds `a` and `b`. -/
def in_f_a_b : compiler :=
  { blocks :=
      [ { name := "entry"
          parent := some "f"
          insts :=
            [ .value (.Alloca "return.val"), .value (.Alloca "b"), .value (.Alloca "a"),
              .Store (.Argument "f" 0) (.Alloca "a"), .Store (.Argument "f" 1) (.Alloca "b") ] },
        { name := "return", parent := none, insts := [] } ]
    module := [{ name := "f", void_return := false, args := ["", ""], blocks := [0] }]
    insert_block := some 0
    named_values := [("a", some (.Alloca "a")), ("b", some (.Alloca "b"))]
    errors := []
    void_return := false
    current_function_name := "f"
    return_alloca := some (.Alloca "return.val")
    return_block := some 1 }

/-- The blocks of the function `name`, in the order of its block list. -/
def function_blocks (name : String) (c : compiler) : List BasicBlock :=
  match getFunction name c with
  | none => []
  | some f => f.blocks.filterMap (fun b => c.blocks[b]?)

/-- A block has at most one terminator, and that is its last instruction. -/
def terminator_only_last (b : BasicBlock) : Bool :=
  b.insts.dropLast.all (fun i => !i.isTerminator)

/-- The state a run returned with success, if it did. -/
def Result.success : Result Bool → Option compiler
  | .returns true c => some c
  | _ => none

/-- The expression made of one literal. -/
def literal_expression (x : ast.literal) : ast.expression :=
  .mk (.literal x) []

/-- The statement `a = 1;`. -/
def assign_a_1 : ast.statement :=
  .assignment { lhs := ⟨8, "a"⟩, rhs := literal_expression (.uint 1) }

/-- The function `int f() { return 1; return 2; }`. -/
def two_returns : ast.function :=
  { return_type := "int"
    function_name := ⟨1, "f"⟩
    args := []
    body := some
      [ .return_statement 2 (some (literal_expression (.uint 1))),
        .return_statement 3 (some (literal_expression (.uint 2))) ] }

/-- The function `int f() { return 1; while (true) { } }`. -/
def return_then_while : ast.function :=
  { return_type := "int"
    function_name := ⟨1, "f"⟩
    args := []
    body := some
      [ .return_statement 2 (some (literal_expression (.uint 1))),
        .while_statement (literal_expression (.bool true)) (.statement_list []) ] }

/-- The name, the number of instructions and the presence of a terminator of
every block of the arena, with the insertion block. -/
def block_summary (c : compiler) : Option Nat × List (String × Nat × Bool) :=
  (c.insert_block, c.blocks.map (fun b => (b.name, b.insts.length, b.getTerminator.isSome)))

/-- For every block of the function `name`, which of its instructions are
terminators. -/
def terminator_flags (name : String) (c : compiler) : List (List Bool) :=
  (function_blocks name c).map (fun b => b.insts.map Instruction.isTerminator)

/-- The value a run returned, if it returned. -/
def Result.value? {α : Type} : Result α → Option α
  | .returns a _ => some a
  | _ => none

/-- The state a run returned in; `d` when it did not return. -/
def Result.state_or {α : Type} (r : Result α) (d : compiler) : compiler :=
  match r with
  | .returns _ c => c
  | _ => d

/-- The functions of the list are compiled one after the other, each on a
cleared symbol table, each with success; `c1` is the state after the last. -/
def all_succeed (n : Nat) : List ast.function → compiler → compiler → Prop
  | [], c, c1 => c1 = c
  | f :: rest, c, c1 =>
    ∃ c2, function_ n f { c with named_values := [] } = .returns true c2 ∧
      all_succeed n rest c2 c1

/-- The function `int bad() { return; }`, which fails to compile. -/
def bad_function : ast.function :=
  { return_type := "int"
    function_name := ⟨1, "bad"⟩
    args := []
    body := some [.return_statement 2 none] }

/-- The function `void good() { }`. -/
def good_function : ast.function :=
  { return_type := "void"
    function_name := ⟨3, "good"⟩
    args := []
    body := some [] }

/-- The names of the functions of the module and the reported errors. -/
def module_summary (c : compiler) : List String × List (Nat × String) :=
  (c.module.map (fun f => f.name), c.errors)

/-- A binary expression tree over the operands of a flat expression. -/
inductive expression_tree where
  | leaf (o : ast.operand)
  | node (op : token) (lhs rhs : expression_tree)

/-- The leftmost operand of a tree. -/
def expression_tree.first : expression_tree → ast.operand
  | .leaf o => o
  | .node _ l _ => l.first

/-- The operations of a tree after its leftmost operand, read left to
right. -/
def expression_tree.rest : expression_tree → List ast.operation
  | .leaf _ => []
  | .node op l r => l.rest ++ (.mk op r.first :: r.rest)

/-- The operators of a tree. -/
def expression_tree.operators : expression_tree → List token
  | .leaf _ => []
  | .node op l r => l.operators ++ (op :: r.operators)

/-- A tree respects the precedence table: under every operator, the right
subtree holds only operators of higher precedence (equal precedences group to
the left) and the left subtree only operators of the same or a higher
precedence. -/
def expression_tree.precedence_ordered : expression_tree → Prop
  | .leaf _ => True
  | .node op l r =>
    l.precedence_ordered ∧ r.precedence_ordered ∧
      (∀ o ∈ l.operators, precedence_of op ≤ precedence_of o) ∧
      (∀ o ∈ r.operators, precedence_of op < precedence_of o)

/-- The reference parse reads one more operation: the new operator goes down
the right spine while it binds tighter than the operator it meets, and takes
what it finds there as its left operand. -/
def expression_tree.insert (op : token) (o : ast.operand) : expression_tree → expression_tree
  | .leaf a => .node op (.leaf a) (.leaf o)
  | .node q l r =>
    if precedence_of op > precedence_of q then .node q l (insert op o r)
    else .node op (.node q l r) (.leaf o)

/-- The reference operator-precedence parse of the flat list
`first (op operand)*`. -/
def reference_parse (first : ast.operand) (rest : List ast.operation) : expression_tree :=
  rest.foldl (fun t x => t.insert x.operator_ x.operand_) (.leaf first)

/-- The value of a tree: the left subtree, then the right subtree, then the
instruction of the operator; a null value ends the evaluation. -/
def evaluate_tree (n : Nat) : expression_tree → gen (Option Value)
  | .leaf o => operand_ n o
  | .node op l r => do
    let lhs ← evaluate_tree n l
    match lhs with
    | none => pure none
    | some lhs => do
      let rhs ← evaluate_tree n r
      match rhs with
      | none => pure none
      | some rhs => compile_binary_expression (some lhs) (some rhs) op

/-- The value of a tree whose leftmost operand has already been evaluated to
`v0`. -/
def evaluate_from (n : Nat) (v0 : Value) : expression_tree → gen (Option Value)
  | .leaf _ => pure (some v0)
  | .node op l r => do
    let lhs ← evaluate_from n v0 l
    match lhs with
    | none => pure none
    | some lhs => do
      let rhs ← evaluate_tree n r
      match rhs with
      | none => pure none
      | some rhs => compile_binary_expression (some lhs) (some rhs) op

/-- The expression `1 + 2`. -/
def one_plus_two : ast.expression :=
  .mk (.literal (.uint 1)) [.mk .plus (.literal (.uint 2))]

/-- The expression `2 + 3 * 4`. -/
def two_plus_three_times_four : ast.expression :=
  .mk (.literal (.uint 2)) [.mk .plus (.literal (.uint 3)), .mk .times (.literal (.uint 4))]

/-- The number of return instructions of block `b` of the arena (0 when there
is no such block). -/
def ret_count (c : compiler) (b : Nat) : Nat :=
  match c.blocks[b]? with
  | some bb => bb.insts.countP Instruction.isReturn
  | none => 0

/-- The block list of the function `name` (empty when the module has no such
function). -/
def block_list (name : String) (c : compiler) : List Nat :=
  match getFunction name c with
  | some f => f.blocks
  | none => []

/-- What compiling expressions and statements leaves in place, from a state
`c` to a later state `c1`: no block is removed, no return instruction is
added to any block, a function's block list only gains blocks created since
`c`, and the members `void_return`, `return_alloca` and `return_block` keep
their values. -/
structure frame (c c1 : compiler) : Prop where
  length_le : c.blocks.length ≤ c1.blocks.length
  ret_count_eq : ∀ b, ret_count c1 b = ret_count c b
  block_list_sub : ∀ name b, b ∈ block_list name c1 → b ∈ block_list name c ∨ c.blocks.length ≤ b
  void_return_eq : c1.void_return = c.void_return
  return_alloca_eq : c1.return_alloca = c.return_alloca
  return_block_eq : c1.return_block = c.return_block

/-- Every run of the routine that returns is framed. -/
def gen.framed {α : Type} (m : gen α) : Prop :=
  ∀ c a c1, m c = .returns a c1 → frame c c1

/-- The number of return instructions in the blocks of the function
`name`. -/
def function_ret_count (name : String) (c : compiler) : Nat :=
  ((block_list name c).map (ret_count c)).sum

/-- From `c` to `c1` the module, the number of blocks, the return
instructions of every block and the member `void_return` are the same. -/
structure unchanged (c c1 : compiler) : Prop where
  module_eq : c1.module = c.module
  length_eq : c1.blocks.length = c.blocks.length
  ret_count_eq : ∀ b, ret_count c1 b = ret_count c b
  void_return_eq : c1.void_return = c.void_return
  return_block_eq : c1.return_block = c.return_block

/-- The instructions of block `b` of the arena. -/
def insts_of (c : compiler) (b : Nat) : Option (List Instruction) :=
  (c.blocks[b]?).map (fun bb => bb.insts)

/-- The statement `return 1;`. -/
def return_1 : ast.statement :=
  .return_statement 9 (some (literal_expression (.uint 1)))

/-- The function `int f() { if (true) return 1; else return 2; }`. -/
def if_returns : ast.function :=
  { return_type := "int"
    function_name := ⟨1, "f"⟩
    args := []
    body := some
      [ .if_statement (literal_expression (.bool true))
          (.return_statement 2 (some (literal_expression (.uint 1))))
          (some (.return_statement 3 (some (literal_expression (.uint 2))))) ] }

/-- The state after the builder has inserted the instructions `insts`, in
order, at its insertion point. -/
def emitted (c : compiler) (insts : List Instruction) : compiler :=
  match c.insert_block with
  | none => c
  | some b =>
    { c with blocks := c.blocks.modify (fun bb => { bb with insts := bb.insts ++ insts }) b }

/-- The state after `error_handler(id, message)`: the error is added to the
reported ones and nothing else changes. -/
def reported (c : compiler) (id : Nat) (message : String) : compiler :=
  { c with errors := c.errors ++ [(id, message)] }

/-- The prototype `int f(a, b);`. -/
def prototype_f_a_b : ast.function :=
  { return_type := "int", function_name := ⟨1, "f"⟩, args := [⟨2, "a"⟩, ⟨3, "b"⟩], body := none }

/-- The prototype `int f(a);`. -/
def prototype_f_a : ast.function :=
  { return_type := "int", function_name := ⟨1, "f"⟩, args := [⟨2, "a"⟩], body := none }

/-- A module in which `f` is declared with two parameters and has no body. -/
def declared_f : compiler :=
  { compiler.init with
    module := [{ name := "f", void_return := false, args := ["", ""], blocks := [] }] }

/-- The expressions `es`, compiled one after the other from the state `c`
with fuel `m` each, all give a value: `vs` are the values in the order of
`es` and `c1` is the state after the last one. -/
def arguments_evaluate (m : Nat) :
    List ast.expression → compiler → List Value → compiler → Prop
  | [], c, vs, c1 => vs = [] ∧ c1 = c
  | e :: es, c, vs, c1 =>
    ∃ v c2 vs1, expression_ m e c = .returns (some v) c2 ∧
      arguments_evaluate m es c2 vs1 c1 ∧ vs = v :: vs1

/-- The expression that consists of the identifier `x` alone. -/
def identifier_expression (x : ast.identifier) : ast.expression :=
  .mk (.identifier x) []

/-- Every run of the routine that returns relates the state before to the
state after by `R`. -/
def gen.relates {α : Type} (R : compiler → compiler → Prop) (m : gen α) : Prop :=
  ∀ c a c1, m c = .returns a c1 → R c c1

/-- The relation `R` between a state and a later one holds across every
step that compiling an expression or a simple statement is made of: an
instruction other than an alloca inserted by the builder, a key added to or
a slot assigned in the symbol table, an error reported; and, when
`allocates` holds, an alloca put at the head of a block (a declaration does
that, an expression never does). -/
structure steps_closed (allocates : Prop) (R : compiler → compiler → Prop) : Prop where
  same : ∀ c, R c c
  chain : ∀ c c1 c2, R c c1 → R c1 c2 → R c c2
  insert : ∀ i c, i.isAlloca = false → R c (emitted c [i])
  alloca : allocates → ∀ var entry c,
    R c { c with
          blocks :=
            c.blocks.modify (fun bb => { bb with insts := .value (.Alloca var) :: bb.insts })
              entry }
  index : ∀ name c, R c { c with named_values := c.named_values ++ [(name, none)] }
  assign : ∀ name value c,
    R c { c with
          named_values :=
            c.named_values.filter (fun e => !(e.1 == name)) ++ [(name, some value)] }
  report : ∀ id message c, R c (reported c id message)

/-- The relation `R` holds across every step of an expression or a simple
statement, the alloca of a declaration included. -/
abbrev step_closed (R : compiler → compiler → Prop) : Prop :=
  steps_closed True R

/-- From `c` to `c1` the module, the insertion point and the function each
block belongs to are the same: only instructions, symbols and errors may
differ. -/
structure shape (c c1 : compiler) : Prop where
  module_eq : c1.module = c.module
  insert_block_eq : c1.insert_block = c.insert_block
  parents_eq : c1.blocks.map (fun bb => bb.parent) = c.blocks.map (fun bb => bb.parent)

/-- The lines of `compiler::operator()(ast::function const&)` between the
signature and the body: the entry block is created in the function and made
the insertion point, the slots of the arguments and of the return value are
allocated, and the return block is created. -/
def function_prologue (x : ast.function) (function : String) : gen Unit := do
  let block ← BasicBlock_Create_in "entry" (some function)
  SetInsertPoint block
  function_allocas x function
  let return_block ← BasicBlock_Create "return"
  set_return_block return_block

/-- The instruction table of the specification: the opcode emitted for each
operator of the closed set, and nothing for any other operator. -/
def specified_opcode : token → Option Opcode
  | .plus => some .Add
  | .minus => some .Sub
  | .times => some .Mul
  | .divide => some .SDiv
  | .equal => some .ICmpEQ
  | .not_equal => some .ICmpNE
  | .less => some .ICmpSLT
  | .less_equal => some .ICmpSLE
  | .greater => some .ICmpSGT
  | .greater_equal => some .ICmpSGE
  | .logical_or => some .Or
  | .logical_and => some .And
  | _ => none

/-- The precedence table of the specification, by operator class. -/
def specified_precedence : token → Nat
  | .times | .divide | .mod => 12
  | .plus | .minus => 11
  | .shift_left | .shift_right => 10
  | .less | .less_equal | .greater | .greater_equal => 9
  | .equal | .not_equal => 8
  | .bit_and => 7
  | .bit_xor => 6
  | .bit_or => 5
  | .logical_and => 4
  | .logical_or => 3
  | .assign | .plus_assign | .minus_assign | .times_assign | .divide_assign | .mod_assign
  | .bit_and_assign | .bit_xor_assign | .bitor_assign | .shift_left_assign
  | .shift_right_assign => 2
  | .comma => 1
  | .not_ => 0

/-- The operators with an entry in the `precedence` table: the binary
operators, all tokens but the unary-only `not_`. -/
def binary_operator : token → Bool
  | .not_ => false
  | _ => true

/-- The function `int f() { int x = 1; return x; }`. -/
def f_declares_x : ast.function :=
  { return_type := "int"
    function_name := ⟨1, "f"⟩
    args := []
    body := some
      [ .variable_declaration ⟨⟨2, "x"⟩, some (literal_expression (.uint 1))⟩,
        .return_statement 3 (some (identifier_expression ⟨4, "x"⟩)) ] }

/-- The function `int f(x) { return x; }`. -/
def f_takes_x : ast.function :=
  { return_type := "int"
    function_name := ⟨1, "f"⟩
    args := [⟨2, "x"⟩]
    body := some [.return_statement 3 (some (identifier_expression ⟨4, "x"⟩))] }

/-- The function `int g() { int x = 2; return x; }`. -/
def g_declares_x : ast.function :=
  { return_type := "int"
    function_name := ⟨5, "g"⟩
    args := []
    body := some
      [ .variable_declaration ⟨⟨6, "x"⟩, some (literal_expression (.uint 2))⟩,
        .return_statement 7 (some (identifier_expression ⟨8, "x"⟩)) ] }

/-- The function `int g() { return x; }`. -/
def g_uses_x : ast.function :=
  { return_type := "int"
    function_name := ⟨5, "g"⟩
    args := []
    body := some [.return_statement 7 (some (identifier_expression ⟨8, "x"⟩))] }

/-- The errors reported by a run that returned. -/
def Result.errors {α : Type} : Result α → Option (List (Nat × String))
  | .returns _ c => some c.errors
  | _ => none

/-- The statements of the list, compiled one after the other from the state
`c` with fuel `m` each, all succeed, and `c1` is the state after the last
one. -/
def statements_succeed (m : Nat) : List ast.statement → compiler → compiler → Prop
  | [], c, c1 => c1 = c
  | s :: rest, c, c1 =>
    ∃ c2, statement_ m s c = .returns true c2 ∧ statements_succeed m rest c2 c1

/-- The block `b` belongs to the function `f` and is the last block of the
block list of `f`. -/
def last_block_of (f : String) (b : Nat) (c : compiler) : Prop :=
  ∃ bb, c.blocks[b]? = some bb ∧ bb.parent = some f ∧ (block_list f c).getLast? = some b

/-- The builder inserts into the last block of the function `f`. -/
def at_end (f : String) (c : compiler) : Prop :=
  ∃ b, c.insert_block = some b ∧ last_block_of f b c

/-- From `c` to `c1` the module and the insertion point are the same and
every block of `c` is still there and belongs to the same function; blocks
may have been created and instructions inserted. -/
structure prolongs (c c1 : compiler) : Prop where
  module_eq : c1.module = c.module
  insert_block_eq : c1.insert_block = c.insert_block
  length_le : c.blocks.length ≤ c1.blocks.length
  parent_eq : ∀ (k : Nat) (bb : BasicBlock), c.blocks[k]? = some bb →
    ∃ bb1, c1.blocks[k]? = some bb1 ∧ bb1.parent = bb.parent

/-- The statement `while (a) { if (b) a = 1; }`. -/
def while_a_if_b : ast.statement :=
  .while_statement (identifier_expression ⟨1, "a"⟩)
    (.statement_list [.if_statement (identifier_expression ⟨2, "b"⟩) assign_a_1 none])

/-- The relation `R` also holds across the steps that change the layout of
the function: a detached block created, a block appended to a function, the
insertion point moved. -/
structure block_closed (R : compiler → compiler → Prop) extends steps_closed True R :
    Prop where
  create : ∀ name c,
    R c { c with blocks := c.blocks ++ [{ name := name, parent := none, insts := [] }] }
  push : ∀ (f : String) (block : Nat) c,
    R c { c with
          module := c.module.map
            (fun g => if g.name == f then { g with blocks := g.blocks ++ [block] } else g)
          blocks := c.blocks.modify (fun bb => { bb with parent := some f }) block }
  set_insert : ∀ block c, R c { c with insert_block := some block }

/-- In the list every alloca precedes every other instruction. -/
def allocas_first (insts : List Instruction) : Bool :=
  (insts.dropWhile Instruction.isAlloca).all (fun i => !i.isAlloca)

/-- Every block in which the allocas came first in `c` is such a block in
`c1`, and so is every block created since `c`. -/
def allocas_stay_first (c c1 : compiler) : Prop :=
  ∀ k, (∀ l, insts_of c k = some l → allocas_first l = true) →
    ∀ l1, insts_of c1 k = some l1 → allocas_first l1 = true

/-- The state after an alloca for `var` has been put at the head of the
block `entry`. -/
def alloca_at_head (c : compiler) (entry : Nat) (var : String) : compiler :=
  { c with
    blocks :=
      c.blocks.modify (fun bb => { bb with insts := .value (.Alloca var) :: bb.insts }) entry }

/-- The state after `named_values[name] = value`. -/
def bound (c : compiler) (name : String) (value : Value) : compiler :=
  { c with
    named_values := c.named_values.filter (fun e => !(e.1 == name)) ++ [(name, some value)] }

/-- The statement `if (a) { int x = b; }`. -/
def if_a_declare_x : ast.statement :=
  .if_statement (identifier_expression ⟨1, "a"⟩)
    (.statement_list
      [.variable_declaration ⟨⟨2, "x"⟩, some (identifier_expression ⟨3, "b"⟩)⟩])
    none

/-- The state in which the arm of an `if` in the body of `int f(a, b)` is
compiled: the builder inserts into the block `if.then`, the second block of
`f`. -/
def in_then_block : compiler :=
  { in_f_a_b with
    blocks := in_f_a_b.blocks ++ [{ name := "if.then", parent := some "f", insts := [] }]
    module := [{ name := "f", void_return := false, args := ["", ""], blocks := [0, 2] }]
    insert_block := some 2 }

/-- The declaration `int x = b;`. -/
def int_x_is_b : ast.variable_declaration :=
  ⟨⟨2, "x"⟩, some (identifier_expression ⟨3, "b"⟩)⟩

/-- From `c` to `c1`, as across the compilation of a statement: blocks are
only added; the insertion point is the same or a block created since `c`; a
block of `c` keeps its instructions, with allocas possibly put before them
and, for the insertion block of `c` only, instructions appended; the block
list of every function keeps its blocks in order and gains only blocks
created since `c`, at its end. -/
structure grows (c c1 : compiler) : Prop where
  length_le : c.blocks.length ≤ c1.blocks.length
  insert_block :
    c1.insert_block = c.insert_block ∨ ∃ b, c1.insert_block = some b ∧ c.blocks.length ≤ b
  insts : ∀ k, k < c.blocks.length →
    ∃ pre post : List Instruction,
      insts_of c1 k = (insts_of c k).map (fun l => pre ++ l ++ post) ∧
        (∀ i ∈ pre, i.isAlloca = true) ∧ (c.insert_block ≠ some k → post = [])
  block_list : ∀ name, ∃ extra : List Nat,
    block_list name c1 = block_list name c ++ extra ∧ ∀ b ∈ extra, c.blocks.length ≤ b

/-- The block `k` has in `c1` the instructions it had in `c`, with allocas
possibly put before them. -/
def prepended (k : Nat) (c c1 : compiler) : Prop :=
  ∃ pre : List Instruction, (∀ i ∈ pre, i.isAlloca = true) ∧
    insts_of c1 k = (insts_of c k).map (fun l => pre ++ l)

/-- The first lines of `compiler::operator()(ast::while_statement const&)`:
the three blocks are created, the first of them in the function, the branch
to `while.cond` is emitted and `while.cond` is made the insertion point. -/
def while_statement_begin : gen (Option String × Nat × Nat × Nat) := do
  let function ← getParent
  let cond_block ← BasicBlock_Create_in "while.cond" function
  let body_block ← BasicBlock_Create "while.body"
  let exit_block ← BasicBlock_Create "while.end"
  CreateBr cond_block
  SetInsertPoint cond_block
  pure (function, cond_block, body_block, exit_block)

/-- The lines of `compiler::operator()(ast::while_statement const&)` between
the condition and the body: the conditional branch is emitted, `while.body`
is appended to the function and made the insertion point. -/
def while_statement_enter (function : Option String) (condition : Value)
    (body_block exit_block : Nat) : gen Unit := do
  CreateCondBr condition body_block exit_block
  push_back function body_block
  SetInsertPoint body_block

/-- The state in which the condition of `while (a) ...` is compiled, when
the statement is begun in the state `in_f_a_b`. -/
def while_a_begun : compiler :=
  (while_statement_begin in_f_a_b).state_or in_f_a_b

/-- The state after the condition `a` has been compiled in
`while_a_begun`. -/
def while_a_tested : compiler :=
  (expression_ 9 (identifier_expression ⟨1, "a"⟩) while_a_begun).state_or in_f_a_b

/-- The state in which the body of `while (a) ...` is compiled. -/
def while_a_entered : compiler :=
  (while_statement_enter (some "f") (.Load (.Alloca "a") "a") 3 4 while_a_tested).state_or
    in_f_a_b

/-- The body `{ if (b) a = 1; }`. -/
def if_b_body : ast.statement :=
  .statement_list [.if_statement (identifier_expression ⟨2, "b"⟩) assign_a_1 none]

@[simp] theorem gen_pure_apply {α : Type} (a : α) (c : compiler) :
    (pure a : gen α) c = .returns a c := rfl

theorem gen_bind_apply {α β : Type} (m : gen α) (k : α → gen β) (c : compiler) :
    (m >>= k) c = gen.bind m k c := rfl

theorem gen.le_refl {α : Type} (m : gen α) : gen.le m m := fun _ => Or.inr rfl

theorem gen.le_of_eq_out_of_fuel {α : Type} (m1 : gen α) : gen.le (out_of_fuel : gen α) m1 :=
  fun _ => Or.inl rfl

theorem gen.bind_le {α β : Type} {m m1 : gen α} {k k1 : α → gen β}
    (h : gen.le m m1) (hk : ∀ a, gen.le (k a) (k1 a)) : gen.le (m >>= k) (m1 >>= k1) := by
  intro c
  simp only [gen_bind_apply, gen.bind]
  rcases h c with h0 | h0
  · left; rw [h0]
  · rw [h0]
    cases hm : m1 c with
    | out_of_fuel => right; rfl
    | assertion_failed => right; rfl
    | null_dereference => right; rfl
    | returns a c1 => exact hk a c1

theorem fuel_mono_step : ∀ n : Nat,
    (∀ o, gen.le (operand_ n o) (operand_ (n + 1) o)) ∧
    (∀ op o, gen.le (unary_ n op o) (unary_ (n + 1) op o)) ∧
    (∀ f a, gen.le (function_call_ n f a) (function_call_ (n + 1) f a)) ∧
    (∀ a vs, gen.le (function_call_args n a vs) (function_call_args (n + 1) a vs)) ∧
    (∀ p l r, gen.le (compile_expression n p l r) (compile_expression (n + 1) p l r)) ∧
    (∀ op l r, gen.le (compile_expression_inner n op l r) (compile_expression_inner (n + 1) op l r)) ∧
    (∀ x, gen.le (expression_ n x) (expression_ (n + 1) x)) := by
  intro n
  induction n with
  | zero =>
    refine ⟨?_, ?_, ?_, ?_, ?_, ?_, ?_⟩ <;> intros <;>
      first
        | (rw [operand_]; exact gen.le_of_eq_out_of_fuel _)
        | (rw [unary_]; exact gen.le_of_eq_out_of_fuel _)
        | (rw [function_call_]; exact gen.le_of_eq_out_of_fuel _)
        | (rw [function_call_args]; exact gen.le_of_eq_out_of_fuel _)
        | (rw [compile_expression]; exact gen.le_of_eq_out_of_fuel _)
        | (rw [compile_expression_inner]; exact gen.le_of_eq_out_of_fuel _)
        | (rw [expression_]; exact gen.le_of_eq_out_of_fuel _)
  | succ n ih =>
    obtain ⟨ih1, ih2, ih3, ih4, ih5, ih6, ih7⟩ := ih
    refine ⟨?_, ?_, ?_, ?_, ?_, ?_, ?_⟩
    · intro o
      cases o with
      | literal x => rw [operand_, operand_]; exact gen.le_refl _
      | identifier x => rw [operand_, operand_]; exact gen.le_refl _
      | unary op o => rw [operand_, operand_]; exact ih2 op o
      | function_call f a => rw [operand_, operand_]; exact ih3 f a
      | expression x => rw [operand_, operand_]; exact ih7 x
    · intro op o
      rw [unary_, unary_]
      exact gen.bind_le (ih1 o) (fun _ => gen.le_refl _)
    · intro f a
      rw [function_call_, function_call_]
      intro c
      dsimp only
      split
      · right; rfl
      · split
        · right; rfl
        · exact gen.bind_le (ih4 a []) (fun _ => gen.le_refl _) c
    · intro a vs
      cases a with
      | nil => rw [function_call_args, function_call_args]; exact gen.le_refl _
      | cons e more =>
        rw [function_call_args, function_call_args]
        refine gen.bind_le (ih7 e) (fun v => ?_)
        cases v with
        | none => exact gen.le_refl _
        | some v => exact ih4 more _
    · intro p l r
      cases r with
      | nil => rw [compile_expression, compile_expression]; exact gen.le_refl _
      | cons o rest =>
        rw [compile_expression, compile_expression]
        split
        · refine gen.bind_le (ih1 _) (fun v => ?_)
          cases v with
          | none => exact gen.le_refl _
          | some v =>
            refine gen.bind_le (ih6 _ _ _) (fun v => ?_)
            exact gen.bind_le (gen.le_refl _) (fun v => ih5 _ _ _)
        · exact gen.le_refl _
    · intro op l r
      cases r with
      | nil => rw [compile_expression_inner, compile_expression_inner]; exact gen.le_refl _
      | cons o rest =>
        rw [compile_expression_inner, compile_expression_inner]
        split
        · refine gen.bind_le (ih5 _ _ _) (fun v => ?_)
          exact ih6 _ _ _
        · exact gen.le_refl _
    · intro x
      rw [expression_, expression_]
      refine gen.bind_le (ih1 _) (fun v => ?_)
      cases v with
      | none => exact gen.le_refl _
      | some v => exact gen.bind_le (ih5 _ _ _) (fun _ => gen.le_refl _)


theorem identifier_undeclared (x : ast.identifier) (c : compiler) (h : undeclared x.name c) :
    ∃ c1, identifier_ x c = .returns none c1 ∧ undeclared x.name c1 ∧
      c1.errors = c.errors ++ [(x.id, "Undeclared variable: " ++ x.name)] := by
  rcases h with h | h
  · simp only [identifier_, gen_bind_apply, gen.bind, named_values_index, h, error_handler,
      gen_pure_apply]
    refine ⟨_, rfl, ?_, rfl⟩
    right
    simp only [named_values_find] at h ⊢
    simp only [Option.map_eq_none'] at h
    simp [List.find?_append, h]
  · simp only [identifier_, gen_bind_apply, gen.bind, named_values_index, h, error_handler,
      gen_pure_apply]
    exact ⟨_, rfl, Or.inr h, rfl⟩

theorem compile_expression_inner_diverges (x : ast.identifier) (op2 : token) :
    ∀ (n : Nat) (op : token) (rhs : Option Value) (rest : List ast.operation) (c : compiler),
      precedence_of op2 > precedence_of op → undeclared x.name c →
      compile_expression_inner n op rhs (.mk op2 (.identifier x) :: rest) c = .out_of_fuel := by
  intro n
  induction n using Nat.strong_induction_on with
  | _ n ih =>
    intro op rhs rest c hp hu
    match n with
    | 0 => rw [compile_expression_inner]; rfl
    | 1 =>
      rw [compile_expression_inner]
      simp only [ast.operation.operator_, if_pos hp]
      rw [compile_expression]; rfl
    | 2 =>
      rw [compile_expression_inner]
      simp only [ast.operation.operator_, if_pos hp]
      rw [compile_expression]
      simp only [ast.operation.operator_, ast.operation.operand_, ge_iff_le, le_refl, if_true]
      rw [operand_]
      rfl
    | k + 3 =>
      obtain ⟨c1, h1, hu1, _⟩ := identifier_undeclared x c hu
      have h2 := ih (k + 2) (by omega) op none rest c1 hp hu1
      rw [compile_expression_inner]
      simp only [ast.operation.operator_, if_pos hp]
      rw [compile_expression]
      simp only [ast.operation.operator_, ast.operation.operand_, ge_iff_le, le_refl, if_true]
      rw [operand_]
      simp only [gen_bind_apply, gen.bind, h1, gen_pure_apply]
      exact h2


theorem identifier_declared (x : ast.identifier) (c : compiler) (v : Value)
    (h : named_values_find x.name c = some (some v)) :
    ∃ c1, identifier_ x c = .returns (some (.Load v x.name)) c1 ∧
      c1.named_values = c.named_values ∧ c1.errors = c.errors := by
  simp only [identifier_, gen_bind_apply, gen.bind, named_values_index, h, CreateLoad, Insert,
    gen_pure_apply]
  cases c.insert_block with
  | none => exact ⟨_, rfl, rfl, rfl⟩
  | some b => exact ⟨_, rfl, rfl, rfl⟩

theorem undeclared_of_named_values_eq {name : String} {c c1 : compiler}
    (h : c1.named_values = c.named_values) (hu : undeclared name c) : undeclared name c1 := by
  unfold undeclared named_values_find at *
  rw [h]
  exact hu

theorem expression_diverges (a b u : ast.identifier) (op1 op2 : token) (c : compiler)
    (va vb : Value)
    (ha : named_values_find a.name c = some (some va))
    (hb : named_values_find b.name c = some (some vb))
    (hu : undeclared u.name c) (hp : precedence_of op2 > precedence_of op1) (n : Nat) :
    expression_ n (flat3 a op1 b op2 u) c = .out_of_fuel := by
  obtain ⟨c1, h1, hn1, _⟩ := identifier_declared a c va ha
  have hb1 : named_values_find b.name c1 = some (some vb) := by
    unfold named_values_find at *
    rw [hn1]
    exact hb
  obtain ⟨c2, h2, hn2, _⟩ := identifier_declared b c1 vb hb1
  have hu2 : undeclared u.name c2 :=
    undeclared_of_named_values_eq hn2 (undeclared_of_named_values_eq hn1 hu)
  match n with
  | 0 => rw [expression_]; rfl
  | 1 => rw [expression_]; simp only [flat3, ast.expression.first]; rw [operand_]; rfl
  | 2 =>
    rw [expression_]
    simp only [flat3, ast.expression.first, ast.expression.rest]
    rw [operand_]
    simp only [gen_bind_apply, gen.bind, h1]
    rw [compile_expression]
    simp only [ast.operation.operator_, ast.operation.operand_, ge_iff_le, Nat.zero_le, if_true]
    rw [operand_]
    rfl
  | k + 3 =>
    have h := compile_expression_inner_diverges u op2 (k + 1) op1 (some (.Load vb b.name)) [] c2
      hp hu2
    rw [expression_]
    simp only [flat3, ast.expression.first, ast.expression.rest]
    rw [operand_]
    simp only [gen_bind_apply, gen.bind, h1]
    rw [compile_expression]
    simp only [ast.operation.operator_, ast.operation.operand_, ge_iff_le, Nat.zero_le, if_true]
    rw [operand_]
    simp only [gen_bind_apply, gen.bind, h2, h]


/-- C2 (the code does not do this): evaluating `a + b * u`, with `a` and `b`
declared and `u` not, never ends.  The operand `u` follows the
higher-precedence `*`, so it is compiled by the recursive call made from the
inner loop; that call returns null without moving the cursor, and the inner
loop calls it again for ever: whatever the fuel, the run is out of fuel. -/
theorem expression_a_plus_b_times_u_never_returns (n : Nat) :
    expression_ n (flat3 ⟨5, "a"⟩ .plus ⟨6, "b"⟩ .times ⟨7, "u"⟩) in_f_a_b = .out_of_fuel :=
  expression_diverges ⟨5, "a"⟩ ⟨6, "b"⟩ ⟨7, "u"⟩ .plus .times in_f_a_b (.Alloca "a")
    (.Alloca "b") rfl rfl (Or.inl rfl) (by decide) n

/-- C3 (the code does not do this): evaluating `a < b + u` with `u`
undeclared never returns the failure sentinel, whatever the fuel: the
undeclared identifier follows the higher-precedence `+`, and the loop that
compiles it does not end. -/
theorem expression_a_less_b_plus_u_no_failure_sentinel (n : Nat) (c1 : compiler) :
    expression_ n (flat3 ⟨5, "a"⟩ .less ⟨6, "b"⟩ .plus ⟨7, "u"⟩) in_f_a_b ≠
      .returns none c1 := by
  rw [expression_diverges ⟨5, "a"⟩ ⟨6, "b"⟩ ⟨7, "u"⟩ .less .plus in_f_a_b (.Alloca "a")
    (.Alloca "b") rfl rfl (Or.inl rfl) (by decide) n]
  exact fun h => Result.noConfusion h

/-- C4 (the code does not do this): a statement that follows a `return` is
compiled into the block the `return` has just terminated.  In
`int f() { return 1; return 2; }` the entry block ends up with two branches,
the first followed by a store; in `int f() { return 1; while (true) { } }` the
branch into `while.cond` is appended after the branch of the `return`. -/
theorem statement_after_return_appends_past_terminator :
    ((function_ 10 two_returns compiler.init).success.map (terminator_flags "f") =
        some [[false, false, true, false, true], [false, true]]) ∧
    ((function_ 10 two_returns compiler.init).success.map
        (fun c => (function_blocks "f" c).map terminator_only_last) = some [false, true]) ∧
    ((function_ 10 return_then_while compiler.init).success.map (terminator_flags "f") =
        some [[false, false, true, true], [true], [true], [true], [false, true]]) := by
  decide!

/-- C5 (the code does not do this): in `if (true) { if (true) a = 1; }` the
then arm ends in the merge block of the nested `if` (block 5), which is left
empty: the outer `if` tests the terminator of its `if.then` block (block 2,
closed by the nested conditional branch) instead of the block where the arm
ended, and emits no fall-through branch into its own merge block (block
3). -/
theorem if_arm_with_nested_if_gets_no_fall_through :
    (if_statement_ 10 (literal_expression (.bool true))
        (.if_statement (literal_expression (.bool true)) assign_a_1 none) none
        in_f_a_b).success.map block_summary =
      some (some 3,
        [ ("entry", 6, true), ("return", 0, false), ("if.then", 1, true), ("if.end", 0, false),
          ("if.then", 2, true), ("if.end", 0, false) ]) := by
  decide!

/-- C6 (the code does not do this): in `while (true) { if (true) a = 1; }`
the body ends in the merge block of the nested `if` (block 6), which is left
empty: the loop tests the terminator of its `while.body` block (block 3,
closed by the nested conditional branch) instead of the block where the body
ended, and appends no branch back to `while.cond`. -/
theorem while_body_with_nested_if_gets_no_back_branch :
    (while_statement_ 10 (literal_expression (.bool true))
        (.if_statement (literal_expression (.bool true)) assign_a_1 none)
        in_f_a_b).success.map block_summary =
      some (some 4,
        [ ("entry", 6, true), ("return", 0, false), ("while.cond", 1, true),
          ("while.body", 1, true), ("while.end", 0, false), ("if.then", 2, true),
          ("if.end", 0, false) ]) := by
  decide!

theorem Result.eq_returns_of_value {α : Type} (r : Result α) (a : α) (d : compiler)
    (h : r.value? = some a) : r = .returns a (r.state_or d) := by
  cases r with
  | returns b c =>
    simp only [Result.value?, Option.some.injEq] at h
    rw [h]
    rfl
  | out_of_fuel => simp [Result.value?] at h
  | assertion_failed => simp [Result.value?] at h
  | null_dereference => simp [Result.value?] at h

theorem function_list_cons (n : Nat) (f : ast.function) (rest : List ast.function)
    (c : compiler) :
    function_list_ n (f :: rest) c =
      match function_ n f { c with named_values := [] } with
      | .returns true c1 => function_list_ n rest c1
      | .returns false c1 => .returns false c1
      | .out_of_fuel => .out_of_fuel
      | .assertion_failed => .assertion_failed
      | .null_dereference => .null_dereference := by
  rw [function_list_]
  simp only [gen_bind_apply, gen.bind, named_values_clear]
  cases function_ n f { c with named_values := [] } with
  | returns b c1 => cases b <;> rfl
  | out_of_fuel => rfl
  | assertion_failed => rfl
  | null_dereference => rfl

theorem function_list_true_iff (n : Nat) (fs : List ast.function) :
    ∀ c c1, function_list_ n fs c = .returns true c1 ↔ all_succeed n fs c c1 := by
  induction fs with
  | nil =>
    intro c c1
    simp only [function_list_, gen_pure_apply, all_succeed, Result.returns.injEq, true_and]
    exact eq_comm
  | cons f rest ih =>
    intro c c1
    rw [function_list_cons, all_succeed]
    cases h : function_ n f { c with named_values := [] } with
    | returns b c2 =>
      cases b with
      | true =>
        simp only [ih, Result.returns.injEq, true_and, exists_eq_left']
      | false =>
        simp only [Result.returns.injEq, Bool.false_eq_true, false_and, exists_false]
    | out_of_fuel => simp
    | assertion_failed => simp
    | null_dereference => simp

theorem function_list_false_iff (n : Nat) (fs : List ast.function) :
    ∀ c c1, function_list_ n fs c = .returns false c1 ↔
      ∃ pre f post c2, fs = pre ++ f :: post ∧ all_succeed n pre c c2 ∧
        function_ n f { c2 with named_values := [] } = .returns false c1 := by
  induction fs with
  | nil =>
    intro c c1
    simp [function_list_]
  | cons f rest ih =>
    intro c c1
    rw [function_list_cons]
    constructor
    · intro h
      cases hf : function_ n f { c with named_values := [] } with
      | returns b c2 =>
        rw [hf] at h
        cases b with
        | true =>
          obtain ⟨pre, f0, post, c3, he, hs, hfail⟩ := (ih c2 c1).mp h
          exact ⟨f :: pre, f0, post, c3, by rw [he]; rfl, ⟨c2, hf, hs⟩, hfail⟩
        | false =>
          simp only [Result.returns.injEq, true_and] at h
          subst h
          exact ⟨[], f, rest, c, rfl, rfl, hf⟩
      | out_of_fuel => rw [hf] at h; exact Result.noConfusion h
      | assertion_failed => rw [hf] at h; exact Result.noConfusion h
      | null_dereference => rw [hf] at h; exact Result.noConfusion h
    · rintro ⟨pre, f0, post, c3, he, hs, hfail⟩
      cases pre with
      | nil =>
        simp only [List.nil_append, List.cons.injEq] at he
        obtain ⟨rfl, rfl⟩ := he
        simp only [all_succeed] at hs
        subst hs
        rw [hfail]
      | cons p ps =>
        simp only [List.cons_append, List.cons.injEq] at he
        obtain ⟨rfl, rfl⟩ := he
        obtain ⟨c2, hp, hs2⟩ := hs
        rw [hp]
        exact (ih c2 c1).mpr ⟨ps, f0, post, c3, rfl, hs2, hfail⟩

/-- C9 (counterexample): `[bad, good]`, where `int bad() { return; }` fails
and `void good() { }` would compile, returns failure with an empty module and
the single error of `bad`: `good`, which on its own is compiled into the
module, is not attempted after the failure of `bad`. -/
theorem function_list_does_not_attempt_after_failure :
    (function_list_ 10 [bad_function, good_function] compiler.init).value? = some false ∧
    module_summary
        ((function_list_ 10 [bad_function, good_function] compiler.init).state_or
          compiler.init) =
      ([], [(2, "bad function must return a value: ")]) ∧
    (function_list_ 10 [good_function] compiler.init).value? = some true ∧
    module_summary
        ((function_list_ 10 [good_function] compiler.init).state_or compiler.init) =
      (["good"], []) := by
  decide!

/-- C9 (amended): the functions of a list are compiled in order up to the
first one that fails.  When the functions of `pre` all compile and `f` then
fails, the list `pre ++ f :: post` returns failure in the state the failure of
`f` left, whatever `post` is: the functions after `f` are not attempted. -/
theorem function_list_stops_at_first_failure (n : Nat) (pre post : List ast.function)
    (f : ast.function) (c c1 c2 : compiler) (hpre : all_succeed n pre c c1)
    (hf : function_ n f { c1 with named_values := [] } = .returns false c2) :
    function_list_ n (pre ++ f :: post) c = .returns false c2 :=
  (function_list_false_iff n (pre ++ f :: post) c c2).mpr ⟨pre, f, post, c1, rfl, hpre, hf⟩

/-- A concrete instance of C9 (amended): `bad` fails on the initial compiler,
so `[bad, good]` returns failure in the state `bad` left. -/
theorem function_list_stops_at_first_failure_witness :
    function_list_ 10 ([] ++ bad_function :: [good_function]) compiler.init =
      .returns false
        ((function_ 10 bad_function { compiler.init with named_values := [] }).state_or
          compiler.init) :=
  function_list_stops_at_first_failure 10 [] [good_function] bad_function compiler.init
    compiler.init _ rfl (Result.eq_returns_of_value _ false compiler.init (by decide!))

/-- C10: `operator()(ast::function_list)` returns success exactly when every
function of the list, compiled in turn on a cleared symbol table, succeeded;
it returns failure exactly when some function, reached after the success of
all functions before it, failed; and it returns success for the empty
list. -/
theorem function_list_success_iff_all_succeed (n : Nat) (fs : List ast.function)
    (c : compiler) :
    (∀ c1, function_list_ n fs c = .returns true c1 ↔ all_succeed n fs c c1) ∧
    (∀ c1, function_list_ n fs c = .returns false c1 ↔
      ∃ pre f post c2, fs = pre ++ f :: post ∧ all_succeed n pre c c2 ∧
        function_ n f { c2 with named_values := [] } = .returns false c1) ∧
    function_list_ n [] c = .returns true c :=
  ⟨function_list_true_iff n fs c, function_list_false_iff n fs c, rfl⟩

/-! ## Precedence climbing (C1) -/

/-! ### Fuel -/

theorem gen.le_trans {α : Type} {m1 m2 m3 : gen α} (h1 : gen.le m1 m2) (h2 : gen.le m2 m3) :
    gen.le m1 m3 := by
  intro c
  rcases h1 c with h | h
  · exact Or.inl h
  · rw [h]; exact h2 c

theorem gen.le_returns {α : Type} {m1 m2 : gen α} (h : gen.le m1 m2) {c c1 : compiler} {a : α}
    (hr : m1 c = .returns a c1) : m2 c = .returns a c1 := by
  rcases h c with h0 | h0
  · rw [hr] at h0; exact Result.noConfusion h0
  · rw [← h0]; exact hr

theorem operand_le (o : ast.operand) {n m : Nat} (h : n ≤ m) :
    gen.le (operand_ n o) (operand_ m o) := by
  induction h with
  | refl => exact gen.le_refl _
  | step _ ih => exact gen.le_trans ih ((fuel_mono_step _).1 o)

theorem compile_expression_le (p : Nat) (l : Option Value) (r : List ast.operation)
    {n m : Nat} (h : n ≤ m) :
    gen.le (compile_expression n p l r) (compile_expression m p l r) := by
  induction h with
  | refl => exact gen.le_refl _
  | step _ ih => exact gen.le_trans ih ((fuel_mono_step _).2.2.2.2.1 p l r)

theorem compile_expression_inner_le (op : token) (l : Option Value) (r : List ast.operation)
    {n m : Nat} (h : n ≤ m) :
    gen.le (compile_expression_inner n op l r) (compile_expression_inner m op l r) := by
  induction h with
  | refl => exact gen.le_refl _
  | step _ ih => exact gen.le_trans ih ((fuel_mono_step _).2.2.2.2.2.1 op l r)

theorem expression_le (x : ast.expression) {n m : Nat} (h : n ≤ m) :
    gen.le (expression_ n x) (expression_ m x) := by
  induction h with
  | refl => exact gen.le_refl _
  | step _ ih => exact gen.le_trans ih ((fuel_mono_step _).2.2.2.2.2.2 x)

/-! ### Inversion of a bind -/

theorem gen_bind_returns {α β : Type} {m : gen α} {k : α → gen β} {c c2 : compiler} {b : β}
    (h : gen.bind m k c = .returns b c2) :
    ∃ a c1, m c = .returns a c1 ∧ k a c1 = .returns b c2 := by
  unfold gen.bind at h
  cases hm : m c with
  | returns a c1 => rw [hm] at h; exact ⟨a, c1, rfl, h⟩
  | out_of_fuel => rw [hm] at h; exact Result.noConfusion h
  | assertion_failed => rw [hm] at h; exact Result.noConfusion h
  | null_dereference => rw [hm] at h; exact Result.noConfusion h

theorem gen_bind_eq_of_returns {α β : Type} {m : gen α} {k : α → gen β} {c c1 : compiler}
    {a : α} (h : m c = .returns a c1) : gen.bind m k c = k a c1 := by
  unfold gen.bind
  rw [h]

theorem Insert_returns (i : Instruction) (c : compiler) : ∃ c1, Insert i c = .returns () c1 := by
  unfold Insert
  cases c.insert_block <;> exact ⟨_, rfl⟩

theorem CreateBinOp_some (opc : Opcode) (lhs rhs : Value) :
    CreateBinOp opc (some lhs) (some rhs) =
      if IRBuilder.returnsLHS opc rhs = true then
        pure (some lhs)
      else if (lhs.isConstant && rhs.isConstant) = true then
        pure (some (ConstantFolder.CreateBinOp opc lhs rhs))
      else
        (do
          Insert (.value (.BinOp opc lhs rhs))
          pure (some (.BinOp opc lhs rhs))) :=
  rfl

theorem CreateBinOp_returns {opc : Opcode} {lhs rhs : Option Value} {c c1 : compiler}
    {r : Option Value} (h : CreateBinOp opc lhs rhs c = .returns r c1) : ∃ v, r = some v := by
  cases lhs with
  | none => exact Result.noConfusion h
  | some l =>
    cases rhs with
    | none => exact Result.noConfusion h
    | some r0 =>
      obtain ⟨c2, hI⟩ := Insert_returns (.value (.BinOp opc l r0)) c
      rw [CreateBinOp_some] at h
      split at h
      · simp only [gen_pure_apply, Result.returns.injEq] at h
        exact ⟨_, h.1.symm⟩
      split at h
      · simp only [gen_pure_apply, Result.returns.injEq] at h
        exact ⟨_, h.1.symm⟩
      · simp only [gen_bind_apply] at h
        rw [gen_bind_eq_of_returns hI] at h
        simp only [gen_pure_apply, Result.returns.injEq] at h
        exact ⟨_, h.1.symm⟩

theorem compile_binary_expression_returns {lhs rhs : Option Value} {op : token}
    {c c1 : compiler} {r : Option Value}
    (h : compile_binary_expression lhs rhs op c = .returns r c1) : ∃ v, r = some v := by
  cases op <;>
    first
      | exact Result.noConfusion h
      | exact CreateBinOp_returns h


/-! ### One turn of each loop of `compile_expression` -/

theorem compile_expression_nil (n min : Nat) (lhs : Option Value) (c : compiler) :
    compile_expression (n + 1) min lhs [] c = .returns (lhs, []) c := by
  rw [compile_expression]; rfl

theorem compile_expression_stop (n min : Nat) (lhs : Option Value) (o : ast.operation)
    (t : List ast.operation) (c : compiler) (h : ¬ min ≤ precedence_of o.operator_) :
    compile_expression (n + 1) min lhs (o :: t) c = .returns (lhs, o :: t) c := by
  rw [compile_expression]
  simp only [ge_iff_le, if_neg h]
  rfl

theorem compile_expression_step {n min : Nat} {lhs : Option Value} {o : ast.operation}
    {t : List ast.operation} {c c0 c2 c3 : compiler} {r0 : Value} {rhs lhs2 : Option Value}
    {rest2 : List ast.operation} (h : min ≤ precedence_of o.operator_)
    (h1 : operand_ n o.operand_ c = .returns (some r0) c0)
    (h2 : compile_expression_inner n o.operator_ (some r0) t c0 = .returns (rhs, rest2) c2)
    (h3 : compile_binary_expression lhs rhs o.operator_ c2 = .returns lhs2 c3) :
    compile_expression (n + 1) min lhs (o :: t) c = compile_expression n min lhs2 rest2 c3 := by
  rw [compile_expression]
  simp only [ge_iff_le, if_pos h, gen_bind_apply]
  rw [gen_bind_eq_of_returns h1]
  simp only [gen_bind_apply]
  rw [gen_bind_eq_of_returns h2]
  simp only [gen_bind_apply]
  rw [gen_bind_eq_of_returns h3]

theorem compile_expression_inv {n min : Nat} {lhs : Option Value} {o : ast.operation}
    {t : List ast.operation} {c c1 : compiler} {v1 : Value} {rest1 : List ast.operation}
    (h : min ≤ precedence_of o.operator_)
    (hr : compile_expression (n + 1) min lhs (o :: t) c = .returns (some v1, rest1) c1) :
    ∃ r0 c0 rhs rest2 c2 lhs2 c3,
      operand_ n o.operand_ c = .returns (some r0) c0 ∧
      compile_expression_inner n o.operator_ (some r0) t c0 = .returns (rhs, rest2) c2 ∧
      compile_binary_expression lhs rhs o.operator_ c2 = .returns (some lhs2) c3 ∧
      compile_expression n min (some lhs2) rest2 c3 = .returns (some v1, rest1) c1 := by
  rw [compile_expression] at hr
  simp only [ge_iff_le, if_pos h, gen_bind_apply] at hr
  obtain ⟨r, c0, h1, hr⟩ := gen_bind_returns hr
  cases r with
  | none =>
    simp only [gen_pure_apply, Result.returns.injEq, Prod.mk.injEq] at hr
    exact absurd hr.1.1 (by simp)
  | some r0 =>
    simp only [gen_bind_apply] at hr
    obtain ⟨⟨rhs, rest2⟩, c2, h2, hr⟩ := gen_bind_returns hr
    simp only [gen_bind_apply] at hr
    obtain ⟨lhs2, c3, h3, hr⟩ := gen_bind_returns hr
    obtain ⟨w, rfl⟩ := compile_binary_expression_returns h3
    exact ⟨r0, c0, rhs, rest2, c2, w, c3, h1, h2, h3, hr⟩

theorem compile_expression_inner_nil (n : Nat) (op : token) (rhs : Option Value)
    (c : compiler) : compile_expression_inner (n + 1) op rhs [] c = .returns (rhs, []) c := by
  rw [compile_expression_inner]; rfl

theorem compile_expression_inner_stop (n : Nat) (op : token) (rhs : Option Value)
    (o : ast.operation) (t : List ast.operation) (c : compiler)
    (h : ¬ precedence_of op < precedence_of o.operator_) :
    compile_expression_inner (n + 1) op rhs (o :: t) c = .returns (rhs, o :: t) c := by
  rw [compile_expression_inner]
  simp only [gt_iff_lt, if_neg h]
  rfl

theorem compile_expression_inner_step {n : Nat} {op : token} {rhs rhs1 : Option Value}
    {o : ast.operation} {t rest1 : List ast.operation} {c c1 : compiler}
    (h : precedence_of op < precedence_of o.operator_)
    (h1 : compile_expression n (precedence_of o.operator_) rhs (o :: t) c =
      .returns (rhs1, rest1) c1) :
    compile_expression_inner (n + 1) op rhs (o :: t) c =
      compile_expression_inner n op rhs1 rest1 c1 := by
  rw [compile_expression_inner]
  simp only [gt_iff_lt, if_pos h, gen_bind_apply]
  rw [gen_bind_eq_of_returns h1]

/-- Running the outer loop with a higher threshold first, and then going on
with the lower one, is the run with the lower threshold. -/
theorem compile_expression_split (min1 min : Nat) (hmin : min1 ≤ min) :
    ∀ (n : Nat) (v : Value) (o : ast.operation) (t : List ast.operation) (c c1 : compiler)
      (v1 : Value) (rest1 : List ast.operation),
      min ≤ precedence_of o.operator_ →
      compile_expression n min1 (some v) (o :: t) c = .returns (some v1, rest1) c1 →
      ∃ v2 rest2 c2 n2, n2 < n ∧
        compile_expression n min (some v) (o :: t) c = .returns (some v2, rest2) c2 ∧
        compile_expression n2 min1 (some v2) rest2 c2 = .returns (some v1, rest1) c1 := by
  intro n
  induction n with
  | zero =>
    intro v o t c c1 v1 rest1 _ h
    rw [compile_expression] at h
    exact Result.noConfusion h
  | succ n ih =>
    intro v o t c c1 v1 rest1 ho h
    obtain ⟨r0, c0, rhs, rest2, c2, lhs2, c3, h1, h2, h3, h4⟩ :=
      compile_expression_inv (le_trans hmin ho) h
    rw [compile_expression_step ho h1 h2 h3]
    cases n with
    | zero => rw [compile_expression] at h4; exact Result.noConfusion h4
    | succ k =>
      cases rest2 with
      | nil =>
        exact ⟨lhs2, [], c3, k + 1, by omega, compile_expression_nil _ _ _ _, h4⟩
      | cons o2 t2 =>
        by_cases hp : min ≤ precedence_of o2.operator_
        · obtain ⟨v2, rest3, c4, n2, hn2, h5, h6⟩ := ih lhs2 o2 t2 c3 c1 v1 rest1 hp h4
          exact ⟨v2, rest3, c4, n2, by omega, h5, h6⟩
        · exact ⟨lhs2, o2 :: t2, c3, k + 1, by omega, compile_expression_stop _ _ _ _ _ _ hp, h4⟩

/-- The inner loop after `op` computes what the outer loop computes with the
threshold just above the precedence of `op`. -/
theorem compile_expression_inner_of_compile_expression (op : token) :
    ∀ (n : Nat) (v : Value) (rest : List ast.operation) (c c1 : compiler) (v1 : Value)
      (rest1 : List ast.operation),
      compile_expression n (precedence_of op + 1) (some v) rest c = .returns (some v1, rest1) c1 →
      ∃ m, compile_expression_inner m op (some v) rest c = .returns (some v1, rest1) c1 := by
  intro n
  induction n using Nat.strong_induction_on with
  | _ n ih =>
    intro v rest c c1 v1 rest1 h
    cases n with
    | zero => rw [compile_expression] at h; exact Result.noConfusion h
    | succ k =>
      cases rest with
      | nil =>
        rw [compile_expression_nil] at h
        exact ⟨1, by rw [compile_expression_inner_nil]; exact h⟩
      | cons o t =>
        by_cases hp : precedence_of op < precedence_of o.operator_
        · obtain ⟨v2, rest2, c2, n2, hn2, h5, h6⟩ :=
            compile_expression_split (precedence_of op + 1) (precedence_of o.operator_) hp
              (k + 1) v o t c c1 v1 rest1 (le_refl _) h
          obtain ⟨m, hm⟩ := ih n2 hn2 v2 rest2 c2 c1 v1 rest1 h6
          refine ⟨max (k + 1) m + 1, ?_⟩
          rw [compile_expression_inner_step hp
            (gen.le_returns (compile_expression_le _ _ _ (le_max_left (k + 1) m)) h5)]
          exact gen.le_returns (compile_expression_inner_le _ _ _ (le_max_right (k + 1) m)) hm
        · rw [compile_expression_stop _ _ _ _ _ _ (by omega)] at h
          exact ⟨1, by rw [compile_expression_inner_stop _ _ _ _ _ _ hp]; exact h⟩


/-! ### The reference parse -/

theorem operation_mk_eta (x : ast.operation) : ast.operation.mk x.operator_ x.operand_ = x := by
  cases x; rfl

theorem expression_tree.insert_first (op : token) (o : ast.operand) (t : expression_tree) :
    (t.insert op o).first = t.first := by
  induction t with
  | leaf a => rfl
  | node q l r _ ihr =>
    simp only [expression_tree.insert]
    split <;> rfl

theorem expression_tree.insert_rest (op : token) (o : ast.operand) (t : expression_tree) :
    (t.insert op o).rest = t.rest ++ [.mk op o] := by
  induction t with
  | leaf a => rfl
  | node q l r _ ihr =>
    simp only [expression_tree.insert]
    split
    · simp only [expression_tree.rest, ihr, expression_tree.insert_first, List.append_assoc,
        List.cons_append]
    · simp only [expression_tree.rest, expression_tree.first, List.append_nil]

theorem expression_tree.mem_insert_operators (op : token) (o : ast.operand)
    (t : expression_tree) (x : token) :
    x ∈ (t.insert op o).operators ↔ x = op ∨ x ∈ t.operators := by
  induction t with
  | leaf a => simp [expression_tree.insert, expression_tree.operators]
  | node q l r _ ihr =>
    simp only [expression_tree.insert]
    split
    · simp only [expression_tree.operators, List.mem_append, List.mem_cons, ihr]
      tauto
    · simp only [expression_tree.operators, List.mem_append, List.mem_cons, List.not_mem_nil,
        or_false]
      tauto

theorem expression_tree.insert_ordered (op : token) (o : ast.operand) (t : expression_tree)
    (h : t.precedence_ordered) : (t.insert op o).precedence_ordered := by
  induction t with
  | leaf a =>
    simp [expression_tree.insert, expression_tree.precedence_ordered, expression_tree.operators]
  | node q l r _ ihr =>
    obtain ⟨hl, hr, hlo, hro⟩ := h
    simp only [expression_tree.insert]
    split
    · rename_i hp
      refine ⟨hl, ihr hr, hlo, ?_⟩
      intro x hx
      rcases (expression_tree.mem_insert_operators op o r x).mp hx with rfl | hx
      · exact hp
      · exact hro x hx
    · rename_i hp
      refine ⟨⟨hl, hr, hlo, hro⟩, trivial, ?_, ?_⟩
      · intro x hx
        simp only [expression_tree.operators, List.mem_append, List.mem_cons] at hx
        rcases hx with hx | rfl | hx
        · exact le_trans (by omega) (hlo x hx)
        · omega
        · exact le_of_lt (lt_of_le_of_lt (by omega) (hro x hx))
      · intro x hx
        simp [expression_tree.operators] at hx

theorem reference_parse_fold (rest : List ast.operation) :
    ∀ t : expression_tree,
      (rest.foldl (fun t x => t.insert x.operator_ x.operand_) t).first = t.first ∧
      (rest.foldl (fun t x => t.insert x.operator_ x.operand_) t).rest = t.rest ++ rest ∧
      (t.precedence_ordered →
        (rest.foldl (fun t x => t.insert x.operator_ x.operand_) t).precedence_ordered) := by
  induction rest with
  | nil => intro t; simp
  | cons x xs ih =>
    intro t
    obtain ⟨h1, h2, h3⟩ := ih (t.insert x.operator_ x.operand_)
    refine ⟨?_, ?_, ?_⟩
    · rw [List.foldl_cons, h1, expression_tree.insert_first]
    · rw [List.foldl_cons, h2, expression_tree.insert_rest, operation_mk_eta]
      simp
    · intro ht
      exact h3 (expression_tree.insert_ordered _ _ _ ht)

theorem reference_parse_first (first : ast.operand) (rest : List ast.operation) :
    (reference_parse first rest).first = first :=
  (reference_parse_fold rest (.leaf first)).1

theorem reference_parse_rest (first : ast.operand) (rest : List ast.operation) :
    (reference_parse first rest).rest = rest := by
  have h := (reference_parse_fold rest (.leaf first)).2.1
  simpa [expression_tree.rest] using h

theorem reference_parse_ordered (first : ast.operand) (rest : List ast.operation) :
    (reference_parse first rest).precedence_ordered :=
  (reference_parse_fold rest (.leaf first)).2.2 trivial

/-! ### The value of a tree -/

theorem evaluate_tree_node_inv {n : Nat} {op : token} {l r : expression_tree} {c c1 : compiler}
    {v : Value} (h : evaluate_tree n (.node op l r) c = .returns (some v) c1) :
    ∃ lv cl rv cr, evaluate_tree n l c = .returns (some lv) cl ∧
      evaluate_tree n r cl = .returns (some rv) cr ∧
      compile_binary_expression (some lv) (some rv) op cr = .returns (some v) c1 := by
  simp only [evaluate_tree, gen_bind_apply] at h
  obtain ⟨lv, cl, h1, h⟩ := gen_bind_returns h
  cases lv with
  | none => simp at h
  | some lv =>
    simp only [gen_bind_apply] at h
    obtain ⟨rv, cr, h2, h⟩ := gen_bind_returns h
    cases rv with
    | none => simp at h
    | some rv => exact ⟨lv, cl, rv, cr, h1, h2, h⟩

theorem evaluate_from_node_inv {n : Nat} {v0 : Value} {op : token} {l r : expression_tree}
    {c c1 : compiler} {v : Value}
    (h : evaluate_from n v0 (.node op l r) c = .returns (some v) c1) :
    ∃ lv cl rv cr, evaluate_from n v0 l c = .returns (some lv) cl ∧
      evaluate_tree n r cl = .returns (some rv) cr ∧
      compile_binary_expression (some lv) (some rv) op cr = .returns (some v) c1 := by
  simp only [evaluate_from, gen_bind_apply] at h
  obtain ⟨lv, cl, h1, h⟩ := gen_bind_returns h
  cases lv with
  | none => simp at h
  | some lv =>
    simp only [gen_bind_apply] at h
    obtain ⟨rv, cr, h2, h⟩ := gen_bind_returns h
    cases rv with
    | none => simp at h
    | some rv => exact ⟨lv, cl, rv, cr, h1, h2, h⟩

theorem evaluate_tree_first (n : Nat) (t : expression_tree) :
    ∀ (c c1 : compiler) (v : Value), evaluate_tree n t c = .returns (some v) c1 →
      ∃ v0 c0, operand_ n t.first c = .returns (some v0) c0 ∧
        evaluate_from n v0 t c0 = .returns (some v) c1 := by
  induction t with
  | leaf o =>
    intro c c1 v h
    exact ⟨v, c1, h, rfl⟩
  | node op l r ihl _ =>
    intro c c1 v h
    obtain ⟨lv, cl, rv, cr, h1, h2, h3⟩ := evaluate_tree_node_inv h
    obtain ⟨v0, c0, h4, h5⟩ := ihl c cl lv h1
    refine ⟨v0, c0, h4, ?_⟩
    simp only [evaluate_from, gen_bind_apply]
    rw [gen_bind_eq_of_returns h5]
    simp only [gen_bind_apply]
    rw [gen_bind_eq_of_returns h2]
    exact h3

/-- The outer loop, started on the operations of a tree that respects the
precedence table, computes the value of the tree and goes on with what
follows the tree. -/
theorem compile_expression_tree (t : expression_tree) :
    t.precedence_ordered →
    ∀ (min n0 n1 : Nat) (v0 v : Value) (tail : List ast.operation) (c c1 c2 : compiler)
      (r : Option Value × List ast.operation),
      (∀ o ∈ t.operators, min ≤ precedence_of o) →
      (∀ x ∈ tail.head?, ∀ o ∈ t.operators, precedence_of x.operator_ ≤ precedence_of o) →
      evaluate_from n0 v0 t c = .returns (some v) c1 →
      compile_expression n1 min (some v) tail c1 = .returns r c2 →
      ∃ n, compile_expression n min (some v0) (t.rest ++ tail) c = .returns r c2 := by
  induction t with
  | leaf o =>
    intro _ min n0 n1 v0 v tail c c1 c2 r _ _ he hc
    simp only [evaluate_from, gen_pure_apply, Result.returns.injEq, Option.some.injEq] at he
    obtain ⟨rfl, rfl⟩ := he
    exact ⟨n1, hc⟩
  | node q l r ihl ihr =>
    intro hord min n0 n1 v0 v tail c c1 c2 res hmin htail he hc
    obtain ⟨hl, hr, hlo, hro⟩ := hord
    obtain ⟨lv, cl, rv, cr, h1, h2, h3⟩ := evaluate_from_node_inv he
    obtain ⟨r0, c0, h4, h5⟩ := evaluate_tree_first n0 r cl cr rv h2
    have hq : q ∈ (expression_tree.node q l r).operators := by
      simp [expression_tree.operators]
    have hsubl : ∀ o ∈ l.operators, o ∈ (expression_tree.node q l r).operators := by
      intro o ho; simp [expression_tree.operators, ho]
    have hsubr : ∀ o ∈ r.operators, o ∈ (expression_tree.node q l r).operators := by
      intro o ho; simp [expression_tree.operators, ho]
    -- the recursive call on the right operand stops in front of `tail`
    have hstop : compile_expression 1 (precedence_of q + 1) (some rv) tail cr =
        .returns (some rv, tail) cr := by
      cases tail with
      | nil => exact compile_expression_nil _ _ _ _
      | cons x xs =>
        have := htail x (by simp) q hq
        exact compile_expression_stop _ _ _ _ _ _ (by omega)
    obtain ⟨nr, hnr⟩ := ihr hr (precedence_of q + 1) n0 1 r0 rv tail c0 cr cr (some rv, tail)
      (fun o ho => hro o ho) (fun x hx o ho => htail x hx o (hsubr o ho)) h5 hstop
    obtain ⟨m, hm⟩ := compile_expression_inner_of_compile_expression q nr r0 (r.rest ++ tail)
      c0 cr rv tail hnr
    -- one turn of the outer loop consumes `q` and the right operand
    have hstep : compile_expression (max (max n0 m) n1 + 1) min (some lv)
        (.mk q r.first :: (r.rest ++ tail)) cl = .returns res c2 := by
      rw [compile_expression_step (o := .mk q r.first) (hmin q hq)
        (gen.le_returns (operand_le _ (le_trans (le_max_left n0 m) (le_max_left _ n1))) h4)
        (gen.le_returns (compile_expression_inner_le _ _ _
          (le_trans (le_max_right n0 m) (le_max_left _ n1))) hm) h3]
      exact gen.le_returns (compile_expression_le _ _ _ (le_max_right _ n1)) hc
    obtain ⟨n, hn⟩ := ihl hl min n0 _ v0 lv (.mk q r.first :: (r.rest ++ tail)) c cl c2 res
      (fun o ho => hmin o (hsubl o ho))
      (fun x hx o ho => by
        simp only [List.head?_cons, Option.mem_def, Option.some.injEq] at hx
        subst hx
        exact hlo o ho)
      h1 hstep
    refine ⟨n, ?_⟩
    simpa [expression_tree.rest, List.append_assoc] using hn

/-- C1: for every flat expression `first (op operand)*`, if the tree that the
reference operator-precedence parse builds from it (higher precedence binds
tighter, equal precedences group to the left) evaluates to `v` -- so all its
operands evaluate and all its operators are supported --, then with enough
fuel `operator()(ast::expression)` returns `v` in the same final state, and
`compile_expression` called with threshold 0 consumes the whole operation
list.  The reference tree has the operands and operators of the flat list in
order and respects the precedence table. -/
theorem expression_computes_reference_parse (first : ast.operand)
    (rest : List ast.operation) (c c1 : compiler) (v : Value) (n0 : Nat)
    (h : evaluate_tree n0 (reference_parse first rest) c = .returns (some v) c1) :
    (reference_parse first rest).precedence_ordered ∧
    (reference_parse first rest).first = first ∧
    (reference_parse first rest).rest = rest ∧
    ∃ N, ∀ n, N ≤ n →
      expression_ n (.mk first rest) c = .returns (some v) c1 ∧
      ∃ v0 c0, operand_ n first c = .returns (some v0) c0 ∧
        compile_expression n 0 (some v0) rest c0 = .returns (some v, []) c1 := by
  refine ⟨reference_parse_ordered first rest, reference_parse_first first rest,
    reference_parse_rest first rest, ?_⟩
  obtain ⟨v0, c0, h1, h2⟩ := evaluate_tree_first n0 _ c c1 v h
  rw [reference_parse_first] at h1
  obtain ⟨m, hm⟩ := compile_expression_tree _ (reference_parse_ordered first rest) 0 n0 1 v0 v []
    c0 c1 c1 (some v, []) (fun _ _ => Nat.zero_le _) (fun x hx => by simp at hx) h2
    (compile_expression_nil _ _ _ _)
  rw [reference_parse_rest, List.append_nil] at hm
  refine ⟨max n0 m + 1, fun n hn => ?_⟩
  obtain ⟨k, rfl⟩ : ∃ k, n = k + 1 := ⟨n - 1, by omega⟩
  have hk0 : n0 ≤ k := by omega
  have hkm : m ≤ k := by omega
  have ho := gen.le_returns (operand_le first hk0) h1
  have hc := gen.le_returns (compile_expression_le 0 (some v0) rest hkm) hm
  refine ⟨?_, v0, c0, gen.le_returns (operand_le first (Nat.le_succ k)) ho,
    gen.le_returns (compile_expression_le 0 (some v0) rest (Nat.le_succ k)) hc⟩
  rw [expression_]
  simp only [ast.expression.first, ast.expression.rest, gen_bind_apply]
  rw [gen_bind_eq_of_returns ho]
  simp only [gen_bind_apply]
  rw [gen_bind_eq_of_returns hc]
  rfl

/-- A concrete instance of C1: `2 + 3 * 4` evaluates to
`add(2, mul(3, 4))`, not to `mul(add(2, 3), 4)`. -/
theorem expression_computes_reference_parse_witness :
    (reference_parse two_plus_three_times_four.first
      two_plus_three_times_four.rest).precedence_ordered ∧
    (reference_parse two_plus_three_times_four.first two_plus_three_times_four.rest).first =
      two_plus_three_times_four.first ∧
    (reference_parse two_plus_three_times_four.first two_plus_three_times_four.rest).rest =
      two_plus_three_times_four.rest ∧
    ∃ N, ∀ n, N ≤ n →
      expression_ n (.mk two_plus_three_times_four.first two_plus_three_times_four.rest)
          in_f_a_b =
        .returns
          (some (.ConstantInt 32 14))
          ((evaluate_tree 5
            (reference_parse two_plus_three_times_four.first two_plus_three_times_four.rest)
            in_f_a_b).state_or in_f_a_b) ∧
      ∃ v0 c0, operand_ n two_plus_three_times_four.first in_f_a_b = .returns (some v0) c0 ∧
        compile_expression n 0 (some v0) two_plus_three_times_four.rest c0 =
          .returns
            (some (.ConstantInt 32 14), [])
            ((evaluate_tree 5
              (reference_parse two_plus_three_times_four.first two_plus_three_times_four.rest)
              in_f_a_b).state_or in_f_a_b) :=
  expression_computes_reference_parse _ _ in_f_a_b _ _ 5
    (Result.eq_returns_of_value _ _ in_f_a_b (by decide!))

theorem reference_parse_a_plus_b_times_c (a b c : ast.operand) :
    reference_parse a [.mk .plus b, .mk .times c] =
      .node .plus (.leaf a) (.node .times (.leaf b) (.leaf c)) := by
  rfl

theorem reference_parse_a_minus_b_minus_c (a b c : ast.operand) :
    reference_parse a [.mk .minus b, .mk .minus c] =
      .node .minus (.node .minus (.leaf a) (.leaf b)) (.leaf c) := by
  rfl

/-! ## Blocks, terminators and the single return (C7, C8) -/

/-! ### The frame of the primitives -/

theorem frame.frame_refl (c : compiler) : frame c c :=
  ⟨le_refl _, fun _ => rfl, fun _ _ h => Or.inl h, rfl, rfl, rfl⟩

theorem frame.frame_trans {c c1 c2 : compiler} (h1 : frame c c1) (h2 : frame c1 c2) : frame c c2 where
  length_le := le_trans h1.length_le h2.length_le
  ret_count_eq b := (h2.ret_count_eq b).trans (h1.ret_count_eq b)
  block_list_sub name b hb := by
    rcases h2.block_list_sub name b hb with h | h
    · exact h1.block_list_sub name b h
    · exact Or.inr (le_trans h1.length_le h)
  void_return_eq := h2.void_return_eq.trans h1.void_return_eq
  return_alloca_eq := h2.return_alloca_eq.trans h1.return_alloca_eq
  return_block_eq := h2.return_block_eq.trans h1.return_block_eq

theorem gen.framed_pure {α : Type} (a : α) : gen.framed (pure a : gen α) := by
  intro c b c1 h
  simp only [gen_pure_apply, Result.returns.injEq] at h
  rw [← h.2]
  exact frame.frame_refl c

theorem gen.framed_bind {α β : Type} {m : gen α} {k : α → gen β} (hm : gen.framed m)
    (hk : ∀ a, gen.framed (k a)) : gen.framed (m >>= k) := by
  intro c b c2 h
  obtain ⟨a, c1, h1, h2⟩ := gen_bind_returns h
  exact (hm c a c1 h1).frame_trans (hk a c1 b c2 h2)

theorem gen.framed_of_not_returns {α : Type} {m : gen α} (h : ∀ c a c1, m c ≠ .returns a c1) :
    gen.framed m :=
  fun c a c1 h1 => absurd h1 (h c a c1)

theorem framed_out_of_fuel {α : Type} : gen.framed (out_of_fuel : gen α) :=
  gen.framed_of_not_returns (fun _ _ _ h => Result.noConfusion h)

theorem framed_assertion_failed {α : Type} : gen.framed (assertion_failed : gen α) :=
  gen.framed_of_not_returns (fun _ _ _ h => Result.noConfusion h)

theorem framed_null_dereference {α : Type} : gen.framed (null_dereference : gen α) :=
  gen.framed_of_not_returns (fun _ _ _ h => Result.noConfusion h)

/-- A change of the instructions of one block that adds no return
instruction, everything else being kept, is framed. -/
theorem frame_modify (c : compiler) (k : Nat) (f : BasicBlock → BasicBlock)
    (hf : ∀ bb, (f bb).insts.countP Instruction.isReturn = bb.insts.countP Instruction.isReturn) :
    frame c { c with blocks := c.blocks.modify f k } where
  length_le := by simp
  ret_count_eq b := by
    simp only [ret_count, List.getElem?_modify]
    cases c.blocks[b]? with
    | none => rfl
    | some bb =>
      simp only [Option.map_eq_map, Option.map_some']
      split <;> simp [hf]
  block_list_sub _ _ h := Or.inl h
  void_return_eq := rfl
  return_alloca_eq := rfl
  return_block_eq := rfl

theorem framed_error_handler (id : Nat) (message : String) :
    gen.framed (error_handler id message) := by
  intro c a c1 h
  simp only [error_handler, Result.returns.injEq] at h
  rw [← h.2]
  exact ⟨le_refl _, fun _ => rfl, fun _ _ h => Or.inl h, rfl, rfl, rfl⟩

theorem framed_named_values_index (name : String) : gen.framed (named_values_index name) := by
  intro c a c1 h
  unfold named_values_index at h
  split at h <;> simp only [Result.returns.injEq] at h <;> rw [← h.2]
  · exact frame.frame_refl c
  · exact ⟨le_refl _, fun _ => rfl, fun _ _ h => Or.inl h, rfl, rfl, rfl⟩

theorem framed_named_values_assign (name : String) (value : Value) :
    gen.framed (named_values_assign name value) := by
  intro c a c1 h
  simp only [named_values_assign, Result.returns.injEq] at h
  rw [← h.2]
  exact ⟨le_refl _, fun _ => rfl, fun _ _ h => Or.inl h, rfl, rfl, rfl⟩

theorem framed_Insert (i : Instruction) (hi : i.isReturn = false) : gen.framed (Insert i) := by
  intro c a c1 h
  unfold Insert at h
  split at h <;> simp only [Result.returns.injEq] at h <;> rw [← h.2]
  · exact frame.frame_refl c
  · exact frame_modify c _ _ (fun bb => by simp [List.countP_append, List.countP_cons, hi])

theorem framed_SetInsertPoint (block : Nat) : gen.framed (SetInsertPoint block) := by
  intro c a c1 h
  simp only [SetInsertPoint, Result.returns.injEq] at h
  rw [← h.2]
  exact ⟨le_refl _, fun _ => rfl, fun _ _ h => Or.inl h, rfl, rfl, rfl⟩

theorem framed_CreateLoad (ptr : Value) (name : String) : gen.framed (CreateLoad ptr name) :=
  gen.framed_bind (framed_Insert _ rfl) (fun _ => gen.framed_pure _)

theorem framed_CreateNeg (v : Value) : gen.framed (CreateNeg v) := by
  unfold CreateNeg
  split
  · exact gen.framed_pure _
  · exact gen.framed_bind (framed_Insert _ rfl) (fun _ => gen.framed_pure _)

theorem framed_CreateNot (v : Value) : gen.framed (CreateNot v) := by
  unfold CreateNot
  split
  · exact gen.framed_pure _
  · exact gen.framed_bind (framed_Insert _ rfl) (fun _ => gen.framed_pure _)

theorem framed_CreateCall (callee : String) (args : List Value) :
    gen.framed (CreateCall callee args) :=
  gen.framed_bind (framed_Insert _ rfl) (fun _ => gen.framed_pure _)

theorem framed_CreateStore (v ptr : Value) : gen.framed (CreateStore v ptr) :=
  framed_Insert _ rfl

theorem framed_CreateBr (dest : Nat) : gen.framed (CreateBr dest) :=
  framed_Insert _ rfl

theorem framed_CreateCondBr (cond : Value) (t f : Nat) : gen.framed (CreateCondBr cond t f) :=
  framed_Insert _ rfl

theorem framed_CreateBinOp (opc : Opcode) (lhs rhs : Option Value) :
    gen.framed (CreateBinOp opc lhs rhs) := by
  cases lhs with
  | none => exact framed_null_dereference
  | some l =>
    cases rhs with
    | none => exact framed_null_dereference
    | some r =>
      rw [CreateBinOp_some]
      split
      · exact gen.framed_pure _
      split
      · exact gen.framed_pure _
      · exact gen.framed_bind (framed_Insert _ rfl) (fun _ => gen.framed_pure _)

theorem framed_compile_binary_expression (lhs rhs : Option Value) (op : token) :
    gen.framed (compile_binary_expression lhs rhs op) := by
  cases op <;> first | exact framed_CreateBinOp _ _ _ | exact framed_assertion_failed

theorem getParent_returns {c c1 : compiler} {f : Option String}
    (h : getParent c = .returns f c1) : c1 = c := by
  unfold getParent at h
  split at h
  · exact Result.noConfusion h
  · split at h
    · exact Result.noConfusion h
    · simp only [Result.returns.injEq] at h
      exact h.2.symm

theorem framed_getParent : gen.framed getParent := by
  intro c a c1 h
  rw [getParent_returns h]
  exact frame.frame_refl c

theorem getTerminator_returns {c c1 : compiler} {b : Nat} {t : Option Instruction}
    (h : getTerminator b c = .returns t c1) :
    c1 = c ∧ ∃ bb, c.blocks[b]? = some bb ∧ t = bb.getTerminator := by
  unfold getTerminator at h
  split at h
  · exact Result.noConfusion h
  · rename_i bb hb
    simp only [Result.returns.injEq] at h
    exact ⟨h.2.symm, bb, hb, h.1.symm⟩

theorem framed_getTerminator (b : Nat) : gen.framed (getTerminator b) := by
  intro c a c1 h
  rw [(getTerminator_returns h).1]
  exact frame.frame_refl c

theorem framed_literal (x : ast.literal) : gen.framed (literal_ x) := by
  cases x <;> exact gen.framed_pure _

theorem framed_identifier (x : ast.identifier) : gen.framed (identifier_ x) := by
  refine gen.framed_bind (framed_named_values_index _) (fun v => ?_)
  cases v with
  | none => exact gen.framed_bind (framed_error_handler _ _) (fun _ => gen.framed_pure _)
  | some v => exact gen.framed_bind (framed_CreateLoad _ _) (fun _ => gen.framed_pure _)


theorem expression_layer_framed : ∀ n : Nat,
    (∀ o, gen.framed (operand_ n o)) ∧
    (∀ op o, gen.framed (unary_ n op o)) ∧
    (∀ f a, gen.framed (function_call_ n f a)) ∧
    (∀ a vs, gen.framed (function_call_args n a vs)) ∧
    (∀ p l r, gen.framed (compile_expression n p l r)) ∧
    (∀ op l r, gen.framed (compile_expression_inner n op l r)) ∧
    (∀ x, gen.framed (expression_ n x)) := by
  intro n
  induction n with
  | zero =>
    refine ⟨?_, ?_, ?_, ?_, ?_, ?_, ?_⟩ <;> intros <;>
      first
        | (rw [operand_]; exact framed_out_of_fuel)
        | (rw [unary_]; exact framed_out_of_fuel)
        | (rw [function_call_]; exact framed_out_of_fuel)
        | (rw [function_call_args]; exact framed_out_of_fuel)
        | (rw [compile_expression]; exact framed_out_of_fuel)
        | (rw [compile_expression_inner]; exact framed_out_of_fuel)
        | (rw [expression_]; exact framed_out_of_fuel)
  | succ n ih =>
    obtain ⟨ih1, ih2, ih3, ih4, ih5, ih6, ih7⟩ := ih
    refine ⟨?_, ?_, ?_, ?_, ?_, ?_, ?_⟩
    · intro o
      cases o with
      | literal x => rw [operand_]; exact framed_literal x
      | identifier x => rw [operand_]; exact framed_identifier x
      | unary op o => rw [operand_]; exact ih2 op o
      | function_call f a => rw [operand_]; exact ih3 f a
      | expression x => rw [operand_]; exact ih7 x
    · intro op o
      rw [unary_]
      refine gen.framed_bind (ih1 o) (fun v => ?_)
      cases v with
      | none => exact gen.framed_pure _
      | some v =>
        cases op <;>
          first
            | exact framed_assertion_failed
            | exact gen.framed_pure _
            | exact gen.framed_bind (framed_CreateNeg _) (fun _ => gen.framed_pure _)
            | exact gen.framed_bind (framed_CreateNot _) (fun _ => gen.framed_pure _)
    · intro f a
      rw [function_call_]
      intro c r c1 h
      dsimp only at h
      split at h
      · exact gen.framed_bind (framed_error_handler _ _) (fun _ => gen.framed_pure _) c r c1 h
      · split at h
        · exact gen.framed_bind (framed_error_handler _ _) (fun _ => gen.framed_pure _) c r c1 h
        · refine gen.framed_bind (ih4 a []) (fun v => ?_) c r c1 h
          cases v with
          | none => exact gen.framed_pure _
          | some v => exact gen.framed_bind (framed_CreateCall _ _) (fun _ => gen.framed_pure _)
    · intro a vs
      cases a with
      | nil => rw [function_call_args]; exact gen.framed_pure _
      | cons e more =>
        rw [function_call_args]
        refine gen.framed_bind (ih7 e) (fun v => ?_)
        cases v with
        | none => exact gen.framed_pure _
        | some v => exact ih4 more _
    · intro p l r
      cases r with
      | nil => rw [compile_expression]; exact gen.framed_pure _
      | cons o rest =>
        rw [compile_expression]
        split
        · refine gen.framed_bind (ih1 _) (fun v => ?_)
          cases v with
          | none => exact gen.framed_pure _
          | some v =>
            refine gen.framed_bind (ih6 _ _ _) (fun v => ?_)
            exact gen.framed_bind (framed_compile_binary_expression _ _ _) (fun v => ih5 _ _ _)
        · exact gen.framed_pure _
    · intro op l r
      cases r with
      | nil => rw [compile_expression_inner]; exact gen.framed_pure _
      | cons o rest =>
        rw [compile_expression_inner]
        split
        · exact gen.framed_bind (ih5 _ _ _) (fun v => ih6 _ _ _)
        · exact gen.framed_pure _
    · intro x
      rw [expression_]
      refine gen.framed_bind (ih1 _) (fun v => ?_)
      cases v with
      | none => exact gen.framed_pure _
      | some v => exact gen.framed_bind (ih5 _ _ _) (fun _ => gen.framed_pure _)

theorem framed_expression (n : Nat) (x : ast.expression) : gen.framed (expression_ n x) :=
  (expression_layer_framed n).2.2.2.2.2.2 x

theorem framed_assignment (n : Nat) (x : ast.assignment) : gen.framed (assignment_ n x) := by
  refine gen.framed_bind (framed_named_values_index _) (fun v => ?_)
  cases v with
  | none => exact gen.framed_bind (framed_error_handler _ _) (fun _ => gen.framed_pure _)
  | some v =>
    refine gen.framed_bind (framed_expression n _) (fun r => ?_)
    cases r with
    | none => exact gen.framed_pure _
    | some r => exact gen.framed_bind (framed_CreateStore _ _) (fun _ => gen.framed_pure _)

theorem framed_create_entry_block_alloca (function : Option String) (var : String) :
    gen.framed (create_entry_block_alloca function var) := by
  intro c a c1 h
  unfold create_entry_block_alloca at h
  split at h
  · exact Result.noConfusion h
  · split at h
    · exact Result.noConfusion h
    · split at h
      · exact Result.noConfusion h
      · simp only [Result.returns.injEq] at h
        rw [← h.2]
        exact frame_modify c _ _ (fun bb => by simp [List.countP_cons, Instruction.isReturn])

theorem framed_variable_declaration (n : Nat) (x : ast.variable_declaration) :
    gen.framed (variable_declaration_ n x) := by
  intro c a c1 h
  unfold variable_declaration_ at h
  split at h
  · exact gen.framed_bind (framed_error_handler _ _) (fun _ => gen.framed_pure _) c a c1 h
  · refine gen.framed_bind framed_getParent (fun f => ?_) c a c1 h
    cases x.rhs with
    | none =>
      exact gen.framed_bind (framed_create_entry_block_alloca _ _)
        (fun _ => gen.framed_bind (framed_named_values_assign _ _) (fun _ => gen.framed_pure _))
    | some rhs =>
      refine gen.framed_bind (framed_expression n _) (fun r => ?_)
      cases r with
      | none => exact gen.framed_pure _
      | some r =>
        exact gen.framed_bind (framed_create_entry_block_alloca _ _)
          (fun _ => gen.framed_bind (framed_CreateStore _ _)
            (fun _ => gen.framed_bind (framed_named_values_assign _ _)
              (fun _ => gen.framed_pure _)))

theorem framed_get_return_alloca : gen.framed get_return_alloca := by
  intro c a c1 h
  unfold get_return_alloca at h
  split at h
  · exact Result.noConfusion h
  · simp only [Result.returns.injEq] at h
    rw [← h.2]
    exact frame.frame_refl c

theorem get_return_block_returns {c c1 : compiler} {b : Nat}
    (h : get_return_block c = .returns b c1) : c1 = c ∧ c.return_block = some b := by
  unfold get_return_block at h
  split at h
  · exact Result.noConfusion h
  · rename_i rb hrb
    simp only [Result.returns.injEq] at h
    exact ⟨h.2.symm, by rw [hrb, h.1]⟩

theorem framed_get_return_block : gen.framed get_return_block := by
  intro c a c1 h
  rw [(get_return_block_returns h).1]
  exact frame.frame_refl c

theorem framed_branch_to_return_block :
    gen.framed (do
      let return_block ← get_return_block
      CreateBr return_block
      pure true : gen Bool) :=
  gen.framed_bind framed_get_return_block
    (fun _ => gen.framed_bind (framed_CreateBr _) (fun _ => gen.framed_pure _))

theorem framed_return_statement (n : Nat) (id : Nat) (expr : Option ast.expression) :
    gen.framed (return_statement_ n id expr) := by
  intro c a c1 h
  unfold return_statement_ at h
  split at h
  · exact gen.framed_bind (framed_error_handler _ _) (fun _ => gen.framed_pure _) c a c1 h
  · split at h
    · exact gen.framed_bind (framed_error_handler _ _) (fun _ => gen.framed_pure _) c a c1 h
    · split at h
      · refine gen.framed_bind (framed_expression n _) (fun r => ?_) c a c1 h
        cases r with
        | none => exact gen.framed_pure _
        | some r =>
          exact gen.framed_bind framed_get_return_alloca
            (fun _ => gen.framed_bind (framed_CreateStore _ _)
              (fun _ => framed_branch_to_return_block))
      · exact framed_branch_to_return_block c a c1 h

/-! ### Blocks created and appended -/

theorem BasicBlock_Create_returns {name : String} {c c1 : compiler} {b : Nat}
    (h : BasicBlock_Create name c = .returns b c1) :
    b = c.blocks.length ∧ c1.blocks.length = c.blocks.length + 1 ∧ frame c c1 := by
  simp only [BasicBlock_Create, Result.returns.injEq] at h
  obtain ⟨hb, hc⟩ := h
  subst hc
  refine ⟨hb.symm, by simp, ⟨by simp, fun k => ?_, fun _ _ h => Or.inl h, rfl, rfl, rfl⟩⟩
  simp only [ret_count]
  rcases Nat.lt_trichotomy k c.blocks.length with hk | hk | hk
  · rw [List.getElem?_append_left hk]
  · subst hk
    simp
  · rw [List.getElem?_eq_none (by simp; omega), List.getElem?_eq_none (by omega)]

theorem getFunction_map_blocks (name : String) (l : List Function) (g : Function → Function)
    (hg : ∀ f, (g f).name = f.name) :
    (l.map g).find? (fun f => f.name == name) = (l.find? (fun f => f.name == name)).map g := by
  induction l with
  | nil => rfl
  | cons f fs ih =>
    simp only [List.map_cons, List.find?_cons, hg]
    split
    · rfl
    · exact ih

theorem push_back_returns {f : Option String} {b : Nat} {c c1 : compiler}
    (h : push_back f b c = .returns () c1) :
    c1.blocks.length = c.blocks.length ∧ (∀ k, ret_count c1 k = ret_count c k) ∧
      (∀ name k, k ∈ block_list name c1 → k ∈ block_list name c ∨ k = b) ∧
      c1.void_return = c.void_return ∧ c1.return_alloca = c.return_alloca ∧
      c1.return_block = c.return_block ∧ c1.insert_block = c.insert_block := by
  unfold push_back at h
  split at h
  · exact Result.noConfusion h
  · rename_i fn
    split at h
    · exact Result.noConfusion h
    · simp only [Result.returns.injEq, true_and] at h
      subst h
      refine ⟨by simp, fun k => ?_, fun name k hk => ?_, rfl, rfl, rfl, rfl⟩
      · exact (frame_modify c b (fun bb => { bb with parent := some fn }) (fun _ => rfl)).ret_count_eq k
      · simp only [block_list, getFunction] at hk ⊢
        rw [getFunction_map_blocks name c.module _ (fun g => by split <;> rfl)] at hk
        cases hfind : c.module.find? (fun g => g.name == name) with
        | none => rw [hfind] at hk; simp at hk
        | some g =>
          rw [hfind] at hk
          simp only [Option.map_some'] at hk
          split at hk
          · simp only [List.mem_append, List.mem_singleton] at hk
            exact hk
          · exact Or.inl hk

/-- Appending a block created since `c0` keeps the frame with `c0`. -/
theorem frame_push_back {c0 c c1 : compiler} {f : Option String} {b : Nat} (h0 : frame c0 c)
    (hb : c0.blocks.length ≤ b) (h : push_back f b c = .returns () c1) : frame c0 c1 := by
  obtain ⟨h1, h2, h3, h4, h5, h6, _⟩ := push_back_returns h
  refine ⟨by rw [h1]; exact h0.length_le, fun k => (h2 k).trans (h0.ret_count_eq k),
    fun name k hk => ?_, h4.trans h0.void_return_eq, h5.trans h0.return_alloca_eq,
    h6.trans h0.return_block_eq⟩
  rcases h3 name k hk with hk | rfl
  · exact h0.block_list_sub name k hk
  · exact Or.inr hb

theorem BasicBlock_Create_in_returns {name : String} {function : Option String}
    {c c1 : compiler} {b : Nat} (h : BasicBlock_Create_in name function c = .returns b c1) :
    b = c.blocks.length ∧ frame c c1 := by
  unfold BasicBlock_Create_in at h
  obtain ⟨b0, c2, h1, h2⟩ := gen_bind_returns h
  obtain ⟨hb, _, hf⟩ := BasicBlock_Create_returns h1
  cases function with
  | none =>
    simp only [gen_pure_apply, Result.returns.injEq] at h2
    rw [← h2.1, ← h2.2]
    exact ⟨hb, hf⟩
  | some f =>
    simp only [gen_bind_apply] at h2
    obtain ⟨u, c3, h3, h4⟩ := gen_bind_returns h2
    simp only [gen_pure_apply, Result.returns.injEq] at h4
    rw [← h4.1, ← h4.2]
    exact ⟨hb, frame_push_back hf (by omega) h3⟩

theorem framed_BasicBlock_Create (name : String) : gen.framed (BasicBlock_Create name) :=
  fun _ _ _ h => (BasicBlock_Create_returns h).2.2

theorem framed_BasicBlock_Create_in (name : String) (function : Option String) :
    gen.framed (BasicBlock_Create_in name function) :=
  fun _ _ _ h => (BasicBlock_Create_in_returns h).2


theorem if_statement_branch_returns {condition : Value} {then_block : Nat} {has_else : Bool}
    {c c1 : compiler} {r : Option Nat × Option Nat}
    (h : if_statement_branch condition then_block has_else c = .returns r c1) :
    frame c c1 ∧ (∀ e ∈ r.1, c.blocks.length ≤ e) ∧ (∀ x ∈ r.2, c.blocks.length ≤ x) := by
  unfold if_statement_branch at h
  cases has_else with
  | true =>
    simp only [if_true, gen_bind_apply] at h
    obtain ⟨b, c2, h1, h2⟩ := gen_bind_returns h
    simp only [gen_bind_apply] at h2
    obtain ⟨u, c3, h3, h4⟩ := gen_bind_returns h2
    simp only [gen_pure_apply, Result.returns.injEq] at h4
    obtain ⟨hb, _, hf⟩ := BasicBlock_Create_returns h1
    rw [← h4.1, ← h4.2]
    refine ⟨hf.frame_trans (framed_CreateCondBr _ _ _ _ _ _ h3), ?_, ?_⟩
    · intro e he
      simp only [Option.mem_def, Option.some.injEq] at he
      omega
    · intro x hx
      simp at hx
  | false =>
    simp only [Bool.false_eq_true, if_false, gen_bind_apply] at h
    obtain ⟨b, c2, h1, h2⟩ := gen_bind_returns h
    simp only [gen_bind_apply] at h2
    obtain ⟨u, c3, h3, h4⟩ := gen_bind_returns h2
    simp only [gen_pure_apply, Result.returns.injEq] at h4
    obtain ⟨hb, _, hf⟩ := BasicBlock_Create_returns h1
    rw [← h4.1, ← h4.2]
    refine ⟨hf.frame_trans (framed_CreateCondBr _ _ _ _ _ _ h3), ?_, ?_⟩
    · intro e he
      simp at he
    · intro x hx
      simp only [Option.mem_def, Option.some.injEq] at hx
      omega

theorem if_statement_fall_through_returns {block : Nat} {exit_block r : Option Nat}
    {c c1 : compiler} (h : if_statement_fall_through block exit_block c = .returns r c1) :
    frame c c1 ∧ (∀ x ∈ r, x ∈ exit_block ∨ c.blocks.length ≤ x) := by
  unfold if_statement_fall_through at h
  simp only [gen_bind_apply] at h
  obtain ⟨t, c2, h1, h2⟩ := gen_bind_returns h
  rw [(getTerminator_returns h1).1] at h2
  cases t with
  | some t =>
    simp only [gen_pure_apply, Result.returns.injEq] at h2
    rw [← h2.1, ← h2.2]
    exact ⟨frame.frame_refl _, fun x hx => Or.inl hx⟩
  | none =>
    cases exit_block with
    | none =>
      simp only [gen_bind_apply] at h2
      obtain ⟨b, c3, h3, h4⟩ := gen_bind_returns h2
      simp only [gen_bind_apply] at h4
      obtain ⟨u, c4, h5, h6⟩ := gen_bind_returns h4
      simp only [gen_pure_apply, Result.returns.injEq] at h6
      obtain ⟨hb, _, hf⟩ := BasicBlock_Create_returns h3
      rw [← h6.1, ← h6.2]
      refine ⟨hf.frame_trans (framed_CreateBr _ _ _ _ h5), fun x hx => Or.inr ?_⟩
      simp only [Option.mem_def, Option.some.injEq] at hx
      omega
    | some e =>
      simp only [gen_bind_apply] at h2
      obtain ⟨u, c4, h5, h6⟩ := gen_bind_returns h2
      simp only [gen_pure_apply, Result.returns.injEq] at h6
      rw [← h6.1, ← h6.2]
      exact ⟨framed_CreateBr _ _ _ _ h5, fun x hx => Or.inl hx⟩

theorem frame_if_statement_exit {c0 c c1 : compiler} {function : Option String}
    {exit_block : Option Nat} {r : Bool} (h0 : frame c0 c)
    (hx : ∀ x ∈ exit_block, c0.blocks.length ≤ x)
    (h : if_statement_exit function exit_block c = .returns r c1) : frame c0 c1 := by
  unfold if_statement_exit at h
  cases exit_block with
  | none =>
    simp only [gen_pure_apply, Result.returns.injEq] at h
    rw [← h.2]
    exact h0
  | some x =>
    simp only [gen_bind_apply] at h
    obtain ⟨u, c2, h1, h2⟩ := gen_bind_returns h
    simp only [gen_bind_apply] at h2
    obtain ⟨u2, c3, h3, h4⟩ := gen_bind_returns h2
    simp only [gen_pure_apply, Result.returns.injEq] at h4
    rw [← h4.2]
    exact (frame_push_back h0 (hx x rfl) h1).frame_trans (framed_SetInsertPoint _ _ _ _ h3)

theorem statement_layer_framed : ∀ n : Nat,
    (∀ s, gen.framed (statement_ n s)) ∧
    (∀ l, gen.framed (statement_list_ n l)) ∧
    (∀ x t e, gen.framed (if_statement_ n x t e)) ∧
    (∀ x b, gen.framed (while_statement_ n x b)) := by
  intro n
  induction n with
  | zero =>
    refine ⟨?_, ?_, ?_, ?_⟩ <;> intros <;>
      first
        | (rw [statement_]; exact framed_out_of_fuel)
        | (rw [statement_list_]; exact framed_out_of_fuel)
        | (rw [if_statement_]; exact framed_out_of_fuel)
        | (rw [while_statement_]; exact framed_out_of_fuel)
  | succ n ih =>
    obtain ⟨ih1, ih2, ih3, ih4⟩ := ih
    refine ⟨?_, ?_, ?_, ?_⟩
    · intro s
      cases s with
      | variable_declaration x => rw [statement_]; exact framed_variable_declaration n x
      | assignment x =>
        rw [statement_]
        exact gen.framed_bind (framed_assignment n x) (fun _ => gen.framed_pure _)
      | if_statement x t e => rw [statement_]; exact ih3 x t e
      | while_statement x b => rw [statement_]; exact ih4 x b
      | return_statement id e => rw [statement_]; exact framed_return_statement n id e
      | statement_list l => rw [statement_]; exact ih2 l
    · intro l
      cases l with
      | nil => rw [statement_list_]; exact gen.framed_pure _
      | cons s rest =>
        rw [statement_list_]
        refine gen.framed_bind (ih1 s) (fun ok => ?_)
        cases ok with
        | true => exact ih2 rest
        | false => exact gen.framed_pure _
    · intro x t e c0 r c9 h
      rw [if_statement_] at h
      simp only [gen_bind_apply] at h
      obtain ⟨cv, c1, h1, h⟩ := gen_bind_returns h
      have f1 : frame c0 c1 := framed_expression n x c0 cv c1 h1
      cases cv with
      | none =>
        simp only [gen_pure_apply, Result.returns.injEq] at h
        rw [← h.2]; exact f1
      | some cv =>
        simp only [gen_bind_apply] at h
        obtain ⟨fn, c2, h2, h⟩ := gen_bind_returns h
        rw [getParent_returns h2] at h
        simp only [gen_bind_apply] at h
        obtain ⟨tb, c3, h3, h⟩ := gen_bind_returns h
        have f3 : frame c0 c3 := f1.frame_trans (BasicBlock_Create_in_returns h3).2
        simp only [gen_bind_apply] at h
        obtain ⟨⟨eb, xb⟩, c4, h4, h⟩ := gen_bind_returns h
        obtain ⟨f34, heb, hxb⟩ := if_statement_branch_returns h4
        have f4 : frame c0 c4 := f3.frame_trans f34
        simp only [gen_bind_apply] at h
        obtain ⟨u, c5, h5, h⟩ := gen_bind_returns h
        have f5 : frame c0 c5 := f4.frame_trans (framed_SetInsertPoint _ _ _ _ h5)
        simp only [gen_bind_apply] at h
        obtain ⟨ok, c6, h6, h⟩ := gen_bind_returns h
        have f6 : frame c0 c6 := f5.frame_trans (ih1 t c5 ok c6 h6)
        cases ok with
        | false =>
          simp only [Bool.false_eq_true, if_false, gen_pure_apply, Result.returns.injEq] at h
          rw [← h.2]; exact f6
        | true =>
          simp only [if_true, gen_bind_apply] at h
          obtain ⟨xb1, c7, h7, h⟩ := gen_bind_returns h
          obtain ⟨f67, hxb1⟩ := if_statement_fall_through_returns h7
          have f7 : frame c0 c7 := f6.frame_trans f67
          have hx1 : ∀ y ∈ xb1, c0.blocks.length ≤ y := by
            intro y hy
            rcases hxb1 y hy with hy | hy
            · exact le_trans f3.length_le (hxb y hy)
            · exact le_trans f6.length_le hy
          cases e with
          | none => exact frame_if_statement_exit f7 hx1 h
          | some es =>
            cases eb with
            | none => exact Result.noConfusion h
            | some eb =>
              simp only [gen_bind_apply] at h
              obtain ⟨u8, c8, h8, h⟩ := gen_bind_returns h
              have f8 : frame c0 c8 :=
                frame_push_back f7 (le_trans f3.length_le (heb eb rfl)) h8
              simp only [gen_bind_apply] at h
              obtain ⟨u9, c10, h10, h⟩ := gen_bind_returns h
              have f10 : frame c0 c10 := f8.frame_trans (framed_SetInsertPoint _ _ _ _ h10)
              simp only [gen_bind_apply] at h
              obtain ⟨ok2, c11, h11, h⟩ := gen_bind_returns h
              have f11 : frame c0 c11 := f10.frame_trans (ih1 es c10 ok2 c11 h11)
              cases ok2 with
              | false =>
                simp only [Bool.false_eq_true, if_false, gen_pure_apply,
                  Result.returns.injEq] at h
                rw [← h.2]; exact f11
              | true =>
                simp only [if_true, gen_bind_apply] at h
                obtain ⟨xb2, c12, h12, h⟩ := gen_bind_returns h
                obtain ⟨f1112, hxb2⟩ := if_statement_fall_through_returns h12
                refine frame_if_statement_exit (f11.frame_trans f1112) ?_ h
                intro y hy
                rcases hxb2 y hy with hy | hy
                · exact hx1 y hy
                · exact le_trans f11.length_le hy
    · intro x b c0 r c9 h
      rw [while_statement_] at h
      simp only [gen_bind_apply] at h
      obtain ⟨fn, c1, h1, h⟩ := gen_bind_returns h
      rw [getParent_returns h1] at h
      simp only [gen_bind_apply] at h
      obtain ⟨cb, c2, h2, h⟩ := gen_bind_returns h
      have f2 : frame c0 c2 := (BasicBlock_Create_in_returns h2).2
      simp only [gen_bind_apply] at h
      obtain ⟨bb, c3, h3, h⟩ := gen_bind_returns h
      obtain ⟨hbb, _, f23⟩ := BasicBlock_Create_returns h3
      have f3 : frame c0 c3 := f2.frame_trans f23
      simp only [gen_bind_apply] at h
      obtain ⟨xb, c4, h4, h⟩ := gen_bind_returns h
      obtain ⟨hxb, _, f34⟩ := BasicBlock_Create_returns h4
      have f4 : frame c0 c4 := f3.frame_trans f34
      simp only [gen_bind_apply] at h
      obtain ⟨u5, c5, h5, h⟩ := gen_bind_returns h
      have f5 : frame c0 c5 := f4.frame_trans (framed_CreateBr _ _ _ _ h5)
      simp only [gen_bind_apply] at h
      obtain ⟨u6, c6, h6, h⟩ := gen_bind_returns h
      have f6 : frame c0 c6 := f5.frame_trans (framed_SetInsertPoint _ _ _ _ h6)
      simp only [gen_bind_apply] at h
      obtain ⟨cv, c7, h7, h⟩ := gen_bind_returns h
      have f7 : frame c0 c7 := f6.frame_trans (framed_expression n x _ _ _ h7)
      cases cv with
      | none =>
        simp only [gen_pure_apply, Result.returns.injEq] at h
        rw [← h.2]; exact f7
      | some cv =>
        simp only [gen_bind_apply] at h
        obtain ⟨u8, c8, h8, h⟩ := gen_bind_returns h
        have f8 : frame c0 c8 := f7.frame_trans (framed_CreateCondBr _ _ _ _ _ _ h8)
        simp only [gen_bind_apply] at h
        obtain ⟨u10, c10, h10, h⟩ := gen_bind_returns h
        have f10 : frame c0 c10 :=
          frame_push_back f8 (by have := f2.length_le; omega) h10
        simp only [gen_bind_apply] at h
        obtain ⟨u11, c11, h11, h⟩ := gen_bind_returns h
        have f11 : frame c0 c11 := f10.frame_trans (framed_SetInsertPoint _ _ _ _ h11)
        simp only [gen_bind_apply] at h
        obtain ⟨ok, c12, h12, h⟩ := gen_bind_returns h
        have f12 : frame c0 c12 := f11.frame_trans (ih1 b c11 ok c12 h12)
        cases ok with
        | false =>
          simp only [Bool.false_eq_true, if_false, gen_pure_apply, Result.returns.injEq] at h
          rw [← h.2]; exact f12
        | true =>
          simp only [if_true, gen_bind_apply] at h
          obtain ⟨t, c13, h13, h⟩ := gen_bind_returns h
          rw [(getTerminator_returns h13).1] at h
          simp only [gen_bind_apply] at h
          obtain ⟨u14, c14, h14, h⟩ := gen_bind_returns h
          have f14 : frame c0 c14 := by
            cases t with
            | none => exact f12.frame_trans (framed_CreateBr _ _ _ _ h14)
            | some t =>
              simp only [gen_pure_apply, Result.returns.injEq] at h14
              rw [← h14.2]; exact f12
          simp only [gen_bind_apply] at h
          obtain ⟨u15, c15, h15, h⟩ := gen_bind_returns h
          have f15 : frame c0 c15 :=
            frame_push_back f14 (by have := f3.length_le; omega) h15
          simp only [gen_bind_apply] at h
          obtain ⟨u16, c16, h16, h⟩ := gen_bind_returns h
          simp only [gen_pure_apply, Result.returns.injEq] at h
          rw [← h.2]
          exact f15.frame_trans (framed_SetInsertPoint _ _ _ _ h16)

theorem framed_statement_list (n : Nat) (l : List ast.statement) :
    gen.framed (statement_list_ n l) :=
  (statement_layer_framed n).2.1 l


/-! ### The prologue of a function -/

theorem unchanged.unchanged_refl (c : compiler) : unchanged c c := ⟨rfl, rfl, fun _ => rfl, rfl, rfl⟩

theorem unchanged.unchanged_trans {c c1 c2 : compiler} (h1 : unchanged c c1) (h2 : unchanged c1 c2) :
    unchanged c c2 :=
  ⟨h2.module_eq.trans h1.module_eq, h2.length_eq.trans h1.length_eq,
    fun b => (h2.ret_count_eq b).trans (h1.ret_count_eq b),
    h2.void_return_eq.trans h1.void_return_eq, h2.return_block_eq.trans h1.return_block_eq⟩

theorem unchanged.block_list_eq {c c1 : compiler} (h : unchanged c c1) (name : String) :
    block_list name c1 = block_list name c := by
  simp only [block_list, getFunction, h.module_eq]

theorem unchanged_Insert {i : Instruction} (hi : i.isReturn = false) {c c1 : compiler}
    (h : Insert i c = .returns () c1) : unchanged c c1 := by
  have hf := framed_Insert i hi c () c1 h
  unfold Insert at h
  split at h <;> simp only [Result.returns.injEq, true_and] at h <;> subst h
  · exact unchanged.unchanged_refl c
  · exact ⟨rfl, by simp, hf.ret_count_eq, rfl, rfl⟩

theorem unchanged_create_entry_block_alloca {function : Option String} {var : String}
    {c c1 : compiler} {v : Value} (h : create_entry_block_alloca function var c = .returns v c1) :
    unchanged c c1 ∧ v = .Alloca var ∧ c1.return_alloca = c.return_alloca := by
  have hf := framed_create_entry_block_alloca function var c v c1 h
  unfold create_entry_block_alloca at h
  split at h
  · exact Result.noConfusion h
  · split at h
    · exact Result.noConfusion h
    · split at h
      · exact Result.noConfusion h
      · simp only [Result.returns.injEq] at h
        obtain ⟨hv, hc⟩ := h
        subst hc
        exact ⟨⟨rfl, by simp, hf.ret_count_eq, rfl, rfl⟩, hv.symm, rfl⟩

theorem unchanged_named_values_assign {name : String} {value : Value} {c c1 : compiler}
    (h : named_values_assign name value c = .returns () c1) : unchanged c c1 := by
  simp only [named_values_assign, Result.returns.injEq, true_and] at h
  subst h
  exact ⟨rfl, rfl, fun _ => rfl, rfl, rfl⟩

theorem unchanged_SetInsertPoint {block : Nat} {c c1 : compiler}
    (h : SetInsertPoint block c = .returns () c1) :
    unchanged c c1 ∧ c1.insert_block = some block ∧ c1.blocks = c.blocks ∧
      c1.return_alloca = c.return_alloca := by
  simp only [SetInsertPoint, Result.returns.injEq, true_and] at h
  subst h
  exact ⟨⟨rfl, rfl, fun _ => rfl, rfl, rfl⟩, rfl, rfl, rfl⟩

theorem unchanged_function_allocas_args (function : String) (args : List ast.identifier) :
    ∀ (iter : Nat) (c c1 : compiler), function_allocas_args function args iter c = .returns () c1 →
      unchanged c c1 := by
  induction args with
  | nil =>
    intro iter c c1 h
    simp only [function_allocas_args, gen_pure_apply, Result.returns.injEq, true_and] at h
    subst h
    exact unchanged.unchanged_refl c
  | cons a rest ih =>
    intro iter c c1 h
    simp only [function_allocas_args, gen_bind_apply] at h
    obtain ⟨v, c2, h1, h⟩ := gen_bind_returns h
    simp only [gen_bind_apply] at h
    obtain ⟨u, c3, h2, h⟩ := gen_bind_returns h
    simp only [gen_bind_apply] at h
    obtain ⟨u2, c4, h3, h⟩ := gen_bind_returns h
    exact (unchanged_create_entry_block_alloca h1).1.unchanged_trans
      ((unchanged_Insert (i := .Store _ _) rfl h2).unchanged_trans
        ((unchanged_named_values_assign h3).unchanged_trans (ih _ _ _ h)))

theorem function_allocas_returns {x : ast.function} {function : String} {c c1 : compiler}
    (h : function_allocas x function c = .returns () c1) :
    unchanged c c1 ∧
      (c.void_return = false → c1.return_alloca = some (.Alloca "return.val")) := by
  unfold function_allocas at h
  simp only [gen_bind_apply] at h
  obtain ⟨u, c2, h1, h⟩ := gen_bind_returns h
  have u1 := unchanged_function_allocas_args _ _ _ _ _ h1
  cases hv : c2.void_return with
  | true =>
    simp only [hv, Bool.not_true, Bool.false_eq_true, if_false, Result.returns.injEq,
      true_and] at h
    subst h
    refine ⟨u1, fun h0 => ?_⟩
    rw [← u1.void_return_eq, hv] at h0
    exact absurd h0 (by simp)
  | false =>
    simp only [hv, Bool.not_false, if_true, gen_bind_apply] at h
    obtain ⟨v, c3, h2, h⟩ := gen_bind_returns h
    simp only [Result.returns.injEq, true_and] at h
    subst h
    obtain ⟨u2, hv2, _⟩ := unchanged_create_entry_block_alloca h2
    refine ⟨u1.unchanged_trans ⟨u2.module_eq, u2.length_eq, u2.ret_count_eq, u2.void_return_eq,
      u2.return_block_eq⟩, fun _ => ?_⟩
    simp only [hv2]

theorem function_decl_returns {x : ast.function} {c c1 : compiler} {f : String}
    (h : function_decl x c = .returns (some f) c1) :
    f = x.function_name.name ∧ c1.blocks = c.blocks ∧ block_list f c1 = [] ∧
      c1.void_return = (x.return_type == "void") := by
  unfold function_decl at h
  dsimp only at h
  split at h
  · rename_i hnone
    simp only [Result.returns.injEq, Option.some.injEq] at h
    obtain ⟨hf, hc⟩ := h
    subst hc
    subst hf
    refine ⟨rfl, rfl, ?_, rfl⟩
    simp only [getFunction] at hnone
    simp only [block_list, getFunction, List.find?_append, hnone, Option.none_or,
      List.find?_cons, beq_self_eq_true]
  · rename_i fn hsome
    split at h
    · simp only [gen_bind_apply] at h
      obtain ⟨u, c2, _, h⟩ := gen_bind_returns h
      simp at h
    · split at h
      · simp only [gen_bind_apply] at h
        obtain ⟨u, c2, _, h⟩ := gen_bind_returns h
        simp at h
      · rename_i hempty _
        simp only [Result.returns.injEq, Option.some.injEq] at h
        obtain ⟨hf, hc⟩ := h
        subst hc
        subst hf
        refine ⟨rfl, rfl, ?_, rfl⟩
        simp only [getFunction] at hsome
        simp only [block_list, getFunction]
        rw [getFunction_map_blocks _ _ _ (fun g => by split <;> rfl), hsome]
        simp only [Option.map_some', beq_self_eq_true, if_true]
        cases hb : fn.blocks with
        | nil => split <;> simp [hb]
        | cons b bs => simp [hb] at hempty


/-! ### The epilogue of a function -/

theorem ret_count_eq_insts_of (c : compiler) (b : Nat) :
    ret_count c b = ((insts_of c b).map (fun l => l.countP Instruction.isReturn)).getD 0 := by
  simp only [ret_count, insts_of]
  cases c.blocks[b]? <;> rfl

theorem Insert_eq {i : Instruction} {c c1 : compiler} {k : Nat}
    (h : Insert i c = .returns () c1) (hk : c.insert_block = some k) :
    c1 = { c with blocks := c.blocks.modify (fun bb => { bb with insts := bb.insts ++ [i] }) k } := by
  unfold Insert at h
  split at h
  · rename_i hn
    rw [hk] at hn
    exact Option.noConfusion hn
  · rename_i b hb
    rw [hk] at hb
    simp only [Option.some.injEq] at hb
    subst hb
    simp only [Result.returns.injEq, true_and] at h
    exact h.symm

theorem insts_of_modify_append (c : compiler) (i : Instruction) (k j : Nat) :
    insts_of { c with blocks := c.blocks.modify (fun bb => { bb with insts := bb.insts ++ [i] }) k }
        j =
      if k = j then (insts_of c j).map (fun l => l ++ [i]) else insts_of c j := by
  simp only [insts_of, List.getElem?_modify]
  cases c.blocks[j]? with
  | none => simp
  | some bb => by_cases hkj : k = j <;> simp [hkj]

theorem push_back_eq {f : String} {b : Nat} {c c1 : compiler}
    (h : push_back (some f) b c = .returns () c1) :
    block_list f c1 = block_list f c ++ [b] ∧ (∀ j, insts_of c1 j = insts_of c j) ∧
      c1.blocks.length = c.blocks.length ∧ c1.insert_block = c.insert_block ∧
      c1.void_return = c.void_return ∧ c1.return_alloca = c.return_alloca ∧
      c1.return_block = c.return_block := by
  unfold push_back at h
  dsimp only at h
  split at h
  · exact Result.noConfusion h
  · rename_i fn hfn
    simp only [Result.returns.injEq, true_and] at h
    subst h
    refine ⟨?_, fun j => ?_, by simp, rfl, rfl, rfl, rfl⟩
    · simp only [getFunction] at hfn
      simp only [block_list, getFunction]
      rw [getFunction_map_blocks f c.module _ (fun g => by split <;> rfl), hfn]
      have hname : fn.name = f := by
        have := List.find?_some hfn
        simpa using this
      simp only [Option.map_some', hname, beq_self_eq_true, if_true]
    · simp only [insts_of, List.getElem?_modify]
      cases c.blocks[j]? with
      | none => rfl
      | some bb => by_cases hkj : b = j <;> simp [hkj]

theorem BasicBlock_Create_in_some_returns {name f : String} {c c1 : compiler} {b : Nat}
    (h : BasicBlock_Create_in name (some f) c = .returns b c1) :
    b = c.blocks.length ∧ c1.blocks.length = c.blocks.length + 1 ∧
      block_list f c1 = block_list f c ++ [b] := by
  unfold BasicBlock_Create_in at h
  obtain ⟨b0, c2, h1, h2⟩ := gen_bind_returns h
  simp only [gen_bind_apply] at h2
  obtain ⟨u, c3, h3, h4⟩ := gen_bind_returns h2
  simp only [gen_pure_apply, Result.returns.injEq] at h4
  obtain ⟨hb, hlen, _⟩ := BasicBlock_Create_returns h1
  obtain ⟨hl, _, hlen3, _⟩ := push_back_eq h3
  have hm : block_list f c2 = block_list f c := by
    simp only [BasicBlock_Create, Result.returns.injEq] at h1
    rw [← h1.2]
    rfl
  rw [← h4.1, ← h4.2]
  exact ⟨hb, by rw [hlen3, hlen], by rw [hl, hm]⟩

theorem BasicBlock_Create_module {name : String} {c c1 : compiler} {b : Nat}
    (h : BasicBlock_Create name c = .returns b c1) :
    c1.module = c.module ∧ c1.void_return = c.void_return ∧
      c1.return_alloca = c.return_alloca := by
  simp only [BasicBlock_Create, Result.returns.injEq] at h
  rw [← h.2]
  exact ⟨rfl, rfl, rfl⟩

theorem back_returns {f : String} {c c1 : compiler} {b : Nat} (h : back f c = .returns b c1) :
    c1 = c ∧ (block_list f c).getLast? = some b := by
  unfold back at h
  split at h
  · exact Result.noConfusion h
  · rename_i fn hfn
    split at h
    · exact Result.noConfusion h
    · rename_i lb hlb
      simp only [Result.returns.injEq] at h
      refine ⟨h.2.symm, ?_⟩
      simp only [block_list, hfn, hlb, h.1]

theorem function_return_returns {c c1 : compiler} {k : Nat}
    (h : function_return c = .returns () c1) (hk : c.insert_block = some k) :
    (∀ name, block_list name c1 = block_list name c) ∧
    c1.return_block = c.return_block ∧
    (∀ j, insts_of c1 j =
      if k = j then
        (insts_of c j).map (fun l => l ++
          (if c.void_return then [Instruction.RetVoid]
          else match c.return_alloca with
            | some ra => [.value (.Load ra "return.val"), .Ret (.Load ra "return.val")]
            | none => []))
      else insts_of c j) := by
  unfold function_return at h
  cases hv : c.void_return with
  | true =>
    simp only [hv, if_true] at h
    rw [Insert_eq h hk]
    refine ⟨fun _ => rfl, rfl, fun j => ?_⟩
    rw [insts_of_modify_append]
    simp
  | false =>
    simp only [hv, Bool.false_eq_true, if_false] at h
    cases hra : c.return_alloca with
    | none => rw [hra] at h; exact Result.noConfusion h
    | some ra =>
      rw [hra] at h
      simp only [gen_bind_apply] at h
      obtain ⟨v, c2, h1, h2⟩ := gen_bind_returns h
      simp only [CreateLoad, gen_bind_apply] at h1
      obtain ⟨u, c3, h3, h4⟩ := gen_bind_returns h1
      simp only [gen_pure_apply, Result.returns.injEq] at h4
      obtain ⟨hv4, hc4⟩ := h4
      subst hc4
      subst hv4
      have e3 := Insert_eq h3 hk
      subst e3
      have e2 := Insert_eq h2 (k := k) hk
      subst e2
      refine ⟨fun _ => rfl, rfl, fun j => ?_⟩
      rw [insts_of_modify_append, insts_of_modify_append]
      by_cases hkj : k = j
      · simp only [hkj, if_true, Bool.false_eq_true, if_false]
        cases insts_of c j <;> simp
      · simp [hkj]


theorem SetInsertPoint_eq {block : Nat} {c c1 : compiler}
    (h : SetInsertPoint block c = .returns () c1) : c1 = { c with insert_block := some block } := by
  simp only [SetInsertPoint, Result.returns.injEq, true_and] at h
  exact h.symm

/-- The end of `operator()(ast::function const&)`, from the state `c` the
body left: the last block gets its branch to the return block when it has no
terminator, the return block is appended and receives the return. -/
theorem function_epilogue (f : String) (rb : Nat) {c c1 : compiler}
    (hrb : c.return_block = some rb) (hlt : rb < c.blocks.length) (hrb0 : ret_count c rb = 0)
    (hlist : ∀ b ∈ block_list f c, b ≠ rb ∧ ret_count c b = 0)
    (h : (do
        let last_block ← back f
        let terminator ← getTerminator last_block
        (match terminator with
          | none => do
            SetInsertPoint last_block
            let return_block ← get_return_block
            CreateBr return_block
          | some _ => pure ())
        let return_block ← get_return_block
        push_back (some f) return_block
        SetInsertPoint return_block
        function_return
        pure true : gen Bool) c = .returns true c1) :
    ∃ (pre : List Nat) (last_block : Nat) (lbi : List Instruction),
      block_list f c1 = pre ++ [last_block, rb] ∧
      c1.return_block = some rb ∧
      insts_of c1 last_block = some lbi ∧
      (∃ t, lbi.getLast? = some t ∧ t.isTerminator = true) ∧
      (∃ p, insts_of c1 rb = some (p ++
        (if c.void_return then [Instruction.RetVoid]
          else match c.return_alloca with
            | some ra => [.value (.Load ra "return.val"), .Ret (.Load ra "return.val")]
            | none => []))) ∧
      (c.void_return = false → c.return_alloca ≠ none) ∧
      function_ret_count f c1 = 1 := by
  simp only [gen_bind_apply] at h
  obtain ⟨lb, c2, h1, h⟩ := gen_bind_returns h
  obtain ⟨e2, hlast⟩ := back_returns h1
  rw [e2] at h
  simp only [gen_bind_apply] at h
  obtain ⟨t, c3, h3, h⟩ := gen_bind_returns h
  obtain ⟨e3, bbl, hbbl, ht⟩ := getTerminator_returns h3
  rw [e3] at h
  simp only [gen_bind_apply] at h
  obtain ⟨u4, c4, h4, h⟩ := gen_bind_returns h
  -- the state after the fall-through branch
  have hlb : lb ∈ block_list f c := List.mem_of_getLast?_eq_some hlast
  have hlbne : lb ≠ rb := (hlist lb hlb).1
  have h4' : c4.module = c.module ∧ c4.return_block = c.return_block ∧
      c4.void_return = c.void_return ∧ c4.return_alloca = c.return_alloca ∧
      c4.blocks.length = c.blocks.length ∧
      (∀ j, j ≠ lb → insts_of c4 j = insts_of c j) ∧
      (∀ j, (insts_of c4 j).map (fun l => l.countP Instruction.isReturn) =
        (insts_of c j).map (fun l => l.countP Instruction.isReturn)) ∧
      ∃ lbi, insts_of c4 lb = some lbi ∧ ∃ t, lbi.getLast? = some t ∧ t.isTerminator = true := by
    cases t with
    | some t0 =>
      simp only [gen_pure_apply, Result.returns.injEq, true_and] at h4
      subst h4
      refine ⟨rfl, rfl, rfl, rfl, rfl, fun _ _ => rfl, fun _ => rfl, bbl.insts, ?_, ?_⟩
      · simp only [insts_of, hbbl, Option.map_some']
      · have ht0 := ht
        unfold BasicBlock.getTerminator at ht0
        split at ht0
        · rename_i i hi
          split at ht0
          · exact ⟨i, hi, by assumption⟩
          · exact Option.noConfusion ht0
        · exact Option.noConfusion ht0
    | none =>
      simp only [gen_bind_apply] at h4
      obtain ⟨u5, c5, h5, h4⟩ := gen_bind_returns h4
      have e5 := SetInsertPoint_eq h5
      simp only [gen_bind_apply] at h4
      obtain ⟨rb1, c6, h6, h4⟩ := gen_bind_returns h4
      obtain ⟨e6, _⟩ := get_return_block_returns h6
      rw [e6] at h4
      have e7 := Insert_eq (k := lb) h4 (by rw [e5])
      subst e7
      subst e5
      refine ⟨rfl, rfl, rfl, rfl, by simp, fun j hj => ?_, fun j => ?_, bbl.insts ++ [.Br rb1],
        ?_, .Br rb1, by simp, rfl⟩
      · rw [insts_of_modify_append, if_neg (Ne.symm hj)]
        rfl
      · rw [insts_of_modify_append]
        split
        · have : insts_of { c with insert_block := some lb } j = insts_of c j := rfl
          rw [this]
          cases insts_of c j <;> simp [List.countP_append, Instruction.isReturn]
        · rfl
      · rw [insts_of_modify_append, if_pos rfl]
        simp only [insts_of, hbbl, Option.map_some']
  obtain ⟨hm4, hr4, hv4, ha4, hl4, hi4, hc4, lbi, hlbi, hterm⟩ := h4'
  simp only [gen_bind_apply] at h
  obtain ⟨rb2, c7, h7, h⟩ := gen_bind_returns h
  obtain ⟨e7, hrb2⟩ := get_return_block_returns h7
  rw [e7] at h
  rw [hr4, hrb, Option.some.injEq] at hrb2
  subst hrb2
  simp only [gen_bind_apply] at h
  obtain ⟨u8, c8, h8, h⟩ := gen_bind_returns h
  obtain ⟨hl8, hi8, hlen8, _, hv8, ha8, hr8⟩ := push_back_eq h8
  simp only [gen_bind_apply] at h
  obtain ⟨u9, c9, h9, h⟩ := gen_bind_returns h
  have e9 := SetInsertPoint_eq h9
  simp only [gen_bind_apply] at h
  obtain ⟨u10, c10, h10, h⟩ := gen_bind_returns h
  simp only [gen_pure_apply, Result.returns.injEq, true_and] at h
  subst h
  obtain ⟨hl10, hr10, hi10⟩ := function_return_returns (k := rb) h10 (by rw [e9])
  have hlist4 : block_list f c4 = block_list f c := by
    simp only [block_list, getFunction, hm4]
  have hl9 : block_list f c9 = block_list f c ++ [rb] := by
    rw [e9]
    show block_list f c8 = _
    rw [hl8, hlist4]
  have hi9 : ∀ j, insts_of c9 j = insts_of c4 j := by
    intro j
    rw [e9]
    exact hi8 j
  have hv9 : c9.void_return = c.void_return := by rw [e9]; exact hv8.trans hv4
  have ha9 : c9.return_alloca = c.return_alloca := by rw [e9]; exact ha8.trans ha4
  -- the list of blocks
  obtain ⟨pre, hpre⟩ : ∃ pre, block_list f c = pre ++ [lb] := by
    obtain ⟨ys, hys⟩ := List.getLast?_eq_some_iff.mp hlast
    exact ⟨ys, hys⟩
  -- the return block
  obtain ⟨rbi0, hrbi0⟩ : ∃ l, insts_of c rb = some l := by
    simp only [insts_of]
    rw [List.getElem?_eq_getElem hlt]
    exact ⟨_, rfl⟩
  have hrbi4 : insts_of c4 rb = some rbi0 := by rw [hi4 rb (Ne.symm hlbne), hrbi0]
  have hcount0 : rbi0.countP Instruction.isReturn = 0 := by
    have := hrb0
    rw [ret_count_eq_insts_of, hrbi0] at this
    simpa using this
  refine ⟨pre, lb, lbi, ?_, ?_, ?_, hterm, ⟨rbi0, ?_⟩, ?_, ?_⟩
  · rw [hl10, hl9, hpre]
    simp
  · rw [hr10, e9]
    show c8.return_block = _
    rw [hr8, hr4, hrb]
  · rw [hi10, if_neg (Ne.symm hlbne), hi9, hlbi]
  · rw [hi10, if_pos rfl, hi9, hrbi4, hv9, ha9]
    rfl
  · intro hvf hnone
    unfold function_return at h10
    rw [hv9, hvf, ha9, hnone] at h10
    exact Result.noConfusion h10
  · -- the count of the return instructions
    unfold function_ret_count
    rw [hl10, hl9, List.map_append, List.sum_append]
    have hzero : ∀ b ∈ block_list f c, ret_count c10 b = 0 := by
      intro b hb
      obtain ⟨hbne, hb0⟩ := hlist b hb
      rw [ret_count_eq_insts_of, hi10, if_neg (Ne.symm hbne), hi9, hc4,
        ← ret_count_eq_insts_of]
      exact hb0
    have hsum : ((block_list f c).map (ret_count c10)).sum = 0 := by
      apply List.sum_eq_zero
      intro y hy
      obtain ⟨b, hb, rfl⟩ := List.mem_map.mp hy
      exact hzero b hb
    rw [hsum]
    simp only [List.map_cons, List.map_nil, List.sum_cons, List.sum_nil, zero_add, add_zero]
    rw [ret_count_eq_insts_of, hi10, if_pos rfl, hi9, hrbi4]
    simp only [Option.map_some', Option.getD_some, List.countP_append, hcount0, zero_add]
    have hnn : c.void_return = false → c.return_alloca ≠ none := by
      intro hvf hnone
      unfold function_return at h10
      rw [hv9, hvf, ha9, hnone] at h10
      exact Result.noConfusion h10
    rw [hv9, ha9]
    cases hv : c.void_return with
    | true => rfl
    | false =>
      cases hra : c.return_alloca with
      | none => exact absurd hra (hnn hv)
      | some ra => rfl


theorem ret_count_of_length_le {c : compiler} {b : Nat} (h : c.blocks.length ≤ b) :
    ret_count c b = 0 := by
  simp only [ret_count, List.getElem?_eq_none h]

theorem set_return_block_eq {block : Nat} {c c1 : compiler}
    (h : set_return_block block c = .returns () c1) :
    c1 = { c with return_block := some block } := by
  simp only [set_return_block, Result.returns.injEq, true_and] at h
  exact h.symm

/-- C8: a function with a body that compiles successfully ends with the
shared return block: the block list of the function ends with the block that
was last after the body, which ends in a terminator, followed by the return
block; the return block ends with `ret void` for a void function and with the
load of the return slot and its `ret` otherwise; and the blocks of the
function hold exactly one return instruction, whatever the number of `return`
statements of the body. -/
theorem function_has_exactly_one_return (n : Nat) (x : ast.function)
    (body : List ast.statement) (c c1 : compiler) (hbody : x.body = some body)
    (h : function_ n x c = .returns true c1) :
    ∃ (pre : List Nat) (last_block return_block : Nat) (lbi : List Instruction),
      block_list x.function_name.name c1 = pre ++ [last_block, return_block] ∧
      c1.return_block = some return_block ∧
      function_ret_count x.function_name.name c1 = 1 ∧
      (∃ p, insts_of c1 return_block = some (p ++
        (if x.return_type == "void" then [Instruction.RetVoid]
          else [.value (.Load (.Alloca "return.val") "return.val"),
            .Ret (.Load (.Alloca "return.val") "return.val")]))) ∧
      insts_of c1 last_block = some lbi ∧
      ∃ t, lbi.getLast? = some t ∧ t.isTerminator = true := by
  unfold function_ at h
  simp only [gen_bind_apply] at h
  obtain ⟨fo, cd, hd, h⟩ := gen_bind_returns h
  cases fo with
  | none => simp at h
  | some f =>
    obtain ⟨hf, hdb, hdl, hdv⟩ := function_decl_returns hd
    simp only [hbody, gen_bind_apply] at h
    obtain ⟨k, ce, he, h⟩ := gen_bind_returns h
    obtain ⟨hk, hlen_e, hlist_e⟩ := BasicBlock_Create_in_some_returns he
    have fe := (BasicBlock_Create_in_returns he).2
    simp only [gen_bind_apply] at h
    obtain ⟨u1, cs, hs, h⟩ := gen_bind_returns h
    obtain ⟨us, _, _, _⟩ := unchanged_SetInsertPoint hs
    simp only [gen_bind_apply] at h
    obtain ⟨u2, ca, ha, h⟩ := gen_bind_returns h
    obtain ⟨ua, hra⟩ := function_allocas_returns ha
    simp only [gen_bind_apply] at h
    obtain ⟨rb, cr, hr, h⟩ := gen_bind_returns h
    obtain ⟨hrb, hlen_r, fr⟩ := BasicBlock_Create_returns hr
    obtain ⟨hmr, hvr, har⟩ := BasicBlock_Create_module hr
    simp only [gen_bind_apply] at h
    obtain ⟨u3, cb, hb, h⟩ := gen_bind_returns h
    have eb := set_return_block_eq hb
    simp only [gen_bind_apply] at h
    obtain ⟨ok, c2, h2, h⟩ := gen_bind_returns h
    have fb := framed_statement_list n body cb ok c2 h2
    cases ok with
    | false =>
      simp only [Bool.false_eq_true, if_false, gen_bind_apply] at h
      obtain ⟨_, _, _, h⟩ := gen_bind_returns h
      simp at h
    | true =>
      simp only [if_true] at h
      -- the state in which the body is compiled
      have hlen_s : cs.blocks.length = cd.blocks.length + 1 := by rw [us.length_eq, hlen_e]
      have hlen_a : ca.blocks.length = cd.blocks.length + 1 := by rw [ua.length_eq, hlen_s]
      have hlen_b : cb.blocks.length = cd.blocks.length + 2 := by
        rw [eb]
        show cr.blocks.length = _
        rw [hlen_r, hlen_a]
      have hrbv : rb = cd.blocks.length + 1 := by rw [hrb, hlen_a]
      have hlist_b : block_list f cb = [k] := by
        have h1 : block_list f cb = block_list f cr := by rw [eb]; rfl
        have h2 : block_list f cr = block_list f ca := by
          simp only [block_list, getFunction, hmr]
        rw [h1, h2, ua.block_list_eq, us.block_list_eq, hlist_e, hdl]
        rfl
      have hcount_b : ∀ b, ret_count cb b = ret_count cd b := by
        intro b
        have h1 : ret_count cb b = ret_count cr b := by rw [eb]; rfl
        rw [h1, fr.ret_count_eq, ua.ret_count_eq, us.ret_count_eq, fe.ret_count_eq]
      have hvoid_b : cb.void_return = (x.return_type == "void") := by
        have h1 : cb.void_return = cr.void_return := by rw [eb]
        rw [h1, hvr, ua.void_return_eq, us.void_return_eq, fe.void_return_eq, hdv]
      have hra_b : (x.return_type == "void") = false →
          cb.return_alloca = some (.Alloca "return.val") := by
        intro hv
        have h1 : cb.return_alloca = cr.return_alloca := by rw [eb]
        rw [h1, har]
        apply hra
        rw [us.void_return_eq, fe.void_return_eq, hdv, hv]
      have hrb_b : cb.return_block = some rb := by rw [eb]
      -- the state the body left
      have hlist2 : ∀ b ∈ block_list f c2, b ≠ rb ∧ ret_count c2 b = 0 := by
        intro b hb
        have hb2 : b = k ∨ cd.blocks.length + 2 ≤ b := by
          rcases fb.block_list_sub f b hb with hb | hb
          · rw [hlist_b] at hb
            exact Or.inl (by simpa using hb)
          · exact Or.inr (by omega)
        refine ⟨by omega, ?_⟩
        rw [fb.ret_count_eq, hcount_b]
        exact ret_count_of_length_le (by omega)
      have hrb2 : ret_count c2 rb = 0 := by
        rw [fb.ret_count_eq, hcount_b]
        exact ret_count_of_length_le (by omega)
      obtain ⟨pre, lb, lbi, h1, h3, h4, h5, ⟨p, h6⟩, _, h7⟩ :=
        function_epilogue f rb (by rw [fb.return_block_eq, hrb_b])
          (by have := fb.length_le; omega) hrb2 hlist2 h
      rw [← hf]
      refine ⟨pre, lb, rb, lbi, h1, h3, h7, ⟨p, ?_⟩, h4, h5⟩
      rw [h6, fb.void_return_eq, hvoid_b, fb.return_alloca_eq]
      cases hv : (x.return_type == "void") with
      | true => rfl
      | false =>
        rw [hra_b hv]

/-- A concrete instance of C8: `int f() { if (true) return 1; else return 2; }`
has two `return` statements and one return instruction. -/
theorem function_has_exactly_one_return_witness :
    ∃ (pre : List Nat) (last_block return_block : Nat) (lbi : List Instruction),
      block_list if_returns.function_name.name
          ((function_ 10 if_returns compiler.init).state_or compiler.init) =
        pre ++ [last_block, return_block] ∧
      ((function_ 10 if_returns compiler.init).state_or compiler.init).return_block =
        some return_block ∧
      function_ret_count if_returns.function_name.name
          ((function_ 10 if_returns compiler.init).state_or compiler.init) = 1 ∧
      (∃ p, insts_of ((function_ 10 if_returns compiler.init).state_or compiler.init)
          return_block = some (p ++
        (if if_returns.return_type == "void" then [Instruction.RetVoid]
          else [.value (.Load (.Alloca "return.val") "return.val"),
            .Ret (.Load (.Alloca "return.val") "return.val")]))) ∧
      insts_of ((function_ 10 if_returns compiler.init).state_or compiler.init) last_block =
        some lbi ∧
      ∃ t, lbi.getLast? = some t ∧ t.isTerminator = true :=
  function_has_exactly_one_return 10 if_returns _ compiler.init _ rfl
    (Result.eq_returns_of_value _ true compiler.init (by decide!))

/-- C7 (the code does not do this): in
`if (true) { if (true) a = 1; } else return 1;` exactly one arm ends in a
`return`, and no merge block is appended: the then arm ends in the merge
block of the nested `if` (block 5), which stays empty, no branch leaves it,
and the insertion point stays in the `if.else` block (block 3), which the
`return` has terminated. -/
theorem if_with_one_returning_arm_gets_no_merge_block :
    (if_statement_ 10 (literal_expression (.bool true))
        (.if_statement (literal_expression (.bool true)) assign_a_1 none) (some return_1)
        in_f_a_b).success.map (fun c => (block_summary c, block_list "f" c)) =
      some ((some 3,
        [ ("entry", 6, true), ("return", 0, false), ("if.then", 1, true), ("if.else", 2, true),
          ("if.then", 2, true), ("if.end", 0, false) ]), [0, 2, 4, 5, 3]) := by
  decide!

/-! ## Lookups, calls, assignments and returns (C13, C16, C18, C19, C20) -/

theorem Insert_emitted (i : Instruction) (c : compiler) :
    Insert i c = .returns () (emitted c [i]) := by
  unfold Insert emitted
  cases c.insert_block <;> rfl

theorem error_handler_reported (id : Nat) (message : String) (c : compiler) :
    error_handler id message c = .returns () (reported c id message) := rfl

theorem identifier_bound (x : ast.identifier) (c : compiler) (slot : Value)
    (h : named_values_find x.name c = some (some slot)) :
    identifier_ x c =
      .returns (some (.Load slot x.name)) (emitted c [.value (.Load slot x.name)]) := by
  simp only [identifier_, gen_bind_apply, gen.bind, named_values_index, h, CreateLoad,
    Insert_emitted, gen_pure_apply]

theorem emitted_errors (c : compiler) (insts : List Instruction) :
    (emitted c insts).errors = c.errors := by
  unfold emitted
  cases c.insert_block <;> rfl

theorem emitted_named_values (c : compiler) (insts : List Instruction) :
    (emitted c insts).named_values = c.named_values := by
  unfold emitted
  cases c.insert_block <;> rfl

theorem emitted_module (c : compiler) (insts : List Instruction) :
    (emitted c insts).module = c.module := by
  unfold emitted
  cases c.insert_block <;> rfl

/-- C19: an identifier whose name is not bound to a slot reports `Undeclared
variable` once, at its own position, returns the null value and emits no
instruction; an identifier whose name is bound to a slot reports nothing,
emits one load from that slot and returns the load. -/
theorem identifier_reports_once_or_loads_once (x : ast.identifier) (c : compiler) :
    (undeclared x.name c →
      ∃ c1, identifier_ x c = .returns none c1 ∧
        c1.errors = c.errors ++ [(x.id, "Undeclared variable: " ++ x.name)] ∧
        c1.blocks = c.blocks) ∧
    (∀ slot, named_values_find x.name c = some (some slot) →
      identifier_ x c =
          .returns (some (.Load slot x.name)) (emitted c [.value (.Load slot x.name)]) ∧
        (emitted c [.value (.Load slot x.name)]).errors = c.errors) := by
  constructor
  · intro h
    rcases h with h | h <;>
      simp only [identifier_, gen_bind_apply, gen.bind, named_values_index, h, error_handler,
        gen_pure_apply] <;>
      exact ⟨_, rfl, rfl, rfl⟩
  · intro slot h
    exact ⟨identifier_bound x c slot h, emitted_errors _ _⟩

theorem identifier_reports_once_or_loads_once_witness :
    (undeclared "u" in_f_a_b ∧
      ∃ c1, identifier_ ⟨7, "u"⟩ in_f_a_b = .returns none c1 ∧
        c1.errors = in_f_a_b.errors ++ [(7, "Undeclared variable: " ++ "u")] ∧
        c1.blocks = in_f_a_b.blocks) ∧
    (named_values_find "a" in_f_a_b = some (some (.Alloca "a")) ∧
      identifier_ ⟨3, "a"⟩ in_f_a_b =
          .returns (some (.Load (.Alloca "a") "a"))
            (emitted in_f_a_b [.value (.Load (.Alloca "a") "a")]) ∧
        (emitted in_f_a_b [.value (.Load (.Alloca "a") "a")]).errors = in_f_a_b.errors) :=
  ⟨⟨Or.inl (by decide!),
      (identifier_reports_once_or_loads_once ⟨7, "u"⟩ in_f_a_b).1 (Or.inl (by decide!))⟩,
    ⟨by decide!,
      (identifier_reports_once_or_loads_once ⟨3, "a"⟩ in_f_a_b).2 (.Alloca "a") (by decide!)⟩⟩

/-- C13: declaring a name that is already a key of the symbol table fails
with `Duplicate variable` and changes nothing else: the initializer is not
evaluated (the result does not depend on the fuel), no instruction is emitted
and the table is the same, so a later use of the name still loads from the
slot of the first declaration. -/
theorem variable_declaration_of_bound_name_changes_nothing (n : Nat)
    (x : ast.variable_declaration) (c : compiler) (slot : Option Value)
    (h : named_values_find x.lhs.name c = some slot) :
    variable_declaration_ n x c =
        .returns false (reported c x.lhs.id ("Duplicate variable: " ++ x.lhs.name)) ∧
      (reported c x.lhs.id ("Duplicate variable: " ++ x.lhs.name)).blocks = c.blocks ∧
      (reported c x.lhs.id ("Duplicate variable: " ++ x.lhs.name)).named_values =
        c.named_values ∧
      ∀ (v : Value) (id : Nat), slot = some v →
        ∃ c2, identifier_ ⟨id, x.lhs.name⟩
            (reported c x.lhs.id ("Duplicate variable: " ++ x.lhs.name)) =
          .returns (some (.Load v x.lhs.name)) c2 := by
  refine ⟨?_, rfl, rfl, ?_⟩
  · simp only [variable_declaration_, h, gen_bind_apply, gen.bind, error_handler_reported,
      gen_pure_apply]
  · intro v id hv
    subst hv
    have h1 : named_values_find x.lhs.name
        (reported c x.lhs.id ("Duplicate variable: " ++ x.lhs.name)) = some (some v) := h
    exact ⟨_, identifier_bound ⟨id, x.lhs.name⟩ _ v h1⟩

theorem variable_declaration_of_bound_name_changes_nothing_witness :
    named_values_find "a" in_f_a_b = some (some (.Alloca "a")) ∧
      variable_declaration_ 10 ⟨⟨5, "a"⟩, some (literal_expression (.uint 1))⟩ in_f_a_b =
        .returns false (reported in_f_a_b 5 ("Duplicate variable: " ++ "a")) ∧
      (reported in_f_a_b 5 ("Duplicate variable: " ++ "a")).blocks = in_f_a_b.blocks ∧
      (reported in_f_a_b 5 ("Duplicate variable: " ++ "a")).named_values =
        in_f_a_b.named_values ∧
      ∀ (v : Value) (id : Nat), some (Value.Alloca "a") = some v →
        ∃ c2, identifier_ ⟨id, "a"⟩ (reported in_f_a_b 5 ("Duplicate variable: " ++ "a")) =
          .returns (some (.Load v "a")) c2 :=
  ⟨by decide!,
    variable_declaration_of_bound_name_changes_nothing 10
      ⟨⟨5, "a"⟩, some (literal_expression (.uint 1))⟩ in_f_a_b (some (.Alloca "a"))
      (by decide!)⟩

/-- C16: a call of a name that is not a function of the module reports
`Function not found`, and a call whose argument count differs from the
parameter count of the callee reports `Wrong number of arguments`; either way
the null value is returned in a state that differs from the initial one by
that one report only, so no argument was compiled, no instruction emitted
and no error of an argument reported. -/
theorem function_call_checks_callee_before_arguments (n : Nat) (function_name : ast.identifier)
    (args : List ast.expression) (c : compiler) :
    (getFunction function_name.name c = none →
      function_call_ (n + 1) function_name args c =
        .returns none
          (reported c function_name.id ("Function not found: " ++ function_name.name))) ∧
    (∀ callee, getFunction function_name.name c = some callee →
      callee.args.length ≠ args.length →
      function_call_ (n + 1) function_name args c =
        .returns none
          (reported c function_name.id
            ("Wrong number of arguments: " ++ function_name.name))) := by
  constructor
  · intro h
    simp only [function_call_, h, gen_bind_apply, gen.bind, error_handler_reported,
      gen_pure_apply]
  · intro callee h hne
    simp only [function_call_, h, if_pos hne, gen_bind_apply, gen.bind, error_handler_reported,
      gen_pure_apply]

theorem function_call_checks_callee_before_arguments_witness :
    (getFunction "g" in_f_a_b = none ∧
      function_call_ (0 + 1) ⟨4, "g"⟩ [flat3 ⟨1, "u"⟩ .plus ⟨2, "v"⟩ .times ⟨3, "w"⟩] in_f_a_b =
        .returns none (reported in_f_a_b 4 ("Function not found: " ++ "g"))) ∧
    (getFunction "f" in_f_a_b =
        some { name := "f", void_return := false, args := ["", ""], blocks := [0] } ∧
      [(""), ("")].length ≠ [flat3 ⟨1, "u"⟩ .plus ⟨2, "v"⟩ .times ⟨3, "w"⟩].length ∧
      function_call_ (0 + 1) ⟨4, "f"⟩ [flat3 ⟨1, "u"⟩ .plus ⟨2, "v"⟩ .times ⟨3, "w"⟩] in_f_a_b =
        .returns none (reported in_f_a_b 4 ("Wrong number of arguments: " ++ "f"))) :=
  ⟨⟨by decide!,
      (function_call_checks_callee_before_arguments 0 ⟨4, "g"⟩ _ in_f_a_b).1 (by decide!)⟩,
    ⟨by decide!, by decide,
      (function_call_checks_callee_before_arguments 0 ⟨4, "f"⟩ _ in_f_a_b).2
        { name := "f", void_return := false, args := ["", ""], blocks := [0] } (by decide!)
        (by decide)⟩⟩

theorem assignment_undeclared (n : Nat) (x : ast.assignment) (c : compiler)
    (h : undeclared x.lhs.name c) :
    ∃ c1, assignment_ n x c = .returns none c1 ∧
      c1.errors = c.errors ++ [(x.lhs.id, "Undeclared variable: " ++ x.lhs.name)] ∧
      c1.blocks = c.blocks := by
  rcases h with h | h <;>
    simp only [assignment_, gen_bind_apply, gen.bind, named_values_index, h, error_handler,
      gen_pure_apply] <;>
    exact ⟨_, rfl, rfl, rfl⟩

/-- C18: an assignment to a name that is not bound to a slot reports
`Undeclared variable` and returns the null value without compiling the right
side (whatever the fuel) and without emitting an instruction; when the name
is bound and the right side fails, the null value is returned in the state
the right side left, with no store; when the right side gives a value, one
store of that value into the slot is emitted and that value is returned. -/
theorem assignment_stores_the_right_side (n : Nat) (x : ast.assignment) (c : compiler) :
    (undeclared x.lhs.name c →
      ∃ c1, assignment_ n x c = .returns none c1 ∧
        c1.errors = c.errors ++ [(x.lhs.id, "Undeclared variable: " ++ x.lhs.name)] ∧
        c1.blocks = c.blocks) ∧
    (∀ slot, named_values_find x.lhs.name c = some (some slot) →
      (∀ c1, expression_ n x.rhs c = .returns none c1 →
        assignment_ n x c = .returns none c1) ∧
      (∀ v c1, expression_ n x.rhs c = .returns (some v) c1 →
        assignment_ n x c = .returns (some v) (emitted c1 [.Store v slot]))) := by
  refine ⟨assignment_undeclared n x c, ?_⟩
  intro slot h
  constructor
  · intro c1 h1
    simp only [assignment_, gen_bind_apply, gen.bind, named_values_index, h, h1, gen_pure_apply]
  · intro v c1 h1
    simp only [assignment_, gen_bind_apply, gen.bind, named_values_index, h, h1, CreateStore,
      Insert_emitted, gen_pure_apply]


theorem assignment_stores_the_right_side_witness :
    (undeclared "u" in_f_a_b ∧
      ∃ c1, assignment_ 0 ⟨⟨5, "u"⟩, literal_expression (.uint 1)⟩ in_f_a_b = .returns none c1 ∧
        c1.errors = in_f_a_b.errors ++ [(5, "Undeclared variable: " ++ "u")] ∧
        c1.blocks = in_f_a_b.blocks) ∧
    (named_values_find "a" in_f_a_b = some (some (.Alloca "a")) ∧
      expression_ 10 (.mk (.identifier ⟨7, "u"⟩) []) in_f_a_b =
        .returns none
          { in_f_a_b with
            named_values := in_f_a_b.named_values ++ [("u", none)]
            errors := [(7, "Undeclared variable: u")] } ∧
      assignment_ 10 ⟨⟨5, "a"⟩, .mk (.identifier ⟨7, "u"⟩) []⟩ in_f_a_b =
        .returns none
          { in_f_a_b with
            named_values := in_f_a_b.named_values ++ [("u", none)]
            errors := [(7, "Undeclared variable: u")] }) ∧
    (expression_ 10 (literal_expression (.uint 1)) in_f_a_b =
        .returns (some (.ConstantInt 32 1)) in_f_a_b ∧
      assignment_ 10 ⟨⟨5, "a"⟩, literal_expression (.uint 1)⟩ in_f_a_b =
        .returns (some (.ConstantInt 32 1))
          (emitted in_f_a_b [.Store (.ConstantInt 32 1) (.Alloca "a")])) :=
  ⟨⟨Or.inl (by decide!),
      (assignment_stores_the_right_side 0 ⟨⟨5, "u"⟩, literal_expression (.uint 1)⟩
        in_f_a_b).1 (Or.inl (by decide!))⟩,
    ⟨by decide!, by decide!,
      ((assignment_stores_the_right_side 10 ⟨⟨5, "a"⟩, .mk (.identifier ⟨7, "u"⟩) []⟩
        in_f_a_b).2 (.Alloca "a") (by decide!)).1 _ (by decide!)⟩,
    ⟨by decide!,
      ((assignment_stores_the_right_side 10 ⟨⟨5, "a"⟩, literal_expression (.uint 1)⟩
        in_f_a_b).2 (.Alloca "a") (by decide!)).2 _ _ (by decide!)⟩⟩

/-- C20: a return statement with a value in a `void` function, or without a
value in a function that returns a value, reports an error and fails in a
state that differs from the initial one by that report only (nothing is
compiled, whatever the fuel, and nothing emitted).  In the two other
combinations the statement is accepted and never fails of its own account:
without a value it emits the branch to the return block; with a value it
compiles the expression, fails only if the expression does, and otherwise
emits the store of the value into the return slot and then the branch to the
return block. -/
theorem return_statement_fails_exactly_on_kind_mismatch (n id : Nat)
    (expr : Option ast.expression) (c : compiler) :
    (c.void_return = true → ∀ e, expr = some e →
      return_statement_ n id expr c =
        .returns false (reported c id "'void' function returning a value: ")) ∧
    (c.void_return = false → expr = none →
      return_statement_ n id expr c =
        .returns false
          (reported c id (c.current_function_name ++ " function must return a value: "))) ∧
    (c.void_return = true → expr = none →
      (∀ rb, c.return_block = some rb →
        return_statement_ n id expr c = .returns true (emitted c [.Br rb])) ∧
      ∀ c1, return_statement_ n id expr c ≠ .returns false c1) ∧
    (c.void_return = false → ∀ e, expr = some e →
      (∀ c1, expression_ n e c = .returns none c1 →
        return_statement_ n id expr c = .returns false c1) ∧
      (∀ v c1 ra rb, expression_ n e c = .returns (some v) c1 →
        c1.return_alloca = some ra → c1.return_block = some rb →
        return_statement_ n id expr c =
          .returns true (emitted (emitted c1 [.Store v ra]) [.Br rb])) ∧
      ∀ c1, return_statement_ n id expr c = .returns false c1 →
        expression_ n e c = .returns none c1) := by
  refine ⟨?_, ?_, ?_, ?_⟩
  · intro hv e he
    subst he
    simp only [return_statement_, hv, Option.isSome_some, Bool.and_self, if_true,
      gen_bind_apply, gen.bind, error_handler_reported, gen_pure_apply]
  · intro hv he
    subst he
    simp [return_statement_, hv, gen_bind_apply, gen.bind, error_handler_reported]
  · intro hv he
    subst he
    constructor
    · intro rb hrb
      simp [return_statement_, hv, gen_bind_apply, gen.bind, get_return_block, hrb, CreateBr,
        Insert_emitted]
    · intro c1
      simp only [return_statement_, hv, Option.isSome_none, Bool.and_false, Bool.not_true,
        Bool.false_and, if_false, gen_bind_apply, gen.bind, get_return_block, CreateBr,
        Insert_emitted, gen_pure_apply]
      cases c.return_block <;> simp
  · intro hv e he
    subst he
    refine ⟨?_, ?_, ?_⟩
    · intro c1 h1
      simp [return_statement_, hv, gen_bind_apply, gen.bind, h1]
    · intro v c1 ra rb h1 hra hrb
      have hrb1 : (emitted c1 [.Store v ra]).return_block = some rb := by
        rw [← hrb]; unfold emitted; cases c1.insert_block <;> rfl
      simp [return_statement_, hv, gen_bind_apply, gen.bind, h1, get_return_alloca, hra,
        CreateStore, Insert_emitted, get_return_block, hrb1, CreateBr]
    · intro c1
      simp only [return_statement_, hv, Option.isSome_some, Bool.false_and, Bool.not_false,
        Option.isNone_some, Bool.and_false, if_false, gen_bind_apply, gen.bind]
      cases h1 : expression_ n e c with
      | out_of_fuel => simp
      | assertion_failed => simp
      | null_dereference => simp
      | returns v c2 =>
        cases v with
        | none => simp
        | some v =>
          cases hra : c2.return_alloca with
          | none => simp [gen_bind_apply, gen.bind, get_return_alloca, hra]
          | some ra =>
            cases hrb : (emitted c2 [.Store v ra]).return_block <;>
              simp [gen_bind_apply, gen.bind, get_return_alloca, hra, CreateStore,
                Insert_emitted, get_return_block, hrb, CreateBr]

theorem return_statement_fails_exactly_on_kind_mismatch_witness :
    return_statement_ 0 9 (some (literal_expression (.uint 1)))
        { in_f_a_b with void_return := true } =
      .returns false
        (reported { in_f_a_b with void_return := true } 9
          "'void' function returning a value: ") ∧
    return_statement_ 0 9 none in_f_a_b =
      .returns false
        (reported in_f_a_b 9 (in_f_a_b.current_function_name ++ " function must return a value: ")) ∧
    return_statement_ 0 9 none { in_f_a_b with void_return := true } =
      .returns true (emitted { in_f_a_b with void_return := true } [.Br 1]) ∧
    return_statement_ 10 9 (some (.mk (.identifier ⟨7, "u"⟩) [])) in_f_a_b =
      .returns false
        { in_f_a_b with
          named_values := in_f_a_b.named_values ++ [("u", none)]
          errors := [(7, "Undeclared variable: u")] } ∧
    return_statement_ 10 9 (some (literal_expression (.uint 1))) in_f_a_b =
      .returns true
        (emitted (emitted in_f_a_b [.Store (.ConstantInt 32 1) (.Alloca "return.val")])
          [.Br 1]) :=
  ⟨(return_statement_fails_exactly_on_kind_mismatch 0 9 _
      { in_f_a_b with void_return := true }).1 rfl _ rfl,
    (return_statement_fails_exactly_on_kind_mismatch 0 9 none in_f_a_b).2.1 rfl rfl,
    ((return_statement_fails_exactly_on_kind_mismatch 0 9 none
      { in_f_a_b with void_return := true }).2.2.1 rfl rfl).1 1 rfl,
    ((return_statement_fails_exactly_on_kind_mismatch 10 9 _ in_f_a_b).2.2.2 rfl
      (.mk (.identifier ⟨7, "u"⟩) []) rfl).1 _ (by decide!),
    ((return_statement_fails_exactly_on_kind_mismatch 10 9 _ in_f_a_b).2.2.2 rfl
      (literal_expression (.uint 1)) rfl).2.1 _ _ _ _ (by decide!) rfl rfl⟩


/-! ## The signature of a function (C11) -/

theorem BasicBlock_Create_in_some_of_getFunction (name : String) {f : String} {c : compiler}
    {g : Function} (h : getFunction f c = some g) :
    ∃ c1, BasicBlock_Create_in name (some f) c = .returns c.blocks.length c1 := by
  have h1 : getFunction f
      { c with blocks := c.blocks ++ [{ name := name, parent := none, insts := [] }] } =
      some g := h
  simp only [BasicBlock_Create_in, gen_bind_apply, gen.bind, BasicBlock_Create, push_back, h1,
    gen_pure_apply]
  exact ⟨_, rfl⟩

/-- C11: `function_decl` for a function named `n` with `k` parameters.  When
the module has no function `n`, one record for `n` with `k` parameters and no
block is added at the end of the module and `n` is returned.  When the module
has `n` with a body, `Duplicate function` is reported; when it has `n`
without a body and with another parameter count, the arity error is reported;
in both cases the null function is returned and the module is the same as
before.  When it has `n` without a body and with `k` parameters, `n` is
returned, no error is reported, the module has the same functions, the record
of `n` differs by the parameter names only, and an entry block can be added
to it, which then is its only block. -/
theorem function_decl_resolves_signature (x : ast.function) (c : compiler) :
    (getFunction x.function_name.name c = none →
      ∃ c1, function_decl x c = .returns (some x.function_name.name) c1 ∧
        c1.module = c.module ++
          [{ name := x.function_name.name
             void_return := x.return_type == "void"
             args := x.args.map (fun _ => "")
             blocks := [] }] ∧
        (∃ g, getFunction x.function_name.name c1 = some g ∧
          g.args.length = x.args.length ∧ g.blocks = []) ∧
        c1.errors = c.errors) ∧
    (∀ g, getFunction x.function_name.name c = some g → g.blocks ≠ [] →
      ∃ c1, function_decl x c = .returns none c1 ∧ c1.module = c.module ∧
        c1.errors = c.errors ++
          [(x.function_name.id, "Duplicate function: " ++ x.function_name.name)]) ∧
    (∀ g, getFunction x.function_name.name c = some g → g.blocks = [] →
      g.args.length ≠ x.args.length →
      ∃ c1, function_decl x c = .returns none c1 ∧ c1.module = c.module ∧
        c1.errors = c.errors ++
          [(x.function_name.id,
            "Redefinition of function with different # args: " ++ x.function_name.name)]) ∧
    (∀ g, getFunction x.function_name.name c = some g → g.blocks = [] →
      g.args.length = x.args.length →
      ∃ c1, function_decl x c = .returns (some x.function_name.name) c1 ∧
        c1.errors = c.errors ∧
        c1.module.map (fun g => g.name) = c.module.map (fun g => g.name) ∧
        getFunction x.function_name.name c1 =
          some { g with args := x.args.map (fun a => a.name) } ∧
        ∃ c2, BasicBlock_Create_in "entry" (some x.function_name.name) c1 =
            .returns c.blocks.length c2 ∧
          block_list x.function_name.name c2 = [c.blocks.length]) := by
  have hg : ∀ g, getFunction x.function_name.name
      { c with
        void_return := x.return_type == "void"
        current_function_name := x.function_name.name } = g ↔
      getFunction x.function_name.name c = g := fun g => Iff.rfl
  refine ⟨?_, ?_, ?_, ?_⟩
  · intro h
    have h1 : function_decl x c = .returns (some x.function_name.name)
        { c with
          void_return := x.return_type == "void"
          current_function_name := x.function_name.name
          module := c.module ++
            [{ name := x.function_name.name
               void_return := x.return_type == "void"
               args := x.args.map (fun _ => "")
               blocks := [] }] } := by
      unfold function_decl
      simp only [(hg none).2 h]
    refine ⟨_, h1, rfl, ?_, rfl⟩
    refine ⟨{ name := x.function_name.name
              void_return := x.return_type == "void"
              args := x.args.map (fun _ => "")
              blocks := [] }, ?_, ?_, rfl⟩
    · simp only [getFunction] at h ⊢
      simp only [List.find?_append, h, Option.none_or, List.find?_cons, beq_self_eq_true]
    · simp
  · intro g h hb
    have hb1 : (!g.blocks.isEmpty) = true := by
      cases hb2 : g.blocks with
      | nil => exact absurd hb2 hb
      | cons _ _ => rfl
    have h1 : function_decl x c = .returns none
        { c with
          void_return := x.return_type == "void"
          current_function_name := x.function_name.name
          errors := c.errors ++
            [(x.function_name.id, "Duplicate function: " ++ x.function_name.name)] } := by
      unfold function_decl
      simp only [(hg _).2 h, hb1, if_true, gen_bind_apply, gen.bind, error_handler,
        gen_pure_apply]
    exact ⟨_, h1, rfl, rfl⟩
  · intro g h hb hne
    have h1 : function_decl x c = .returns none
        { c with
          void_return := x.return_type == "void"
          current_function_name := x.function_name.name
          errors := c.errors ++
            [(x.function_name.id,
              "Redefinition of function with different # args: " ++ x.function_name.name)] } := by
      unfold function_decl
      simp only [(hg _).2 h, hb, List.isEmpty_nil, Bool.not_true, Bool.false_eq_true, if_false,
        if_pos hne, gen_bind_apply, gen.bind, error_handler, gen_pure_apply]
    exact ⟨_, h1, rfl, rfl⟩
  · intro g h hb heq
    have h1 : function_decl x c = .returns (some x.function_name.name)
        { c with
          void_return := x.return_type == "void"
          current_function_name := x.function_name.name
          module :=
            c.module.map (fun g =>
              if g.name == x.function_name.name then
                { g with args := x.args.map (fun a => a.name) }
              else g) } := by
      unfold function_decl
      simp only [(hg _).2 h, hb, List.isEmpty_nil, Bool.not_true, Bool.false_eq_true, if_false,
        heq, ne_eq, not_true_eq_false]
    have h2 : getFunction x.function_name.name
        { c with
          void_return := x.return_type == "void"
          current_function_name := x.function_name.name
          module :=
            c.module.map (fun g =>
              if g.name == x.function_name.name then
                { g with args := x.args.map (fun a => a.name) }
              else g) } = some { g with args := x.args.map (fun a => a.name) } := by
      simp only [getFunction] at h ⊢
      rw [getFunction_map_blocks _ _ _ (fun g => by split <;> rfl), h]
      have hn : g.name = x.function_name.name := by
        have := List.find?_some h
        simpa using this
      simp [hn]
    refine ⟨_, h1, rfl, ?_, h2, ?_⟩
    · simp only [List.map_map]
      apply List.map_congr_left
      intro a _
      simp only [Function.comp]
      split <;> rfl
    · obtain ⟨c2, h3⟩ := BasicBlock_Create_in_some_of_getFunction "entry" h2
      refine ⟨c2, h3, ?_⟩
      have h4 := (BasicBlock_Create_in_some_returns h3).2.2
      rw [(function_decl_returns h1).2.2.1] at h4
      simpa using h4

theorem function_decl_resolves_signature_witness :
    (getFunction "f" compiler.init = none ∧
      ∃ c1, function_decl prototype_f_a_b compiler.init = .returns (some "f") c1 ∧
        c1.module = [{ name := "f", void_return := false, args := ["", ""], blocks := [] }]) ∧
    (getFunction "f" in_f_a_b =
        some { name := "f", void_return := false, args := ["", ""], blocks := [0] } ∧
      ∃ c1, function_decl prototype_f_a_b in_f_a_b = .returns none c1 ∧
        c1.module = in_f_a_b.module ∧
        c1.errors = in_f_a_b.errors ++ [(1, "Duplicate function: " ++ "f")]) ∧
    (getFunction "f" declared_f =
        some { name := "f", void_return := false, args := ["", ""], blocks := [] } ∧
      ∃ c1, function_decl prototype_f_a declared_f = .returns none c1 ∧
        c1.module = declared_f.module ∧
        c1.errors = declared_f.errors ++
          [(1, "Redefinition of function with different # args: " ++ "f")]) ∧
    (∃ c1, function_decl prototype_f_a_b declared_f = .returns (some "f") c1 ∧
      c1.errors = declared_f.errors ∧
      getFunction "f" c1 =
        some { name := "f", void_return := false, args := ["a", "b"], blocks := [] } ∧
      ∃ c2, BasicBlock_Create_in "entry" (some "f") c1 = .returns 0 c2 ∧
        block_list "f" c2 = [0]) :=
  ⟨⟨by decide!,
      match (function_decl_resolves_signature prototype_f_a_b compiler.init).1 (by decide!) with
      | ⟨c1, h1, h2, _⟩ => ⟨c1, h1, h2⟩⟩,
    ⟨by decide!,
      (function_decl_resolves_signature prototype_f_a_b in_f_a_b).2.1
        { name := "f", void_return := false, args := ["", ""], blocks := [0] } (by decide!)
        (by decide)⟩,
    ⟨by decide!,
      (function_decl_resolves_signature prototype_f_a declared_f).2.2.1
        { name := "f", void_return := false, args := ["", ""], blocks := [] } (by decide!)
        rfl (by decide)⟩,
    match (function_decl_resolves_signature prototype_f_a_b declared_f).2.2.2
        { name := "f", void_return := false, args := ["", ""], blocks := [] } (by decide!)
        rfl rfl with
    | ⟨c1, h1, h2, _, h4, h5⟩ => ⟨c1, h1, h2, h4, h5⟩⟩


/-! ## Lookups that insert (C14, C15) -/

theorem variable_declaration_duplicate (n : Nat) (x : ast.variable_declaration) (c : compiler)
    (slot : Option Value) (h : named_values_find x.lhs.name c = some slot) :
    variable_declaration_ n x c =
      .returns false (reported c x.lhs.id ("Duplicate variable: " ++ x.lhs.name)) := by
  simp only [variable_declaration_, h, gen_bind_apply, gen.bind, error_handler_reported,
    gen_pure_apply]

theorem named_values_find_inserted (name : String) (c : compiler)
    (h : named_values_find name c = none) :
    named_values_find name { c with named_values := c.named_values ++ [(name, none)] } =
      some none := by
  simp only [named_values_find] at h ⊢
  simp only [Option.map_eq_none'] at h
  simp [List.find?_append, h]

theorem identifier_absent (x : ast.identifier) (c : compiler)
    (h : named_values_find x.name c = none) :
    identifier_ x c =
      .returns none
        (reported { c with named_values := c.named_values ++ [(x.name, none)] } x.id
          ("Undeclared variable: " ++ x.name)) := by
  simp only [identifier_, gen_bind_apply, gen.bind, named_values_index, h,
    error_handler_reported, gen_pure_apply]

theorem assignment_absent (n : Nat) (x : ast.assignment) (c : compiler)
    (h : named_values_find x.lhs.name c = none) :
    assignment_ n x c =
      .returns none
        (reported { c with named_values := c.named_values ++ [(x.lhs.name, none)] } x.lhs.id
          ("Undeclared variable: " ++ x.lhs.name)) := by
  simp only [assignment_, gen_bind_apply, gen.bind, named_values_index, h,
    error_handler_reported, gen_pure_apply]

/-- C14: the declaration `int x = x;` of a name that is not in the symbol
table fails, allocates no slot and emits nothing, but leaves the name in the
table, mapped to the null pointer: every later declaration of the name is
rejected with `Duplicate variable`. -/
theorem declaration_initialized_by_itself_leaves_the_name_in_the_table (n id1 id2 : Nat)
    (name : String) (c : compiler) (h : named_values_find name c = none)
    (hp : ∃ f, getParent c = .returns f c) :
    ∃ c1, variable_declaration_ (n + 2) ⟨⟨id1, name⟩, some (.mk (.identifier ⟨id2, name⟩) [])⟩ c =
        .returns false c1 ∧
      c1.blocks = c.blocks ∧
      named_values_find name c1 = some none ∧
      ∀ (m : Nat) (y : ast.variable_declaration), y.lhs.name = name →
        variable_declaration_ m y c1 =
          .returns false (reported c1 y.lhs.id ("Duplicate variable: " ++ name)) := by
  obtain ⟨f, hf⟩ := hp
  have h1 : named_values_find name
      (reported { c with named_values := c.named_values ++ [(name, none)] } id2
        ("Undeclared variable: " ++ name)) = some none :=
    named_values_find_inserted name c h
  refine ⟨_, ?_, ?_, h1, ?_⟩
  · simp only [variable_declaration_, h, gen_bind_apply, gen.bind, hf]
    rw [expression_]
    simp only [ast.expression.first, gen_bind_apply, gen.bind]
    rw [operand_, identifier_absent _ _ h]
    rfl
  · rfl
  · intro m y hy
    subst hy
    exact variable_declaration_duplicate m y _ none h1

theorem declaration_initialized_by_itself_leaves_the_name_in_the_table_witness :
    named_values_find "x" in_f_a_b = none ∧
      ∃ c1, variable_declaration_ (0 + 2) ⟨⟨5, "x"⟩, some (.mk (.identifier ⟨6, "x"⟩) [])⟩
          in_f_a_b = .returns false c1 ∧
        c1.blocks = in_f_a_b.blocks ∧
        named_values_find "x" c1 = some none ∧
        ∀ (m : Nat) (y : ast.variable_declaration), y.lhs.name = "x" →
          variable_declaration_ m y c1 =
            .returns false (reported c1 y.lhs.id ("Duplicate variable: " ++ "x")) :=
  ⟨by decide!,
    declaration_initialized_by_itself_leaves_the_name_in_the_table 0 5 6 "x" in_f_a_b
      (by decide!) ⟨some "f", by decide!⟩⟩

/-- C15: looking up a name that is not in the symbol table, by compiling an
identifier or the left side of an assignment, inserts the name into the
table with a null pointer; a declaration of the name that follows the lookup
is rejected with `Duplicate variable`. -/
theorem lookup_of_absent_name_inserts_the_name (name : String) (c : compiler)
    (h : named_values_find name c = none) :
    (∀ id, ∃ c1, identifier_ ⟨id, name⟩ c = .returns none c1 ∧
      c1.named_values = c.named_values ++ [(name, none)] ∧
      named_values_find name c1 = some none ∧
      ∀ (m : Nat) (y : ast.variable_declaration), y.lhs.name = name →
        variable_declaration_ m y c1 =
          .returns false (reported c1 y.lhs.id ("Duplicate variable: " ++ name))) ∧
    (∀ (n : Nat) (x : ast.assignment), x.lhs.name = name →
      ∃ c1, assignment_ n x c = .returns none c1 ∧
        c1.named_values = c.named_values ++ [(name, none)] ∧
        named_values_find name c1 = some none ∧
        ∀ (m : Nat) (y : ast.variable_declaration), y.lhs.name = name →
          variable_declaration_ m y c1 =
            .returns false (reported c1 y.lhs.id ("Duplicate variable: " ++ name))) := by
  constructor
  · intro id
    have h1 : named_values_find name
        (reported { c with named_values := c.named_values ++ [(name, none)] } id
          ("Undeclared variable: " ++ name)) = some none :=
      named_values_find_inserted name c h
    refine ⟨_, identifier_absent ⟨id, name⟩ c h, rfl, h1, ?_⟩
    intro m y hy
    subst hy
    exact variable_declaration_duplicate m y _ none h1
  · intro n x hx
    subst hx
    have h1 : named_values_find x.lhs.name
        (reported { c with named_values := c.named_values ++ [(x.lhs.name, none)] } x.lhs.id
          ("Undeclared variable: " ++ x.lhs.name)) = some none :=
      named_values_find_inserted x.lhs.name c h
    refine ⟨_, assignment_absent n x c h, rfl, h1, ?_⟩
    intro m y hy
    exact hy ▸ variable_declaration_duplicate m y _ none (hy ▸ h1)

theorem lookup_of_absent_name_inserts_the_name_witness :
    named_values_find "x" in_f_a_b = none ∧
      (∃ c1, identifier_ ⟨6, "x"⟩ in_f_a_b = .returns none c1 ∧
        c1.named_values = in_f_a_b.named_values ++ [("x", none)] ∧
        named_values_find "x" c1 = some none ∧
        ∀ (m : Nat) (y : ast.variable_declaration), y.lhs.name = "x" →
          variable_declaration_ m y c1 =
            .returns false (reported c1 y.lhs.id ("Duplicate variable: " ++ "x"))) ∧
      ∃ c1, assignment_ 10 ⟨⟨6, "x"⟩, literal_expression (.uint 1)⟩ in_f_a_b =
          .returns none c1 ∧
        c1.named_values = in_f_a_b.named_values ++ [("x", none)] ∧
        named_values_find "x" c1 = some none ∧
        ∀ (m : Nat) (y : ast.variable_declaration), y.lhs.name = "x" →
          variable_declaration_ m y c1 =
            .returns false (reported c1 y.lhs.id ("Duplicate variable: " ++ "x")) :=
  ⟨by decide!,
    (lookup_of_absent_name_inserts_the_name "x" in_f_a_b (by decide!)).1 6,
    (lookup_of_absent_name_inserts_the_name "x" in_f_a_b (by decide!)).2 10
      ⟨⟨6, "x"⟩, literal_expression (.uint 1)⟩ rfl⟩


/-! ## The arguments of a call (C17) -/

theorem function_call_args_all (m : Nat) :
    ∀ (es : List ast.expression) (k : Nat) (acc : List Value) (c : compiler) (vs : List Value)
      (c1 : compiler), m + es.length + 1 ≤ k → arguments_evaluate m es c vs c1 →
      function_call_args k es acc c = .returns (some (acc ++ vs)) c1 := by
  intro es
  induction es with
  | nil =>
    intro k acc c vs c1 hk h
    obtain ⟨hv, hc⟩ := h
    subst hv
    subst hc
    obtain ⟨j, rfl⟩ : ∃ j, k = j + 1 := ⟨k - 1, by simp at hk; omega⟩
    rw [function_call_args]
    simp
  | cons e es ih =>
    intro k acc c vs c1 hk h
    obtain ⟨v, c2, vs1, h1, h2, hv⟩ := h
    subst hv
    simp only [List.length_cons] at hk
    obtain ⟨j, rfl⟩ : ∃ j, k = j + 1 := ⟨k - 1, by omega⟩
    have h3 := gen.le_returns (expression_le e (show m ≤ j by omega)) h1
    rw [function_call_args]
    simp only [gen_bind_apply, gen.bind, h3]
    rw [ih j (acc ++ [v]) c2 vs1 c1 (by omega) h2]
    simp

theorem function_call_args_first_failure (m : Nat) (e : ast.expression)
    (post : List ast.expression) :
    ∀ (pre : List ast.expression) (k : Nat) (acc : List Value) (c : compiler) (vs : List Value)
      (c1 c2 : compiler), m + (pre ++ e :: post).length + 1 ≤ k →
      arguments_evaluate m pre c vs c1 → expression_ m e c1 = .returns none c2 →
      function_call_args k (pre ++ e :: post) acc c = .returns none c2 := by
  intro pre
  induction pre with
  | nil =>
    intro k acc c vs c1 c2 hk h he
    obtain ⟨_, hc⟩ := h
    subst hc
    simp only [List.nil_append, List.length_cons] at hk ⊢
    obtain ⟨j, rfl⟩ : ∃ j, k = j + 1 := ⟨k - 1, by omega⟩
    have h3 := gen.le_returns (expression_le e (show m ≤ j by omega)) he
    rw [function_call_args]
    simp only [gen_bind_apply, gen.bind, h3, gen_pure_apply]
  | cons p pre ih =>
    intro k acc c vs c1 c2 hk h he
    obtain ⟨v, c3, vs1, h1, h2, _⟩ := h
    simp only [List.cons_append, List.length_cons] at hk ⊢
    obtain ⟨j, rfl⟩ : ∃ j, k = j + 1 := ⟨k - 1, by omega⟩
    have h3 := gen.le_returns (expression_le p (show m ≤ j by omega)) h1
    rw [function_call_args]
    simp only [gen_bind_apply, gen.bind, h3]
    exact ih j (acc ++ [v]) c3 vs1 c1 c2 (by omega) h2 he

/-- C17: a call that passes the callee and arity checks compiles its
arguments from left to right, each in the state the one before left.  When
the arguments before some argument all give a value and that argument fails,
the call returns the null value in the state that argument left: no argument
after it is compiled and no call is emitted.  When all arguments give a
value, one call instruction is emitted after them, its operands are the
values of the arguments in source order, and it is the value returned. -/
theorem function_call_evaluates_arguments_in_order (m n : Nat) (function_name : ast.identifier)
    (callee : Function) (c : compiler)
    (hc : getFunction function_name.name c = some callee) :
    (∀ pre e post vs c1 c2, callee.args.length = (pre ++ e :: post).length →
      m + (pre ++ e :: post).length + 1 ≤ n →
      arguments_evaluate m pre c vs c1 → expression_ m e c1 = .returns none c2 →
      function_call_ (n + 1) function_name (pre ++ e :: post) c = .returns none c2) ∧
    (∀ args vs c1, callee.args.length = args.length → m + args.length + 1 ≤ n →
      arguments_evaluate m args c vs c1 →
      function_call_ (n + 1) function_name args c =
        .returns (some (.Call callee.name vs)) (emitted c1 [.value (.Call callee.name vs)])) := by
  constructor
  · intro pre e post vs c1 c2 hl hn h he
    rw [function_call_]
    simp only [hc, hl, ne_eq, not_true_eq_false, if_false, gen_bind_apply, gen.bind,
      function_call_args_first_failure m e post pre n [] c vs c1 c2 hn h he, gen_pure_apply]
  · intro args vs c1 hl hn h
    rw [function_call_]
    simp only [hc, hl, ne_eq, not_true_eq_false, if_false, gen_bind_apply, gen.bind,
      function_call_args_all m args n [] c vs c1 hn h, List.nil_append, CreateCall,
      Insert_emitted, gen_pure_apply]

theorem function_call_evaluates_arguments_in_order_witness :
    getFunction "f" in_f_a_b =
        some { name := "f", void_return := false, args := ["", ""], blocks := [0] } ∧
    function_call_ (5 + 1) ⟨4, "f"⟩
        ([] ++ identifier_expression ⟨7, "u"⟩ :: [identifier_expression ⟨8, "v"⟩]) in_f_a_b =
      .returns none
        { in_f_a_b with
          named_values := in_f_a_b.named_values ++ [("u", none)]
          errors := [(7, "Undeclared variable: u")] } ∧
    function_call_ (5 + 1) ⟨4, "f"⟩
        [identifier_expression ⟨7, "a"⟩, identifier_expression ⟨8, "b"⟩] in_f_a_b =
      .returns (some (.Call "f" [.Load (.Alloca "a") "a", .Load (.Alloca "b") "b"]))
        (emitted
          (emitted (emitted in_f_a_b [.value (.Load (.Alloca "a") "a")])
            [.value (.Load (.Alloca "b") "b")])
          [.value (.Call "f" [.Load (.Alloca "a") "a", .Load (.Alloca "b") "b"])]) :=
  ⟨by decide!,
    (function_call_evaluates_arguments_in_order 2 5 ⟨4, "f"⟩
      { name := "f", void_return := false, args := ["", ""], blocks := [0] } in_f_a_b
      (by decide!)).1 [] (identifier_expression ⟨7, "u"⟩) [identifier_expression ⟨8, "v"⟩]
      [] in_f_a_b _ rfl (by decide) ⟨rfl, rfl⟩ (by decide!),
    (function_call_evaluates_arguments_in_order 2 5 ⟨4, "f"⟩
      { name := "f", void_return := false, args := ["", ""], blocks := [0] } in_f_a_b
      (by decide!)).2 [identifier_expression ⟨7, "a"⟩, identifier_expression ⟨8, "b"⟩]
      [.Load (.Alloca "a") "a", .Load (.Alloca "b") "b"]
      (emitted (emitted in_f_a_b [.value (.Load (.Alloca "a") "a")])
        [.value (.Load (.Alloca "b") "b")])
      rfl (by decide)
      ⟨.Load (.Alloca "a") "a", emitted in_f_a_b [.value (.Load (.Alloca "a") "a")],
        [.Load (.Alloca "b") "b"], by decide!,
        ⟨.Load (.Alloca "b") "b",
          emitted (emitted in_f_a_b [.value (.Load (.Alloca "a") "a")])
            [.value (.Load (.Alloca "b") "b")],
          [], by decide!, ⟨rfl, rfl⟩, rfl⟩, rfl⟩⟩


/-! ## A failed body (C12) -/

/-! ### Relations kept by expressions and simple statements -/

theorem gen.relates_pure {α : Type} {A : Prop} {R : compiler → compiler → Prop}
    (hR : steps_closed A R)
    (a : α) : gen.relates R (pure a : gen α) := by
  intro c b c1 h
  simp only [gen_pure_apply, Result.returns.injEq] at h
  rw [← h.2]
  exact hR.same c

theorem gen.relates_bind {α β : Type} {A : Prop} {R : compiler → compiler → Prop}
    (hR : steps_closed A R)
    {m : gen α} {k : α → gen β} (hm : gen.relates R m) (hk : ∀ a, gen.relates R (k a)) :
    gen.relates R (m >>= k) := by
  intro c b c2 h
  obtain ⟨a, c1, h1, h2⟩ := gen_bind_returns h
  exact hR.chain _ _ _ (hm c a c1 h1) (hk a c1 b c2 h2)

theorem gen.relates_of_not_returns {α : Type} {R : compiler → compiler → Prop} {m : gen α}
    (h : ∀ c a c1, m c ≠ .returns a c1) : gen.relates R m :=
  fun c a c1 h1 => absurd h1 (h c a c1)

theorem relates_out_of_fuel {α : Type} {R : compiler → compiler → Prop} :
    gen.relates R (out_of_fuel : gen α) :=
  gen.relates_of_not_returns (fun _ _ _ h => Result.noConfusion h)

theorem relates_assertion_failed {α : Type} {R : compiler → compiler → Prop} :
    gen.relates R (assertion_failed : gen α) :=
  gen.relates_of_not_returns (fun _ _ _ h => Result.noConfusion h)

theorem relates_null_dereference {α : Type} {R : compiler → compiler → Prop} :
    gen.relates R (null_dereference : gen α) :=
  gen.relates_of_not_returns (fun _ _ _ h => Result.noConfusion h)

theorem relates_error_handler {A : Prop} {R : compiler → compiler → Prop}
    (hR : steps_closed A R)
    (id : Nat) (message : String) : gen.relates R (error_handler id message) := by
  intro c a c1 h
  rw [error_handler_reported, Result.returns.injEq] at h
  rw [← h.2]
  exact hR.report id message c

theorem relates_named_values_index {A : Prop} {R : compiler → compiler → Prop}
    (hR : steps_closed A R)
    (name : String) : gen.relates R (named_values_index name) := by
  intro c a c1 h
  unfold named_values_index at h
  split at h <;> simp only [Result.returns.injEq] at h <;> rw [← h.2]
  · exact hR.same c
  · exact hR.index name c

theorem relates_named_values_assign {A : Prop} {R : compiler → compiler → Prop}
    (hR : steps_closed A R)
    (name : String) (value : Value) : gen.relates R (named_values_assign name value) := by
  intro c a c1 h
  simp only [named_values_assign, Result.returns.injEq] at h
  rw [← h.2]
  exact hR.assign name value c

theorem relates_Insert {A : Prop} {R : compiler → compiler → Prop}
    (hR : steps_closed A R)
    (i : Instruction) (hi : i.isAlloca = false) : gen.relates R (Insert i) := by
  intro c a c1 h
  rw [Insert_emitted, Result.returns.injEq] at h
  rw [← h.2]
  exact hR.insert i c hi

theorem relates_CreateLoad {A : Prop} {R : compiler → compiler → Prop}
    (hR : steps_closed A R)
    (ptr : Value) (name : String) : gen.relates R (CreateLoad ptr name) :=
  gen.relates_bind hR (relates_Insert hR _ (by rfl)) (fun _ => gen.relates_pure hR _)

theorem relates_CreateNeg {A : Prop} {R : compiler → compiler → Prop}
    (hR : steps_closed A R)
    (v : Value) : gen.relates R (CreateNeg v) := by
  unfold CreateNeg
  split
  · exact gen.relates_pure hR _
  · exact gen.relates_bind hR (relates_Insert hR _ (by rfl)) (fun _ => gen.relates_pure hR _)

theorem relates_CreateNot {A : Prop} {R : compiler → compiler → Prop}
    (hR : steps_closed A R)
    (v : Value) : gen.relates R (CreateNot v) := by
  unfold CreateNot
  split
  · exact gen.relates_pure hR _
  · exact gen.relates_bind hR (relates_Insert hR _ (by rfl)) (fun _ => gen.relates_pure hR _)

theorem relates_CreateCall {A : Prop} {R : compiler → compiler → Prop}
    (hR : steps_closed A R)
    (callee : String) (args : List Value) : gen.relates R (CreateCall callee args) :=
  gen.relates_bind hR (relates_Insert hR _ (by rfl)) (fun _ => gen.relates_pure hR _)

theorem relates_CreateBinOp {A : Prop} {R : compiler → compiler → Prop}
    (hR : steps_closed A R)
    (opc : Opcode) (lhs rhs : Option Value) : gen.relates R (CreateBinOp opc lhs rhs) := by
  cases lhs with
  | none => exact relates_null_dereference
  | some l =>
    cases rhs with
    | none => exact relates_null_dereference
    | some r =>
      rw [CreateBinOp_some]
      split
      · exact gen.relates_pure hR _
      split
      · exact gen.relates_pure hR _
      · exact gen.relates_bind hR (relates_Insert hR _ (by rfl)) (fun _ => gen.relates_pure hR _)

theorem relates_compile_binary_expression {A : Prop} {R : compiler → compiler → Prop}
    (hR : steps_closed A R) (lhs rhs : Option Value) (op : token) :
    gen.relates R (compile_binary_expression lhs rhs op) := by
  cases op <;> first | exact relates_CreateBinOp hR _ _ _ | exact relates_assertion_failed

theorem relates_literal {A : Prop} {R : compiler → compiler → Prop}
    (hR : steps_closed A R)
    (x : ast.literal) : gen.relates R (literal_ x) := by
  cases x <;> exact gen.relates_pure hR _

theorem relates_identifier {A : Prop} {R : compiler → compiler → Prop}
    (hR : steps_closed A R)
    (x : ast.identifier) : gen.relates R (identifier_ x) := by
  refine gen.relates_bind hR (relates_named_values_index hR _) (fun v => ?_)
  cases v with
  | none =>
    exact gen.relates_bind hR (relates_error_handler hR _ _) (fun _ => gen.relates_pure hR _)
  | some v =>
    exact gen.relates_bind hR (relates_CreateLoad hR _ _) (fun _ => gen.relates_pure hR _)


theorem expression_layer_relates {A : Prop} {R : compiler → compiler → Prop}
    (hR : steps_closed A R) :
    ∀ n : Nat,
    (∀ o, gen.relates R (operand_ n o)) ∧
    (∀ op o, gen.relates R (unary_ n op o)) ∧
    (∀ f a, gen.relates R (function_call_ n f a)) ∧
    (∀ a vs, gen.relates R (function_call_args n a vs)) ∧
    (∀ p l r, gen.relates R (compile_expression n p l r)) ∧
    (∀ op l r, gen.relates R (compile_expression_inner n op l r)) ∧
    (∀ x, gen.relates R (expression_ n x)) := by
  intro n
  induction n with
  | zero =>
    refine ⟨?_, ?_, ?_, ?_, ?_, ?_, ?_⟩ <;> intros <;>
      first
        | (rw [operand_]; exact relates_out_of_fuel)
        | (rw [unary_]; exact relates_out_of_fuel)
        | (rw [function_call_]; exact relates_out_of_fuel)
        | (rw [function_call_args]; exact relates_out_of_fuel)
        | (rw [compile_expression]; exact relates_out_of_fuel)
        | (rw [compile_expression_inner]; exact relates_out_of_fuel)
        | (rw [expression_]; exact relates_out_of_fuel)
  | succ n ih =>
    obtain ⟨ih1, ih2, ih3, ih4, ih5, ih6, ih7⟩ := ih
    refine ⟨?_, ?_, ?_, ?_, ?_, ?_, ?_⟩
    · intro o
      cases o with
      | literal x => rw [operand_]; exact relates_literal hR x
      | identifier x => rw [operand_]; exact relates_identifier hR x
      | unary op o => rw [operand_]; exact ih2 op o
      | function_call f a => rw [operand_]; exact ih3 f a
      | expression x => rw [operand_]; exact ih7 x
    · intro op o
      rw [unary_]
      refine gen.relates_bind hR (ih1 o) (fun v => ?_)
      cases v with
      | none => exact gen.relates_pure hR _
      | some v =>
        cases op <;>
          first
            | exact relates_assertion_failed
            | exact gen.relates_pure hR _
            | exact gen.relates_bind hR (relates_CreateNeg hR _) (fun _ => gen.relates_pure hR _)
            | exact gen.relates_bind hR (relates_CreateNot hR _) (fun _ => gen.relates_pure hR _)
    · intro f a
      rw [function_call_]
      intro c r c1 h
      dsimp only at h
      split at h
      · exact gen.relates_bind hR (relates_error_handler hR _ _)
          (fun _ => gen.relates_pure hR _) c r c1 h
      · split at h
        · exact gen.relates_bind hR (relates_error_handler hR _ _)
            (fun _ => gen.relates_pure hR _) c r c1 h
        · refine gen.relates_bind hR (ih4 a []) (fun v => ?_) c r c1 h
          cases v with
          | none => exact gen.relates_pure hR _
          | some v =>
            exact gen.relates_bind hR (relates_CreateCall hR _ _)
              (fun _ => gen.relates_pure hR _)
    · intro a vs
      cases a with
      | nil => rw [function_call_args]; exact gen.relates_pure hR _
      | cons e more =>
        rw [function_call_args]
        refine gen.relates_bind hR (ih7 e) (fun v => ?_)
        cases v with
        | none => exact gen.relates_pure hR _
        | some v => exact ih4 more _
    · intro p l r
      cases r with
      | nil => rw [compile_expression]; exact gen.relates_pure hR _
      | cons o rest =>
        rw [compile_expression]
        split
        · refine gen.relates_bind hR (ih1 _) (fun v => ?_)
          cases v with
          | none => exact gen.relates_pure hR _
          | some v =>
            refine gen.relates_bind hR (ih6 _ _ _) (fun v => ?_)
            exact gen.relates_bind hR (relates_compile_binary_expression hR _ _ _)
              (fun v => ih5 _ _ _)
        · exact gen.relates_pure hR _
    · intro op l r
      cases r with
      | nil => rw [compile_expression_inner]; exact gen.relates_pure hR _
      | cons o rest =>
        rw [compile_expression_inner]
        split
        · exact gen.relates_bind hR (ih5 _ _ _) (fun v => ih6 _ _ _)
        · exact gen.relates_pure hR _
    · intro x
      rw [expression_]
      refine gen.relates_bind hR (ih1 _) (fun v => ?_)
      cases v with
      | none => exact gen.relates_pure hR _
      | some v => exact gen.relates_bind hR (ih5 _ _ _) (fun _ => gen.relates_pure hR _)

theorem relates_expression {A : Prop} {R : compiler → compiler → Prop}
    (hR : steps_closed A R) (n : Nat)
    (x : ast.expression) : gen.relates R (expression_ n x) :=
  (expression_layer_relates hR n).2.2.2.2.2.2 x

theorem relates_assignment {A : Prop} {R : compiler → compiler → Prop}
    (hR : steps_closed A R) (n : Nat)
    (x : ast.assignment) : gen.relates R (assignment_ n x) := by
  refine gen.relates_bind hR (relates_named_values_index hR _) (fun v => ?_)
  cases v with
  | none =>
    exact gen.relates_bind hR (relates_error_handler hR _ _) (fun _ => gen.relates_pure hR _)
  | some v =>
    refine gen.relates_bind hR (relates_expression hR n _) (fun r => ?_)
    cases r with
    | none => exact gen.relates_pure hR _
    | some r => exact gen.relates_bind hR (relates_Insert hR _ (by rfl)) (fun _ => gen.relates_pure hR _)

theorem relates_getParent {A : Prop} {R : compiler → compiler → Prop}
    (hR : steps_closed A R) :
    gen.relates R getParent := by
  intro c a c1 h
  rw [getParent_returns h]
  exact hR.same c

theorem relates_create_entry_block_alloca {R : compiler → compiler → Prop}
    (hR : step_closed R) (function : Option String) (var : String) :
    gen.relates R (create_entry_block_alloca function var) := by
  intro c a c1 h
  unfold create_entry_block_alloca at h
  split at h
  · exact Result.noConfusion h
  · split at h
    · exact Result.noConfusion h
    · split at h
      · exact Result.noConfusion h
      · simp only [Result.returns.injEq] at h
        rw [← h.2]
        exact hR.alloca trivial _ _ c

theorem relates_variable_declaration {R : compiler → compiler → Prop} (hR : step_closed R)
    (n : Nat) (x : ast.variable_declaration) : gen.relates R (variable_declaration_ n x) := by
  intro c r c1 h
  unfold variable_declaration_ at h
  split at h
  · exact gen.relates_bind hR (relates_error_handler hR _ _)
      (fun _ => gen.relates_pure hR _) c r c1 h
  · refine gen.relates_bind hR (relates_getParent hR) (fun function => ?_) c r c1 h
    cases x.rhs with
    | none =>
      exact gen.relates_bind hR (relates_create_entry_block_alloca hR _ _)
        (fun _ => gen.relates_bind hR (relates_named_values_assign hR _ _)
          (fun _ => gen.relates_pure hR _))
    | some rhs =>
      refine gen.relates_bind hR (relates_expression hR n _) (fun v => ?_)
      cases v with
      | none => exact gen.relates_pure hR _
      | some v =>
        exact gen.relates_bind hR (relates_create_entry_block_alloca hR _ _)
          (fun _ => gen.relates_bind hR (relates_Insert hR _ (by rfl))
            (fun _ => gen.relates_bind hR (relates_named_values_assign hR _ _)
              (fun _ => gen.relates_pure hR _)))

theorem relates_get_return_alloca {A : Prop} {R : compiler → compiler → Prop}
    (hR : steps_closed A R) :
    gen.relates R get_return_alloca := by
  intro c a c1 h
  unfold get_return_alloca at h
  split at h
  · exact Result.noConfusion h
  · simp only [Result.returns.injEq] at h
    rw [← h.2]; exact hR.same c

theorem relates_get_return_block {A : Prop} {R : compiler → compiler → Prop}
    (hR : steps_closed A R) :
    gen.relates R get_return_block := by
  intro c a c1 h
  unfold get_return_block at h
  split at h
  · exact Result.noConfusion h
  · simp only [Result.returns.injEq] at h
    rw [← h.2]; exact hR.same c

theorem relates_return_statement {A : Prop} {R : compiler → compiler → Prop}
    (hR : steps_closed A R)
    (n id : Nat) (expr : Option ast.expression) :
    gen.relates R (return_statement_ n id expr) := by
  intro c r c1 h
  unfold return_statement_ at h
  split at h
  · exact gen.relates_bind hR (relates_error_handler hR _ _)
      (fun _ => gen.relates_pure hR _) c r c1 h
  · split at h
    · exact gen.relates_bind hR (relates_error_handler hR _ _)
        (fun _ => gen.relates_pure hR _) c r c1 h
    · split at h
      · refine gen.relates_bind hR (relates_expression hR n _) (fun v => ?_) c r c1 h
        cases v with
        | none => exact gen.relates_pure hR _
        | some v =>
          exact gen.relates_bind hR (relates_get_return_alloca hR)
            (fun _ => gen.relates_bind hR (relates_Insert hR _ (by rfl))
              (fun _ => gen.relates_bind hR (relates_get_return_block hR)
                (fun _ => gen.relates_bind hR (relates_Insert hR _ (by rfl))
                  (fun _ => gen.relates_pure hR _))))
      · exact gen.relates_bind hR (relates_get_return_block hR)
          (fun _ => gen.relates_bind hR (relates_Insert hR _ (by rfl))
            (fun _ => gen.relates_pure hR _)) c r c1 h


/-! ### The shape of the module -/

theorem map_parent_modify (l : List BasicBlock) (k : Nat) (g : BasicBlock → BasicBlock)
    (hg : ∀ bb, (g bb).parent = bb.parent) :
    (l.modify g k).map (fun bb => bb.parent) = l.map (fun bb => bb.parent) := by
  apply List.ext_getElem?
  intro j
  simp only [List.getElem?_map, List.getElem?_modify]
  cases l[j]? with
  | none => rfl
  | some bb =>
    simp only [Option.map_some']
    split <;> simp [hg]

theorem shape_step_closed : step_closed shape where
  same := fun _ => ⟨rfl, rfl, rfl⟩
  chain := fun _ _ _ h1 h2 =>
    ⟨h2.module_eq.trans h1.module_eq, h2.insert_block_eq.trans h1.insert_block_eq,
      h2.parents_eq.trans h1.parents_eq⟩
  insert := by
    intro i c _
    refine ⟨emitted_module c _, ?_, ?_⟩
    · unfold emitted
      split <;> rfl
    · unfold emitted
      split
      · rfl
      · exact map_parent_modify _ _ _ (fun _ => rfl)
  alloca := fun _ _ _ _ => ⟨rfl, rfl, map_parent_modify _ _ _ (fun _ => rfl)⟩
  index := fun _ _ => ⟨rfl, rfl, rfl⟩
  assign := fun _ _ _ => ⟨rfl, rfl, rfl⟩
  report := fun _ _ _ => ⟨rfl, rfl, rfl⟩

theorem shape_Insert (i : Instruction) : gen.relates shape (Insert i) := by
  intro c a c1 h
  rw [Insert_emitted, Result.returns.injEq] at h
  rw [← h.2]
  refine ⟨emitted_module c _, ?_, ?_⟩
  · unfold emitted
    split <;> rfl
  · unfold emitted
    split
    · rfl
    · exact map_parent_modify _ _ _ (fun _ => rfl)

theorem shape.parent_eq {c c1 : compiler} (h : shape c c1) (b : Nat) :
    (c1.blocks[b]?).map (fun bb => bb.parent) = (c.blocks[b]?).map (fun bb => bb.parent) := by
  have := congrArg (fun l => l[b]?) h.parents_eq
  simpa only [List.getElem?_map] using this

theorem shape.length_eq {c c1 : compiler} (h : shape c c1) :
    c1.blocks.length = c.blocks.length := by
  have := congrArg List.length h.parents_eq
  simpa only [List.length_map] using this

theorem relates_function_allocas_args {R : compiler → compiler → Prop} (hR : step_closed R)
    (function : String) (args : List ast.identifier) :
    ∀ iter, gen.relates R (function_allocas_args function args iter) := by
  induction args with
  | nil => intro iter; exact gen.relates_pure hR _
  | cons a rest ih =>
    intro iter
    rw [function_allocas_args]
    exact gen.relates_bind hR (relates_create_entry_block_alloca hR _ _)
      (fun _ => gen.relates_bind hR (relates_Insert hR _ (by rfl))
        (fun _ => gen.relates_bind hR (relates_named_values_assign hR _ _)
          (fun _ => ih _)))

theorem shape_function_allocas (x : ast.function) (function : String) :
    gen.relates shape (function_allocas x function) := by
  unfold function_allocas
  refine gen.relates_bind shape_step_closed
    (relates_function_allocas_args shape_step_closed _ _ _) (fun _ => ?_)
  intro c a c1 h
  dsimp only at h
  split at h
  · simp only [gen_bind_apply] at h
    obtain ⟨v, c2, h2, h⟩ := gen_bind_returns h
    have s2 := relates_create_entry_block_alloca shape_step_closed _ _ c v c2 h2
    simp only [Result.returns.injEq, true_and] at h
    rw [← h]
    exact ⟨s2.module_eq, s2.insert_block_eq, s2.parents_eq⟩
  · simp only [Result.returns.injEq, true_and] at h
    rw [← h]
    exact shape_step_closed.same c

theorem ConstantFolder_CreateBinOp_isConstant (opc : Opcode) (lhs rhs : Value) :
    (ConstantFolder.CreateBinOp opc lhs rhs).isConstant = true := by
  unfold ConstantFolder.CreateBinOp
  split
  · split
    · cases opc <;> first | rfl | (simp only []; repeat (first | rfl | split))
    · rfl
  · rfl

/-- C23 (counterexample): on the two constants `1` and `2` and the operator
`+`, `compile_binary_expression` emits no instruction: it returns the
constant `3` in the state it started from, and not an `add` instruction.  The
same holds for the expression `1 + 2` compiled through
`operator()(ast::expression const&)`. -/
theorem compile_binary_expression_emits_nothing_for_two_constants :
    compile_binary_expression (some (.ConstantInt 32 1)) (some (.ConstantInt 32 2)) .plus
        in_f_a_b =
      .returns (some (.ConstantInt 32 3)) in_f_a_b ∧
    compile_binary_expression (some (.ConstantInt 32 1)) (some (.ConstantInt 32 2)) .plus
        in_f_a_b ≠
      .returns (some (.BinOp .Add (.ConstantInt 32 1) (.ConstantInt 32 2)))
        (emitted in_f_a_b [.value (.BinOp .Add (.ConstantInt 32 1) (.ConstantInt 32 2))]) ∧
    expression_ 5 one_plus_two in_f_a_b = .returns (some (.ConstantInt 32 3)) in_f_a_b := by
  decide!

/-- C23 (amended): for each operator of the closed set, with the opcode the
specified table gives it, `compile_binary_expression` applied to two values
emits exactly one instruction, the one of that opcode with `lhs` and `rhs` as
operands in that order, and returns it, unless the builder has no
instruction to build: with a zero right operand of `or` or an all-ones right
operand of `and` it emits nothing and returns `lhs`, and otherwise with two
constants it emits nothing and returns the constant it folds them to; in
both cases the state is the one it started from.  For every other token it
reaches `BOOST_ASSERT(0)` with nothing emitted, whatever the operands. -/
theorem compile_binary_expression_emits_one_instruction_or_folds (op : token)
    (c : compiler) :
    (∀ opc, specified_opcode op = some opc → ∀ lhs rhs,
      (IRBuilder.returnsLHS opc rhs = false → (lhs.isConstant && rhs.isConstant) = false →
        compile_binary_expression (some lhs) (some rhs) op c =
          .returns (some (.BinOp opc lhs rhs)) (emitted c [.value (.BinOp opc lhs rhs)])) ∧
      (IRBuilder.returnsLHS opc rhs = false → (lhs.isConstant && rhs.isConstant) = true →
        compile_binary_expression (some lhs) (some rhs) op c =
          .returns (some (ConstantFolder.CreateBinOp opc lhs rhs)) c ∧
        (ConstantFolder.CreateBinOp opc lhs rhs).isConstant = true) ∧
      (IRBuilder.returnsLHS opc rhs = true →
        compile_binary_expression (some lhs) (some rhs) op c = .returns (some lhs) c ∧
        (opc = .Or ∨ opc = .And) ∧ rhs.isConstant = true)) ∧
    (specified_opcode op = none → ∀ lhs rhs,
      compile_binary_expression lhs rhs op c = .assertion_failed) := by
  constructor
  · intro opc h lhs rhs
    have hk : (ConstantFolder.CreateBinOp opc lhs rhs).isConstant = true :=
      ConstantFolder_CreateBinOp_isConstant opc lhs rhs
    have hl : IRBuilder.returnsLHS opc rhs = true →
        (opc = .Or ∨ opc = .And) ∧ rhs.isConstant = true := by
      intro hr
      unfold IRBuilder.returnsLHS at hr
      split at hr
      · exact ⟨Or.inl rfl, rfl⟩
      · exact ⟨Or.inr rfl, rfl⟩
      · exact absurd hr (by decide)
    cases op <;> simp only [specified_opcode, Option.some.injEq] at h <;>
      first
        | exact Option.noConfusion h
        | (subst h
           refine ⟨fun hs hc => ?_, fun hs hc => ⟨?_, hk⟩, fun hs => ⟨?_, hl hs⟩⟩
           · simp only [compile_binary_expression, CreateBinOp_some, hs, hc,
               Bool.false_eq_true, if_false, gen_bind_apply, gen.bind, Insert_emitted,
               gen_pure_apply]
           · simp only [compile_binary_expression, CreateBinOp_some, hs, hc,
               Bool.false_eq_true, if_false, if_true, gen_pure_apply]
           · simp only [compile_binary_expression, CreateBinOp_some, hs, if_true,
               gen_pure_apply])
  · intro h lhs rhs
    cases op <;> simp only [specified_opcode] at h <;>
      first
        | exact Option.noConfusion h
        | rfl

theorem compile_binary_expression_emits_one_instruction_or_folds_witness :
    (specified_opcode .divide = some .SDiv ∧
      compile_binary_expression (some (.Load (.Alloca "a") "a")) (some (.ConstantInt 32 2))
          .divide in_f_a_b =
        .returns (some (.BinOp .SDiv (.Load (.Alloca "a") "a") (.ConstantInt 32 2)))
          (emitted in_f_a_b
            [.value (.BinOp .SDiv (.Load (.Alloca "a") "a") (.ConstantInt 32 2))])) ∧
    (specified_opcode .times = some .Mul ∧
      compile_binary_expression (some (.ConstantInt 32 3)) (some (.ConstantInt 32 4))
          .times in_f_a_b =
        .returns (some (.ConstantInt 32 12)) in_f_a_b) ∧
    (specified_opcode .logical_or = some .Or ∧
      compile_binary_expression (some (.Load (.Alloca "a") "a")) (some (.ConstantInt 1 0))
          .logical_or in_f_a_b =
        .returns (some (.Load (.Alloca "a") "a")) in_f_a_b) ∧
    (specified_opcode .mod = none ∧
      compile_binary_expression (some (.Load (.Alloca "a") "a")) (some (.ConstantInt 32 2))
        .mod in_f_a_b = .assertion_failed) :=
  ⟨⟨rfl, ((compile_binary_expression_emits_one_instruction_or_folds .divide in_f_a_b).1
      .SDiv rfl _ _).1 rfl rfl⟩,
    ⟨rfl, (((compile_binary_expression_emits_one_instruction_or_folds .times in_f_a_b).1
      .Mul rfl (.ConstantInt 32 3) (.ConstantInt 32 4)).2.1 rfl rfl).1⟩,
    ⟨rfl, (((compile_binary_expression_emits_one_instruction_or_folds .logical_or in_f_a_b).1
      .Or rfl (.Load (.Alloca "a") "a") (.ConstantInt 1 0)).2.2 rfl).1⟩,
    ⟨rfl, (compile_binary_expression_emits_one_instruction_or_folds .mod in_f_a_b).2 rfl _ _⟩⟩

/-- C24: the table `precedence` has thirty entries; for every binary
operator the lookup of `precedence_of` is inside the table, gives the
precedence the specification lists for the class of the operator, and the
result lies between 1 and 12, so it passes the initial threshold 0. -/
theorem precedence_of_agrees_with_the_specified_table :
    precedence.length = 30 ∧
    (∀ i, i < 30 → ∃ v, precedence[i]? = some v ∧ 1 ≤ v ∧ v ≤ 12) ∧
    ∀ op : token, binary_operator op = true →
      op.index < precedence.length ∧
      precedence[op.index]? = some (precedence_of op) ∧
      precedence_of op = specified_precedence op ∧
      1 ≤ precedence_of op ∧ precedence_of op ≤ 12 ∧ precedence_of op ≥ 0 := by
  refine ⟨rfl, by decide, ?_⟩
  intro op h
  cases op <;> first | exact Bool.noConfusion h | decide

theorem precedence_of_agrees_with_the_specified_table_witness :
    binary_operator .shift_left = true ∧
      token.index .shift_left < precedence.length ∧
      precedence[token.index .shift_left]? = some (precedence_of .shift_left) ∧
      precedence_of .shift_left = specified_precedence .shift_left ∧
      1 ≤ precedence_of .shift_left ∧ precedence_of .shift_left ≤ 12 ∧
      precedence_of .shift_left ≥ 0 :=
  ⟨rfl, precedence_of_agrees_with_the_specified_table.2.2 .shift_left rfl⟩

/-! ## The symbol table of a function list (C21) -/

theorem function_list_append_of_all_succeed (n : Nat) (rest : List ast.function) :
    ∀ (pre : List ast.function) (c c1 : compiler), all_succeed n pre c c1 →
      function_list_ n (pre ++ rest) c = function_list_ n rest c1 := by
  intro pre
  induction pre with
  | nil =>
    intro c c1 h
    simp only [all_succeed] at h
    rw [h]
    rfl
  | cons f pre ih =>
    intro c c1 h
    obtain ⟨c2, h1, h2⟩ := h
    rw [List.cons_append, function_list_cons, h1]
    exact ih c2 c1 h2

/-- C21: in a function list every function is compiled on an empty symbol
table.  After the functions before it have succeeded, the run from a
function `f` on is the run of `f` on the state they left with the table
emptied, so it does not depend on the bindings they left and no name is
bound when `f` starts.  Two functions of one list may declare the same
variable; a variable declared in an earlier function, or a parameter of an
earlier function, is reported as undeclared in a later one. -/
theorem function_list_compiles_each_function_on_an_empty_table (n : Nat)
    (pre rest : List ast.function) (f : ast.function) (c c1 : compiler)
    (hpre : all_succeed n pre c c1) :
    function_list_ n (pre ++ f :: rest) c =
        (function_ n f >>= fun ok => if ok then function_list_ n rest else pure false)
          { c1 with named_values := [] } ∧
      (∀ named_values, function_list_ n (pre ++ f :: rest) c =
        function_list_ n (f :: rest) { c1 with named_values := named_values }) ∧
      (∀ name, named_values_find name { c1 with named_values := [] } = none) ∧
      (function_list_ 10 [f_declares_x, g_declares_x] compiler.init).value? = some true ∧
      (function_list_ 10 [f_declares_x, g_declares_x] compiler.init).errors = some [] ∧
      (function_list_ 10 [f_declares_x, g_uses_x] compiler.init).value? = some false ∧
      (function_list_ 10 [f_declares_x, g_uses_x] compiler.init).errors =
        some [(8, "Undeclared variable: x")] ∧
      (function_list_ 10 [f_takes_x, g_uses_x] compiler.init).value? = some false ∧
      (function_list_ 10 [f_takes_x, g_uses_x] compiler.init).errors =
        some [(8, "Undeclared variable: x")] := by
  have h0 : function_list_ n (pre ++ f :: rest) c = function_list_ n (f :: rest) c1 :=
    function_list_append_of_all_succeed n _ pre c c1 hpre
  refine ⟨?_, ?_, fun _ => rfl, by decide!, by decide!, by decide!, by decide!, by decide!,
    by decide!⟩
  · rw [h0, function_list_]
    rfl
  · intro nv
    rw [h0, function_list_cons, function_list_cons]

theorem function_list_compiles_each_function_on_an_empty_table_witness :
    function_list_ 10 ([f_declares_x] ++ g_uses_x :: [good_function]) compiler.init =
      (function_ 10 g_uses_x >>= fun ok =>
          if ok then function_list_ 10 [good_function] else pure false)
        { (function_ 10 f_declares_x compiler.init).state_or compiler.init with
          named_values := [] } :=
  (function_list_compiles_each_function_on_an_empty_table 10 [f_declares_x] [good_function]
    g_uses_x compiler.init ((function_ 10 f_declares_x compiler.init).state_or compiler.init)
    ⟨_, Result.eq_returns_of_value _ true compiler.init (by decide!), rfl⟩).1


/-! ## Statement lists (C22) -/

/-! ### Fuel of the statement layer -/

theorem expression_le_step (n : Nat) (x : ast.expression) :
    gen.le (expression_ n x) (expression_ (n + 1) x) :=
  (fuel_mono_step n).2.2.2.2.2.2 x

theorem assignment_le_step (n : Nat) (x : ast.assignment) :
    gen.le (assignment_ n x) (assignment_ (n + 1) x) := by
  unfold assignment_
  refine gen.bind_le (gen.le_refl _) (fun v => ?_)
  cases v with
  | none => exact gen.le_refl _
  | some v => exact gen.bind_le (expression_le_step n _) (fun _ => gen.le_refl _)

theorem variable_declaration_le_step (n : Nat) (x : ast.variable_declaration) :
    gen.le (variable_declaration_ n x) (variable_declaration_ (n + 1) x) := by
  intro c
  unfold variable_declaration_
  split
  · right; rfl
  · refine gen.bind_le (gen.le_refl _) (fun function => ?_) c
    cases x.rhs with
    | none => exact gen.le_refl _
    | some rhs => exact gen.bind_le (expression_le_step n _) (fun _ => gen.le_refl _)

theorem return_statement_le_step (n id : Nat) (expr : Option ast.expression) :
    gen.le (return_statement_ n id expr) (return_statement_ (n + 1) id expr) := by
  intro c
  unfold return_statement_
  split
  · right; rfl
  · split
    · right; rfl
    · cases expr with
      | none => right; rfl
      | some e => exact gen.bind_le (expression_le_step n _) (fun _ => gen.le_refl _) c

theorem statement_le_step : ∀ n : Nat,
    (∀ s, gen.le (statement_ n s) (statement_ (n + 1) s)) ∧
    (∀ l, gen.le (statement_list_ n l) (statement_list_ (n + 1) l)) ∧
    (∀ x t e, gen.le (if_statement_ n x t e) (if_statement_ (n + 1) x t e)) ∧
    (∀ x b, gen.le (while_statement_ n x b) (while_statement_ (n + 1) x b)) := by
  intro n
  induction n with
  | zero =>
    refine ⟨?_, ?_, ?_, ?_⟩ <;> intros <;>
      first
        | (rw [statement_]; exact gen.le_of_eq_out_of_fuel _)
        | (rw [statement_list_]; exact gen.le_of_eq_out_of_fuel _)
        | (rw [if_statement_]; exact gen.le_of_eq_out_of_fuel _)
        | (rw [while_statement_]; exact gen.le_of_eq_out_of_fuel _)
  | succ n ih =>
    obtain ⟨ih1, ih2, ih3, ih4⟩ := ih
    refine ⟨?_, ?_, ?_, ?_⟩
    · intro s
      cases s with
      | variable_declaration x =>
        rw [statement_, statement_]; exact variable_declaration_le_step n x
      | assignment x =>
        rw [statement_, statement_]
        exact gen.bind_le (assignment_le_step n x) (fun _ => gen.le_refl _)
      | if_statement x t e => rw [statement_, statement_]; exact ih3 x t e
      | while_statement x b => rw [statement_, statement_]; exact ih4 x b
      | return_statement id e =>
        rw [statement_, statement_]; exact return_statement_le_step n id e
      | statement_list l => rw [statement_, statement_]; exact ih2 l
    · intro l
      cases l with
      | nil => rw [statement_list_, statement_list_]; exact gen.le_refl _
      | cons s rest =>
        rw [statement_list_, statement_list_]
        refine gen.bind_le (ih1 s) (fun ok => ?_)
        cases ok with
        | true => exact ih2 rest
        | false => exact gen.le_refl _
    · intro x t e
      rw [if_statement_, if_statement_]
      refine gen.bind_le (expression_le_step n x) (fun cv => ?_)
      cases cv with
      | none => exact gen.le_refl _
      | some cv =>
        refine gen.bind_le (gen.le_refl _) (fun function => ?_)
        refine gen.bind_le (gen.le_refl _) (fun tb => ?_)
        refine gen.bind_le (gen.le_refl _) (fun p => ?_)
        obtain ⟨eb, xb⟩ := p
        refine gen.bind_le (gen.le_refl _) (fun _ => ?_)
        refine gen.bind_le (ih1 t) (fun ok => ?_)
        cases ok with
        | false => exact gen.le_refl _
        | true =>
          refine gen.bind_le (gen.le_refl _) (fun xb1 => ?_)
          cases e with
          | none => exact gen.le_refl _
          | some es =>
            cases eb with
            | none => exact gen.le_refl _
            | some eb =>
              refine gen.bind_le (gen.le_refl _) (fun _ => ?_)
              refine gen.bind_le (gen.le_refl _) (fun _ => ?_)
              refine gen.bind_le (ih1 es) (fun ok2 => ?_)
              exact gen.le_refl _
    · intro x b
      rw [while_statement_, while_statement_]
      refine gen.bind_le (gen.le_refl _) (fun function => ?_)
      refine gen.bind_le (gen.le_refl _) (fun cb => ?_)
      refine gen.bind_le (gen.le_refl _) (fun bb => ?_)
      refine gen.bind_le (gen.le_refl _) (fun xb => ?_)
      refine gen.bind_le (gen.le_refl _) (fun _ => ?_)
      refine gen.bind_le (gen.le_refl _) (fun _ => ?_)
      refine gen.bind_le (expression_le_step n x) (fun cv => ?_)
      cases cv with
      | none => exact gen.le_refl _
      | some cv =>
        refine gen.bind_le (gen.le_refl _) (fun _ => ?_)
        refine gen.bind_le (gen.le_refl _) (fun _ => ?_)
        refine gen.bind_le (gen.le_refl _) (fun _ => ?_)
        refine gen.bind_le (ih1 b) (fun ok => ?_)
        exact gen.le_refl _

theorem statement_le (s : ast.statement) {n m : Nat} (h : n ≤ m) :
    gen.le (statement_ n s) (statement_ m s) := by
  induction h with
  | refl => exact gen.le_refl _
  | step _ ih => exact gen.le_trans ih ((statement_le_step _).1 s)

theorem statement_list_le (l : List ast.statement) {n m : Nat} (h : n ≤ m) :
    gen.le (statement_list_ n l) (statement_list_ m l) := by
  induction h with
  | refl => exact gen.le_refl _
  | step _ ih => exact gen.le_trans ih ((statement_le_step _).2.1 l)


/-! ### The loop over the statements -/

theorem statements_succeed_mono {m k : Nat} (h : m ≤ k) :
    ∀ (l : List ast.statement) (c c1 : compiler), statements_succeed m l c c1 →
      statements_succeed k l c c1 := by
  intro l
  induction l with
  | nil => intro c c1 h1; exact h1
  | cons s rest ih =>
    intro c c1 h1
    obtain ⟨c2, h2, h3⟩ := h1
    exact ⟨c2, gen.le_returns (statement_le s h) h2, ih c2 c1 h3⟩

theorem statement_list_of_statements_succeed (m : Nat) :
    ∀ (l : List ast.statement) (n : Nat) (c c1 : compiler), m + l.length + 1 ≤ n →
      statements_succeed m l c c1 → statement_list_ n l c = .returns true c1 := by
  intro l
  induction l with
  | nil =>
    intro n c c1 hn h
    obtain ⟨j, rfl⟩ : ∃ j, n = j + 1 := ⟨n - 1, by simp at hn; omega⟩
    simp only [statements_succeed] at h
    rw [statement_list_, h]
    rfl
  | cons s rest ih =>
    intro n c c1 hn h
    obtain ⟨c2, h2, h3⟩ := h
    simp only [List.length_cons] at hn
    obtain ⟨j, rfl⟩ : ∃ j, n = j + 1 := ⟨n - 1, by omega⟩
    rw [statement_list_]
    simp only [gen_bind_apply, gen.bind,
      gen.le_returns (statement_le s (show m ≤ j by omega)) h2, if_true]
    exact ih j c2 c1 (by omega) h3

theorem statement_list_of_first_failure (m : Nat) (s : ast.statement)
    (post : List ast.statement) :
    ∀ (pre : List ast.statement) (n : Nat) (c c1 c2 : compiler),
      m + (pre ++ s :: post).length + 1 ≤ n → statements_succeed m pre c c1 →
      statement_ m s c1 = .returns false c2 →
      statement_list_ n (pre ++ s :: post) c = .returns false c2 := by
  intro pre
  induction pre with
  | nil =>
    intro n c c1 c2 hn h hs
    simp only [statements_succeed] at h
    subst h
    simp only [List.nil_append, List.length_cons] at hn ⊢
    obtain ⟨j, rfl⟩ : ∃ j, n = j + 1 := ⟨n - 1, by omega⟩
    rw [statement_list_]
    simp only [gen_bind_apply, gen.bind,
      gen.le_returns (statement_le s (show m ≤ j by omega)) hs, Bool.false_eq_true, if_false,
      gen_pure_apply]
  | cons p pre ih =>
    intro n c c1 c2 hn h hs
    obtain ⟨c3, h3, h4⟩ := h
    simp only [List.cons_append, List.length_cons] at hn ⊢
    obtain ⟨j, rfl⟩ : ∃ j, n = j + 1 := ⟨n - 1, by omega⟩
    rw [statement_list_]
    simp only [gen_bind_apply, gen.bind,
      gen.le_returns (statement_le p (show m ≤ j by omega)) h3, if_true]
    exact ih j c3 c1 c2 (by omega) h4 hs

theorem statement_list_returns_inv :
    ∀ (l : List ast.statement) (n : Nat) (c c1 : compiler) (ok : Bool),
      statement_list_ n l c = .returns ok c1 →
      (ok = true → statements_succeed n l c c1) ∧
      (ok = false → ∃ pre s post c2, l = pre ++ s :: post ∧ statements_succeed n pre c c2 ∧
        statement_ n s c2 = .returns false c1) := by
  intro l
  induction l with
  | nil =>
    intro n c c1 ok h
    cases n with
    | zero => rw [statement_list_] at h; exact Result.noConfusion h
    | succ j =>
      rw [statement_list_] at h
      simp only [gen_pure_apply, Result.returns.injEq] at h
      refine ⟨fun _ => h.2.symm, fun hf => ?_⟩
      rw [← h.1] at hf
      exact Bool.noConfusion hf
  | cons s rest ih =>
    intro n c c1 ok h
    cases n with
    | zero => rw [statement_list_] at h; exact Result.noConfusion h
    | succ j =>
      rw [statement_list_] at h
      simp only [gen_bind_apply] at h
      obtain ⟨ok1, c2, h1, h⟩ := gen_bind_returns h
      have h1' := gen.le_returns (statement_le s (Nat.le_succ j)) h1
      cases ok1 with
      | false =>
        simp only [Bool.false_eq_true, if_false, gen_pure_apply, Result.returns.injEq] at h
        obtain ⟨hok, hc⟩ := h
        subst hok
        subst hc
        refine ⟨fun hf => Bool.noConfusion hf, fun _ => ?_⟩
        exact ⟨[], s, rest, c, rfl, rfl, h1'⟩
      | true =>
        simp only [if_true] at h
        obtain ⟨ht, hf⟩ := ih j c2 c1 ok h
        constructor
        · intro hok
          exact ⟨c2, h1', statements_succeed_mono (Nat.le_succ j) rest c2 c1 (ht hok)⟩
        · intro hok
          obtain ⟨pre, s1, post, c3, hl, hp, hs⟩ := hf hok
          refine ⟨s :: pre, s1, post, c3, by rw [hl]; rfl, ?_, ?_⟩
          · exact ⟨c2, h1', statements_succeed_mono (Nat.le_succ j) pre c2 c3 hp⟩
          · exact gen.le_returns (statement_le s1 (Nat.le_succ j)) hs

/-- C22: `operator()(ast::statement_list)` compiles the statements in the
order of the list, each in the state the one before left.  When the
statements before some statement succeed and that statement fails, the list
returns failure in the state that statement left, whatever follows it: the
later statements are not compiled.  The list returns success exactly when
every statement succeeded, in the state the last one left, and it returns
failure only when some statement, reached after the success of all before
it, failed. -/
theorem statement_list_stops_at_first_failure (m n : Nat) (hn : m ≤ n) :
    (∀ pre s post c c1 c2, m + (pre ++ s :: post).length + 1 ≤ n →
      statements_succeed m pre c c1 → statement_ m s c1 = .returns false c2 →
      statement_list_ n (pre ++ s :: post) c = .returns false c2) ∧
    (∀ l c c1, m + l.length + 1 ≤ n → statements_succeed m l c c1 →
      statement_list_ n l c = .returns true c1) ∧
    (∀ l c c1, statement_list_ m l c = .returns true c1 → statements_succeed n l c c1) ∧
    (∀ l c c1, statement_list_ m l c = .returns false c1 →
      ∃ pre s post c2, l = pre ++ s :: post ∧ statements_succeed n pre c c2 ∧
        statement_ n s c2 = .returns false c1) := by
  refine ⟨?_, ?_, ?_, ?_⟩
  · intro pre s post c c1 c2 h1 h2 h3
    exact statement_list_of_first_failure m s post pre n c c1 c2 h1 h2 h3
  · intro l c c1 h1 h2
    exact statement_list_of_statements_succeed m l n c c1 h1 h2
  · intro l c c1 h
    exact statements_succeed_mono hn l c c1 ((statement_list_returns_inv l m c c1 true h).1 rfl)
  · intro l c c1 h
    obtain ⟨pre, s, post, c2, hl, hp, hs⟩ := (statement_list_returns_inv l m c c1 false h).2 rfl
    exact ⟨pre, s, post, c2, hl, statements_succeed_mono hn pre c c2 hp,
      gen.le_returns (statement_le s hn) hs⟩


theorem statement_list_stops_at_first_failure_witness :
    statement_list_ 7
        ([assign_a_1] ++ .return_statement 9 none ::
          [.assignment ⟨⟨5, "u"⟩, literal_expression (.uint 1)⟩]) in_f_a_b =
      .returns false
        (reported (emitted in_f_a_b [.Store (.ConstantInt 32 1) (.Alloca "a")]) 9
          "f function must return a value: ") ∧
    statement_list_ 7 [assign_a_1, return_1] in_f_a_b =
      .returns true
        (emitted
          (emitted (emitted in_f_a_b [.Store (.ConstantInt 32 1) (.Alloca "a")])
            [.Store (.ConstantInt 32 1) (.Alloca "return.val")])
          [.Br 1]) :=
  ⟨(statement_list_stops_at_first_failure 3 7 (by decide)).1 [assign_a_1]
      (.return_statement 9 none) [.assignment ⟨⟨5, "u"⟩, literal_expression (.uint 1)⟩]
      in_f_a_b (emitted in_f_a_b [.Store (.ConstantInt 32 1) (.Alloca "a")]) _ (by decide)
      ⟨_, by decide!, rfl⟩ (by decide!),
    (statement_list_stops_at_first_failure 3 7 (by decide)).2.1 [assign_a_1, return_1]
      in_f_a_b _ (by decide)
      ⟨emitted in_f_a_b [.Store (.ConstantInt 32 1) (.Alloca "a")], by decide!,
        ⟨_, by decide!, rfl⟩⟩⟩


/-! ## The insertion point at the end of the function (C27) -/

theorem prolongs.prolongs_refl (c : compiler) : prolongs c c :=
  ⟨rfl, rfl, le_refl _, fun _ bb h => ⟨bb, h, rfl⟩⟩

theorem prolongs.prolongs_trans {c c1 c2 : compiler} (h1 : prolongs c c1)
    (h2 : prolongs c1 c2) : prolongs c c2 :=
  ⟨h2.module_eq.trans h1.module_eq, h2.insert_block_eq.trans h1.insert_block_eq,
    le_trans h1.length_le h2.length_le, fun k bb h => by
      obtain ⟨bb1, hb1, hp1⟩ := h1.parent_eq k bb h
      obtain ⟨bb2, hb2, hp2⟩ := h2.parent_eq k bb1 hb1
      exact ⟨bb2, hb2, hp2.trans hp1⟩⟩

theorem prolongs_of_shape {c c1 : compiler} (h : shape c c1) : prolongs c c1 :=
  ⟨h.module_eq, h.insert_block_eq, le_of_eq h.length_eq.symm, fun k bb hk => by
    have h1 := h.parent_eq k
    rw [hk] at h1
    cases h2 : c1.blocks[k]? with
    | none => rw [h2] at h1; simp at h1
    | some bb1 =>
      rw [h2] at h1
      simp only [Option.map_some', Option.some.injEq] at h1
      exact ⟨bb1, rfl, h1⟩⟩

theorem prolongs_Insert {i : Instruction} {c c1 : compiler} (h : Insert i c = .returns () c1) :
    prolongs c c1 :=
  prolongs_of_shape (shape_Insert i c () c1 h)

theorem prolongs_BasicBlock_Create {name : String} {c c1 : compiler} {b : Nat}
    (h : BasicBlock_Create name c = .returns b c1) :
    prolongs c c1 ∧ b = c.blocks.length ∧ b < c1.blocks.length := by
  simp only [BasicBlock_Create, Result.returns.injEq] at h
  obtain ⟨hb, hc⟩ := h
  subst hc
  subst hb
  refine ⟨⟨rfl, rfl, by simp, ?_⟩, rfl, by simp⟩
  intro k bb hk
  refine ⟨bb, ?_, rfl⟩
  have hlt : k < c.blocks.length := (List.getElem?_eq_some.1 hk).1
  simp only [List.getElem?_append_left hlt]
  exact hk

theorem last_block_of_prolongs {f : String} {b : Nat} {c c1 : compiler} (h : prolongs c c1)
    (hl : last_block_of f b c) : last_block_of f b c1 := by
  obtain ⟨bb, hb, hp, hlast⟩ := hl
  obtain ⟨bb1, hb1, hp1⟩ := h.parent_eq b bb hb
  refine ⟨bb1, hb1, hp1.trans hp, ?_⟩
  simp only [block_list, getFunction, h.module_eq] at hlast ⊢
  exact hlast

theorem at_end_of_prolongs {f : String} {c c1 : compiler} (h : prolongs c c1)
    (ha : at_end f c) : at_end f c1 := by
  obtain ⟨b, hi, hl⟩ := ha
  exact ⟨b, h.insert_block_eq.trans hi, last_block_of_prolongs h hl⟩

theorem at_end_getParent {f : String} {c c1 : compiler} {fn : Option String}
    (ha : at_end f c) (h : getParent c = .returns fn c1) : fn = some f := by
  obtain ⟨b, hi, bb, hb, hp, _⟩ := ha
  simp only [getParent, hi, hb, Result.returns.injEq] at h
  rw [← h.1, hp]

theorem last_block_of_push_back {f : String} {b : Nat} {c c1 : compiler}
    (hb : b < c.blocks.length) (h : push_back (some f) b c = .returns () c1) :
    last_block_of f b c1 := by
  have hl := (push_back_eq h).1
  unfold push_back at h
  simp only at h
  split at h
  · exact Result.noConfusion h
  · simp only [Result.returns.injEq, true_and] at h
    subst h
    refine ⟨{ c.blocks[b] with parent := some f }, ?_, rfl, ?_⟩
    · simp only [List.getElem?_modify, List.getElem?_eq_getElem hb, Option.map_eq_map,
        Option.map_some', if_true]
    · rw [hl]
      simp

theorem at_end_SetInsertPoint {f : String} {b : Nat} {c c1 : compiler}
    (hl : last_block_of f b c) (h : SetInsertPoint b c = .returns () c1) : at_end f c1 := by
  simp only [SetInsertPoint, Result.returns.injEq, true_and] at h
  subst h
  exact ⟨b, rfl, hl⟩

theorem last_block_of_BasicBlock_Create_in {name f : String} {c c1 : compiler} {b : Nat}
    (h : BasicBlock_Create_in name (some f) c = .returns b c1) :
    last_block_of f b c1 ∧ c.blocks.length ≤ c1.blocks.length := by
  unfold BasicBlock_Create_in at h
  simp only [gen_bind_apply] at h
  obtain ⟨b1, c2, h1, h⟩ := gen_bind_returns h
  obtain ⟨p2, _, hlt⟩ := prolongs_BasicBlock_Create h1
  simp only [gen_bind_apply] at h
  obtain ⟨u, c3, h3, h⟩ := gen_bind_returns h
  simp only [gen_pure_apply, Result.returns.injEq] at h
  rw [← h.1, ← h.2]
  refine ⟨last_block_of_push_back hlt h3, ?_⟩
  rw [(push_back_eq h3).2.2.1]
  exact p2.length_le


theorem prolongs_if_statement_branch {condition : Value} {then_block : Nat} {has_else : Bool}
    {c c1 : compiler} {eb xb : Option Nat}
    (h : if_statement_branch condition then_block has_else c = .returns (eb, xb) c1) :
    prolongs c c1 ∧ (∀ y ∈ eb, y < c1.blocks.length) ∧ (∀ y ∈ xb, y < c1.blocks.length) := by
  unfold if_statement_branch at h
  cases has_else with
  | true =>
    simp only [if_true, gen_bind_apply] at h
    obtain ⟨b, c2, h2, h⟩ := gen_bind_returns h
    obtain ⟨p2, _, hb⟩ := prolongs_BasicBlock_Create h2
    obtain ⟨u, c3, h3, h⟩ := gen_bind_returns h
    have p3 := prolongs_Insert h3
    simp only [gen_pure_apply, Result.returns.injEq, Prod.mk.injEq] at h
    obtain ⟨⟨h4, h5⟩, h6⟩ := h
    subst h4 h5 h6
    refine ⟨p2.prolongs_trans p3, ?_, ?_⟩
    · intro y hy
      simp only [Option.mem_def, Option.some.injEq] at hy
      have := p3.length_le
      omega
    · intro y hy
      simp at hy
  | false =>
    simp only [Bool.false_eq_true, if_false, gen_bind_apply] at h
    obtain ⟨b, c2, h2, h⟩ := gen_bind_returns h
    obtain ⟨p2, _, hb⟩ := prolongs_BasicBlock_Create h2
    obtain ⟨u, c3, h3, h⟩ := gen_bind_returns h
    have p3 := prolongs_Insert h3
    simp only [gen_pure_apply, Result.returns.injEq, Prod.mk.injEq] at h
    obtain ⟨⟨h4, h5⟩, h6⟩ := h
    subst h4 h5 h6
    refine ⟨p2.prolongs_trans p3, ?_, ?_⟩
    · intro y hy
      simp at hy
    · intro y hy
      simp only [Option.mem_def, Option.some.injEq] at hy
      have := p3.length_le
      omega

theorem prolongs_if_statement_fall_through {c c1 : compiler} {block : Nat}
    {xb xb1 : Option Nat} (hxb : ∀ y ∈ xb, y < c.blocks.length)
    (h : if_statement_fall_through block xb c = .returns xb1 c1) :
    prolongs c c1 ∧ (∀ y ∈ xb1, y < c1.blocks.length) := by
  unfold if_statement_fall_through at h
  simp only [gen_bind_apply] at h
  obtain ⟨t, c2, h2, h⟩ := gen_bind_returns h
  rw [(getTerminator_returns h2).1] at h
  cases t with
  | some t =>
    simp only [gen_pure_apply, Result.returns.injEq] at h
    rw [← h.1, ← h.2]
    exact ⟨prolongs.prolongs_refl c, hxb⟩
  | none =>
    cases xb with
    | none =>
      simp only [gen_bind_apply] at h
      obtain ⟨b, c3, h3, h⟩ := gen_bind_returns h
      obtain ⟨p3, _, hb⟩ := prolongs_BasicBlock_Create h3
      obtain ⟨u, c4, h4, h⟩ := gen_bind_returns h
      have p4 := prolongs_Insert h4
      simp only [gen_pure_apply, Result.returns.injEq] at h
      rw [← h.1, ← h.2]
      refine ⟨p3.prolongs_trans p4, ?_⟩
      intro y hy
      simp only [Option.mem_def, Option.some.injEq] at hy
      have := p4.length_le
      omega
    | some xb =>
      simp only [gen_bind_apply] at h
      obtain ⟨u, c4, h4, h⟩ := gen_bind_returns h
      have p4 := prolongs_Insert h4
      simp only [gen_pure_apply, Result.returns.injEq] at h
      rw [← h.1, ← h.2]
      refine ⟨p4, ?_⟩
      intro y hy
      have := hxb y hy
      have := p4.length_le
      omega

theorem at_end_if_statement_exit {f : String} {c c1 : compiler} {xb : Option Nat} {r : Bool}
    (ha : at_end f c) (hxb : ∀ y ∈ xb, y < c.blocks.length)
    (h : if_statement_exit (some f) xb c = .returns r c1) : at_end f c1 := by
  unfold if_statement_exit at h
  cases xb with
  | none =>
    simp only [gen_pure_apply, Result.returns.injEq] at h
    rw [← h.2]
    exact ha
  | some xb =>
    simp only [gen_bind_apply] at h
    obtain ⟨u, c2, h2, h⟩ := gen_bind_returns h
    obtain ⟨u3, c3, h3, h⟩ := gen_bind_returns h
    simp only [gen_pure_apply, Result.returns.injEq] at h
    rw [← h.2]
    exact at_end_SetInsertPoint (last_block_of_push_back (hxb xb rfl) h2) h3

theorem statement_layer_at_end (f : String) : ∀ n : Nat,
    (∀ s c c1, at_end f c → statement_ n s c = .returns true c1 → at_end f c1) ∧
    (∀ l c c1, at_end f c → statement_list_ n l c = .returns true c1 → at_end f c1) ∧
    (∀ x t e c c1, at_end f c → if_statement_ n x t e c = .returns true c1 → at_end f c1) ∧
    (∀ x b c c1, at_end f c → while_statement_ n x b c = .returns true c1 → at_end f c1) := by
  intro n
  induction n with
  | zero =>
    refine ⟨?_, ?_, ?_, ?_⟩ <;> intros <;> rename_i h <;>
      first
        | (rw [statement_] at h; exact Result.noConfusion h)
        | (rw [statement_list_] at h; exact Result.noConfusion h)
        | (rw [if_statement_] at h; exact Result.noConfusion h)
        | (rw [while_statement_] at h; exact Result.noConfusion h)
  | succ n ih =>
    obtain ⟨ih1, ih2, ih3, ih4⟩ := ih
    refine ⟨?_, ?_, ?_, ?_⟩
    · intro s c c1 ha h
      cases s with
      | variable_declaration x =>
        rw [statement_] at h
        exact at_end_of_prolongs
          (prolongs_of_shape (relates_variable_declaration shape_step_closed n x c _ c1 h)) ha
      | assignment x =>
        rw [statement_] at h
        simp only [gen_bind_apply] at h
        obtain ⟨v, c2, h2, h⟩ := gen_bind_returns h
        simp only [gen_pure_apply, Result.returns.injEq] at h
        rw [← h.2]
        exact at_end_of_prolongs
          (prolongs_of_shape (relates_assignment shape_step_closed n x c _ c2 h2)) ha
      | if_statement x t e => rw [statement_] at h; exact ih3 x t e c c1 ha h
      | while_statement x b => rw [statement_] at h; exact ih4 x b c c1 ha h
      | return_statement id e =>
        rw [statement_] at h
        exact at_end_of_prolongs
          (prolongs_of_shape (relates_return_statement shape_step_closed n id e c _ c1 h)) ha
      | statement_list l => rw [statement_] at h; exact ih2 l c c1 ha h
    · intro l c c1 ha h
      cases l with
      | nil =>
        rw [statement_list_] at h
        simp only [gen_pure_apply, Result.returns.injEq] at h
        rw [← h.2]; exact ha
      | cons s rest =>
        rw [statement_list_] at h
        simp only [gen_bind_apply] at h
        obtain ⟨ok, c2, h2, h⟩ := gen_bind_returns h
        cases ok with
        | false => simp at h
        | true =>
          simp only [if_true] at h
          exact ih2 rest c2 c1 (ih1 s c c2 ha h2) h
    · intro x t e c0 c9 a0 h
      rw [if_statement_] at h
      simp only [gen_bind_apply] at h
      obtain ⟨cv, c1, h1, h⟩ := gen_bind_returns h
      have a1 : at_end f c1 := at_end_of_prolongs
        (prolongs_of_shape (relates_expression shape_step_closed n x c0 cv c1 h1)) a0
      cases cv with
      | none => simp at h
      | some cv =>
        simp only [gen_bind_apply] at h
        obtain ⟨fn, c2, h2, h⟩ := gen_bind_returns h
        have hfn := at_end_getParent a1 h2
        subst hfn
        rw [getParent_returns h2] at h
        simp only [gen_bind_apply] at h
        obtain ⟨tb, c3, h3, h⟩ := gen_bind_returns h
        obtain ⟨l3, _⟩ := last_block_of_BasicBlock_Create_in h3
        simp only [gen_bind_apply] at h
        obtain ⟨⟨eb, xb⟩, c4, h4, h⟩ := gen_bind_returns h
        obtain ⟨p4, heb, hxb⟩ := prolongs_if_statement_branch h4
        simp only [gen_bind_apply] at h
        obtain ⟨u, c5, h5, h⟩ := gen_bind_returns h
        have a5 : at_end f c5 := at_end_SetInsertPoint (last_block_of_prolongs p4 l3) h5
        have e5 : c5.blocks.length = c4.blocks.length := by
          rw [SetInsertPoint_eq h5]
        simp only [gen_bind_apply] at h
        obtain ⟨ok, c6, h6, h⟩ := gen_bind_returns h
        have f6 := (statement_layer_framed n).1 t c5 ok c6 h6
        cases ok with
        | false => simp at h
        | true =>
          have a6 := ih1 t c5 c6 a5 h6
          simp only [if_true, gen_bind_apply] at h
          obtain ⟨xb1, c7, h7, h⟩ := gen_bind_returns h
          obtain ⟨p7, hxb1⟩ := prolongs_if_statement_fall_through
            (fun y hy => by have := hxb y hy; have := f6.length_le; omega) h7
          have a7 := at_end_of_prolongs p7 a6
          cases e with
          | none => exact at_end_if_statement_exit a7 hxb1 h
          | some es =>
            cases eb with
            | none => exact Result.noConfusion h
            | some eb =>
              simp only [gen_bind_apply] at h
              obtain ⟨u8, c8, h8, h⟩ := gen_bind_returns h
              have heb7 : eb < c7.blocks.length := by
                have := heb eb rfl
                have := f6.length_le
                have := p7.length_le
                omega
              have l8 := last_block_of_push_back heb7 h8
              simp only [gen_bind_apply] at h
              obtain ⟨u9, c10, h10, h⟩ := gen_bind_returns h
              have a10 := at_end_SetInsertPoint l8 h10
              have e10 : c10.blocks.length = c7.blocks.length := by
                rw [SetInsertPoint_eq h10]
                exact (push_back_eq h8).2.2.1
              simp only [gen_bind_apply] at h
              obtain ⟨ok2, c11, h11, h⟩ := gen_bind_returns h
              have f11 := (statement_layer_framed n).1 es c10 ok2 c11 h11
              cases ok2 with
              | false => simp at h
              | true =>
                have a11 := ih1 es c10 c11 a10 h11
                simp only [if_true, gen_bind_apply] at h
                obtain ⟨xb2, c12, h12, h⟩ := gen_bind_returns h
                obtain ⟨p12, hxb2⟩ := prolongs_if_statement_fall_through
                  (fun y hy => by have := hxb1 y hy; have := f11.length_le; omega) h12
                exact at_end_if_statement_exit (at_end_of_prolongs p12 a11) hxb2 h
    · intro x b c0 c9 a0 h
      rw [while_statement_] at h
      simp only [gen_bind_apply] at h
      obtain ⟨fn, c1, h1, h⟩ := gen_bind_returns h
      have hfn := at_end_getParent a0 h1
      subst hfn
      rw [getParent_returns h1] at h
      simp only [gen_bind_apply] at h
      obtain ⟨cb, c2, h2, h⟩ := gen_bind_returns h
      obtain ⟨l2, _⟩ := last_block_of_BasicBlock_Create_in h2
      simp only [gen_bind_apply] at h
      obtain ⟨bb, c3, h3, h⟩ := gen_bind_returns h
      obtain ⟨p3, _, hbb⟩ := prolongs_BasicBlock_Create h3
      simp only [gen_bind_apply] at h
      obtain ⟨xb, c4, h4, h⟩ := gen_bind_returns h
      obtain ⟨p4, _, hxb⟩ := prolongs_BasicBlock_Create h4
      simp only [gen_bind_apply] at h
      obtain ⟨u5, c5, h5, h⟩ := gen_bind_returns h
      have p5 := prolongs_Insert h5
      simp only [gen_bind_apply] at h
      obtain ⟨u6, c6, h6, h⟩ := gen_bind_returns h
      have e6 : c6.blocks.length = c5.blocks.length := by rw [SetInsertPoint_eq h6]
      simp only [gen_bind_apply] at h
      obtain ⟨cv, c7, h7, h⟩ := gen_bind_returns h
      have p7 := prolongs_of_shape (relates_expression shape_step_closed n x c6 cv c7 h7)
      cases cv with
      | none => simp at h
      | some cv =>
        simp only [gen_bind_apply] at h
        obtain ⟨u8, c8, h8, h⟩ := gen_bind_returns h
        have p8 := prolongs_Insert h8
        have hbb8 : bb < c8.blocks.length := by
          have := p4.length_le
          have := p5.length_le
          have := p7.length_le
          have := p8.length_le
          omega
        have hxb8 : xb < c8.blocks.length := by
          have := p5.length_le
          have := p7.length_le
          have := p8.length_le
          omega
        simp only [gen_bind_apply] at h
        obtain ⟨u10, c10, h10, h⟩ := gen_bind_returns h
        have l10 := last_block_of_push_back hbb8 h10
        simp only [gen_bind_apply] at h
        obtain ⟨u11, c11, h11, h⟩ := gen_bind_returns h
        have a11 := at_end_SetInsertPoint l10 h11
        have e11 : c11.blocks.length = c8.blocks.length := by
          rw [SetInsertPoint_eq h11]
          exact (push_back_eq h10).2.2.1
        simp only [gen_bind_apply] at h
        obtain ⟨ok, c12, h12, h⟩ := gen_bind_returns h
        have f12 := (statement_layer_framed n).1 b c11 ok c12 h12
        cases ok with
        | false => simp at h
        | true =>
          simp only [if_true, gen_bind_apply] at h
          obtain ⟨t, c13, h13, h⟩ := gen_bind_returns h
          rw [(getTerminator_returns h13).1] at h
          simp only [gen_bind_apply] at h
          obtain ⟨u14, c14, h14, h⟩ := gen_bind_returns h
          have e14 : c12.blocks.length ≤ c14.blocks.length := by
            cases t with
            | none => exact (prolongs_Insert h14).length_le
            | some t =>
              simp only [gen_pure_apply, Result.returns.injEq] at h14
              rw [← h14.2]
          simp only [gen_bind_apply] at h
          obtain ⟨u15, c15, h15, h⟩ := gen_bind_returns h
          have l15 := last_block_of_push_back
            (by have := f12.length_le; omega : xb < c14.blocks.length) h15
          simp only [gen_bind_apply] at h
          obtain ⟨u16, c16, h16, h⟩ := gen_bind_returns h
          simp only [gen_pure_apply, Result.returns.injEq] at h
          rw [← h.2]
          exact at_end_SetInsertPoint l15 h16


theorem back_of_last_block_of {f : String} {b : Nat} {c : compiler}
    (h : last_block_of f b c) : back f c = .returns b c := by
  obtain ⟨_, _, _, hl⟩ := h
  unfold block_list at hl
  unfold back
  cases hg : getFunction f c with
  | none => rw [hg] at hl; simp at hl
  | some fn =>
    rw [hg] at hl
    simp only at hl ⊢
    rw [hl]

theorem at_end_function_prologue {x : ast.function} {f : String} {c c1 : compiler}
    (h : function_prologue x f c = .returns () c1) : at_end f c1 := by
  unfold function_prologue at h
  simp only [gen_bind_apply] at h
  obtain ⟨block, c2, h2, h⟩ := gen_bind_returns h
  obtain ⟨l2, _⟩ := last_block_of_BasicBlock_Create_in h2
  obtain ⟨u3, c3, h3, h⟩ := gen_bind_returns h
  have a3 := at_end_SetInsertPoint l2 h3
  obtain ⟨u4, c4, h4, h⟩ := gen_bind_returns h
  have a4 := at_end_of_prolongs (prolongs_of_shape (shape_function_allocas x f c3 u4 c4 h4)) a3
  obtain ⟨rb, c5, h5, h⟩ := gen_bind_returns h
  have a5 := at_end_of_prolongs (prolongs_BasicBlock_Create h5).1 a4
  rw [set_return_block_eq h]
  obtain ⟨b, hi, bb, hb, hp, hl⟩ := a5
  exact ⟨b, hi, bb, hb, hp, hl⟩

/-- C27: when the builder inserts into the last block of the block list of
a function and a statement of any form compiles successfully, the builder
again inserts into the last block of that function's block list.  The state
in which the body of a function is begun is such a state, so after a body
that compiled successfully the block `operator()(ast::function)` takes as
`last_block` is the insertion block the body left. -/
theorem statement_leaves_the_insertion_point_at_the_end (n : Nat) (f : String) :
    (∀ s c c1, at_end f c → statement_ n s c = .returns true c1 → at_end f c1) ∧
    (∀ x c cp body c1, function_prologue x f c = .returns () cp →
      statement_list_ n body cp = .returns true c1 →
      ∃ b, c1.insert_block = some b ∧ back f c1 = .returns b c1) := by
  refine ⟨(statement_layer_at_end f n).1, ?_⟩
  intro x c cp body c1 hp hs
  obtain ⟨b, hi, hl⟩ :=
    (statement_layer_at_end f n).2.1 body cp c1 (at_end_function_prologue hp) hs
  exact ⟨b, hi, back_of_last_block_of hl⟩

theorem statement_leaves_the_insertion_point_at_the_end_witness :
    at_end "f" in_f_a_b ∧
      at_end "f" ((statement_ 10 while_a_if_b in_f_a_b).state_or in_f_a_b) :=
  ⟨⟨0, rfl, _, rfl, rfl, rfl⟩,
    (statement_leaves_the_insertion_point_at_the_end 10 "f").1 while_a_if_b in_f_a_b _
      ⟨0, rfl, _, rfl, rfl, rfl⟩
      (Result.eq_returns_of_value _ true in_f_a_b (by decide!))⟩


/-! ## Allocas at the head of the entry block (C26) -/

/-! ### Relations kept by the statement layer -/

theorem relates_BasicBlock_Create {R : compiler → compiler → Prop} (hR : block_closed R)
    (name : String) : gen.relates R (BasicBlock_Create name) := by
  intro c a c1 h
  simp only [BasicBlock_Create, Result.returns.injEq] at h
  rw [← h.2]
  exact hR.create name c

theorem relates_push_back {R : compiler → compiler → Prop} (hR : block_closed R)
    (function : Option String) (block : Nat) : gen.relates R (push_back function block) := by
  intro c a c1 h
  unfold push_back at h
  split at h
  · exact Result.noConfusion h
  · split at h
    · exact Result.noConfusion h
    · simp only [Result.returns.injEq, true_and] at h
      rw [← h]
      exact hR.push _ block c

theorem relates_SetInsertPoint {R : compiler → compiler → Prop} (hR : block_closed R)
    (block : Nat) : gen.relates R (SetInsertPoint block) := by
  intro c a c1 h
  simp only [SetInsertPoint, Result.returns.injEq, true_and] at h
  rw [← h]
  exact hR.set_insert block c

theorem relates_BasicBlock_Create_in {R : compiler → compiler → Prop} (hR : block_closed R)
    (name : String) (function : Option String) :
    gen.relates R (BasicBlock_Create_in name function) := by
  unfold BasicBlock_Create_in
  refine gen.relates_bind hR.tosteps_closed (relates_BasicBlock_Create hR name) (fun b => ?_)
  cases function with
  | none => exact gen.relates_pure hR.tosteps_closed _
  | some f =>
    exact gen.relates_bind hR.tosteps_closed (relates_push_back hR _ _)
      (fun _ => gen.relates_pure hR.tosteps_closed _)

theorem relates_getTerminator {R : compiler → compiler → Prop} (hR : step_closed R)
    (block : Nat) : gen.relates R (getTerminator block) := by
  intro c a c1 h
  rw [(getTerminator_returns h).1]
  exact hR.same c

theorem relates_if_statement_branch {R : compiler → compiler → Prop} (hR : block_closed R)
    (condition : Value) (then_block : Nat) (has_else : Bool) :
    gen.relates R (if_statement_branch condition then_block has_else) := by
  unfold if_statement_branch
  cases has_else with
  | true =>
    exact gen.relates_bind hR.tosteps_closed (relates_BasicBlock_Create hR _)
      (fun _ => gen.relates_bind hR.tosteps_closed (relates_Insert hR.tosteps_closed _ (by rfl))
        (fun _ => gen.relates_pure hR.tosteps_closed _))
  | false =>
    exact gen.relates_bind hR.tosteps_closed (relates_BasicBlock_Create hR _)
      (fun _ => gen.relates_bind hR.tosteps_closed (relates_Insert hR.tosteps_closed _ (by rfl))
        (fun _ => gen.relates_pure hR.tosteps_closed _))

theorem relates_if_statement_fall_through {R : compiler → compiler → Prop}
    (hR : block_closed R) (block : Nat) (exit_block : Option Nat) :
    gen.relates R (if_statement_fall_through block exit_block) := by
  unfold if_statement_fall_through
  refine gen.relates_bind hR.tosteps_closed (relates_getTerminator hR.tosteps_closed _)
    (fun t => ?_)
  cases t with
  | some t => exact gen.relates_pure hR.tosteps_closed _
  | none =>
    cases exit_block with
    | none =>
      exact gen.relates_bind hR.tosteps_closed (relates_BasicBlock_Create hR _)
        (fun _ => gen.relates_bind hR.tosteps_closed
          (relates_Insert hR.tosteps_closed _ (by rfl))
          (fun _ => gen.relates_pure hR.tosteps_closed _))
    | some xb =>
      exact gen.relates_bind hR.tosteps_closed (relates_Insert hR.tosteps_closed _ (by rfl))
        (fun _ => gen.relates_pure hR.tosteps_closed _)

theorem relates_if_statement_exit {R : compiler → compiler → Prop} (hR : block_closed R)
    (function : Option String) (exit_block : Option Nat) :
    gen.relates R (if_statement_exit function exit_block) := by
  unfold if_statement_exit
  cases exit_block with
  | none => exact gen.relates_pure hR.tosteps_closed _
  | some xb =>
    exact gen.relates_bind hR.tosteps_closed (relates_push_back hR _ _)
      (fun _ => gen.relates_bind hR.tosteps_closed (relates_SetInsertPoint hR _)
        (fun _ => gen.relates_pure hR.tosteps_closed _))


theorem statement_layer_relates {R : compiler → compiler → Prop} (hR : block_closed R) :
    ∀ n : Nat,
    (∀ s, gen.relates R (statement_ n s)) ∧
    (∀ l, gen.relates R (statement_list_ n l)) ∧
    (∀ x t e, gen.relates R (if_statement_ n x t e)) ∧
    (∀ x b, gen.relates R (while_statement_ n x b)) := by
  have hS := hR.tosteps_closed
  intro n
  induction n with
  | zero =>
    refine ⟨?_, ?_, ?_, ?_⟩ <;> intros <;>
      first
        | (rw [statement_]; exact relates_out_of_fuel)
        | (rw [statement_list_]; exact relates_out_of_fuel)
        | (rw [if_statement_]; exact relates_out_of_fuel)
        | (rw [while_statement_]; exact relates_out_of_fuel)
  | succ n ih =>
    obtain ⟨ih1, ih2, ih3, ih4⟩ := ih
    refine ⟨?_, ?_, ?_, ?_⟩
    · intro s
      cases s with
      | variable_declaration x => rw [statement_]; exact relates_variable_declaration hS n x
      | assignment x =>
        rw [statement_]
        exact gen.relates_bind hS (relates_assignment hS n x) (fun _ => gen.relates_pure hS _)
      | if_statement x t e => rw [statement_]; exact ih3 x t e
      | while_statement x b => rw [statement_]; exact ih4 x b
      | return_statement id e => rw [statement_]; exact relates_return_statement hS n id e
      | statement_list l => rw [statement_]; exact ih2 l
    · intro l
      cases l with
      | nil => rw [statement_list_]; exact gen.relates_pure hS _
      | cons s rest =>
        rw [statement_list_]
        refine gen.relates_bind hS (ih1 s) (fun ok => ?_)
        cases ok with
        | true => exact ih2 rest
        | false => exact gen.relates_pure hS _
    · intro x t e
      rw [if_statement_]
      refine gen.relates_bind hS (relates_expression hS n x) (fun cv => ?_)
      cases cv with
      | none => exact gen.relates_pure hS _
      | some cv =>
        refine gen.relates_bind hS (relates_getParent hS) (fun function => ?_)
        refine gen.relates_bind hS (relates_BasicBlock_Create_in hR _ _) (fun tb => ?_)
        refine gen.relates_bind hS (relates_if_statement_branch hR _ _ _) (fun p => ?_)
        obtain ⟨eb, xb⟩ := p
        refine gen.relates_bind hS (relates_SetInsertPoint hR _) (fun _ => ?_)
        refine gen.relates_bind hS (ih1 t) (fun ok => ?_)
        cases ok with
        | false => exact gen.relates_pure hS _
        | true =>
          refine gen.relates_bind hS (relates_if_statement_fall_through hR _ _) (fun xb1 => ?_)
          cases e with
          | none => exact relates_if_statement_exit hR _ _
          | some es =>
            cases eb with
            | none => exact relates_null_dereference
            | some eb =>
              refine gen.relates_bind hS (relates_push_back hR _ _) (fun _ => ?_)
              refine gen.relates_bind hS (relates_SetInsertPoint hR _) (fun _ => ?_)
              refine gen.relates_bind hS (ih1 es) (fun ok2 => ?_)
              cases ok2 with
              | false => exact gen.relates_pure hS _
              | true =>
                exact gen.relates_bind hS (relates_if_statement_fall_through hR _ _)
                  (fun _ => relates_if_statement_exit hR _ _)
    · intro x b
      rw [while_statement_]
      refine gen.relates_bind hS (relates_getParent hS) (fun function => ?_)
      refine gen.relates_bind hS (relates_BasicBlock_Create_in hR _ _) (fun cb => ?_)
      refine gen.relates_bind hS (relates_BasicBlock_Create hR _) (fun bb => ?_)
      refine gen.relates_bind hS (relates_BasicBlock_Create hR _) (fun xb => ?_)
      refine gen.relates_bind hS (relates_Insert hS _ (by rfl)) (fun _ => ?_)
      refine gen.relates_bind hS (relates_SetInsertPoint hR _) (fun _ => ?_)
      refine gen.relates_bind hS (relates_expression hS n x) (fun cv => ?_)
      cases cv with
      | none => exact gen.relates_pure hS _
      | some cv =>
        refine gen.relates_bind hS (relates_Insert hS _ (by rfl)) (fun _ => ?_)
        refine gen.relates_bind hS (relates_push_back hR _ _) (fun _ => ?_)
        refine gen.relates_bind hS (relates_SetInsertPoint hR _) (fun _ => ?_)
        refine gen.relates_bind hS (ih1 b) (fun ok => ?_)
        cases ok with
        | false => exact gen.relates_pure hS _
        | true =>
          refine gen.relates_bind hS (relates_getTerminator hS _) (fun t => ?_)
          refine gen.relates_bind hS ?_ (fun _ => ?_)
          · cases t with
            | none => exact relates_Insert hS _ (by rfl)
            | some t => exact gen.relates_pure hS _
          · exact gen.relates_bind hS (relates_push_back hR _ _)
              (fun _ => gen.relates_bind hS (relates_SetInsertPoint hR _)
                (fun _ => gen.relates_pure hS _))

theorem relates_statement_list {R : compiler → compiler → Prop} (hR : block_closed R)
    (n : Nat) (l : List ast.statement) : gen.relates R (statement_list_ n l) :=
  (statement_layer_relates hR n).2.1 l


/-! ### Allocas stay first -/

theorem allocas_first_cons {i : Instruction} (l : List Instruction) (hi : i.isAlloca = true) :
    allocas_first (i :: l) = allocas_first l := by
  simp [allocas_first, List.dropWhile_cons, hi]

theorem allocas_first_append {i : Instruction} (hi : i.isAlloca = false) :
    ∀ l : List Instruction, allocas_first l = true → allocas_first (l ++ [i]) = true := by
  intro l
  induction l with
  | nil =>
    intro _
    simp [allocas_first, List.dropWhile_cons, hi]
  | cons a l ih =>
    intro h
    cases ha : a.isAlloca with
    | true =>
      rw [allocas_first_cons l ha] at h
      rw [List.cons_append, allocas_first_cons _ ha]
      exact ih h
    | false =>
      simp only [allocas_first, List.dropWhile_cons, ha, Bool.false_eq_true, if_false,
        List.all_cons, Bool.not_false, Bool.true_and, List.cons_append, List.all_append,
        List.all_nil, Bool.and_true, Bool.and_eq_true] at h ⊢
      exact ⟨h, by simp [hi]⟩

theorem insts_of_modify (c : compiler) (g : List Instruction → List Instruction) (k0 k : Nat) :
    insts_of { c with blocks := c.blocks.modify (fun bb => { bb with insts := g bb.insts }) k0 }
        k =
      if k0 = k then (insts_of c k).map g else insts_of c k := by
  simp only [insts_of, List.getElem?_modify]
  split
  · cases c.blocks[k]? <;> rfl
  · simp

theorem allocas_stay_first_of_map {c c1 : compiler}
    (h : ∀ k, ∃ g : List Instruction → List Instruction,
      insts_of c1 k = (insts_of c k).map g ∧
        ∀ l, allocas_first l = true → allocas_first (g l) = true) :
    allocas_stay_first c c1 := by
  intro k hk l1 hl1
  obtain ⟨g, hg, hgf⟩ := h k
  rw [hg] at hl1
  cases hl : insts_of c k with
  | none => rw [hl] at hl1; exact Option.noConfusion hl1
  | some l =>
    rw [hl] at hl1
    simp only [Option.map_some', Option.some.injEq] at hl1
    rw [← hl1]
    exact hgf l (hk l hl)

theorem allocas_stay_first_of_eq {c c1 : compiler} (h : ∀ k, insts_of c1 k = insts_of c k) :
    allocas_stay_first c c1 :=
  allocas_stay_first_of_map (fun k => ⟨id, by rw [h k]; simp, fun _ hl => hl⟩)

theorem allocas_stay_first_emitted (i : Instruction) (c : compiler) (hi : i.isAlloca = false) :
    allocas_stay_first c (emitted c [i]) := by
  unfold emitted
  split
  · exact allocas_stay_first_of_eq (fun _ => rfl)
  · rename_i b _
    refine allocas_stay_first_of_map (fun k => ?_)
    by_cases hk : b = k
    · exact ⟨fun l => l ++ [i],
        (insts_of_modify c (fun l => l ++ [i]) b k).trans (if_pos hk),
        fun l hl => allocas_first_append hi l hl⟩
    · exact ⟨id,
        ((insts_of_modify c (fun l => l ++ [i]) b k).trans (if_neg hk)).trans (by simp),
        fun _ hl => hl⟩

theorem allocas_stay_first_block_closed : block_closed allocas_stay_first where
  same := fun _ _ h => h
  chain := fun _ _ _ h1 h2 k hk => h2 k (h1 k hk)
  insert := allocas_stay_first_emitted
  alloca := by
    intro _ var entry c
    refine allocas_stay_first_of_map (fun k => ?_)
    by_cases hk : entry = k
    · refine ⟨fun l => .value (.Alloca var) :: l,
        (insts_of_modify c (fun l => .value (.Alloca var) :: l) entry k).trans (if_pos hk),
        fun l hl => ?_⟩
      rw [allocas_first_cons (i := .value (.Alloca var)) l rfl]
      exact hl
    · exact ⟨id,
        ((insts_of_modify c (fun l => .value (.Alloca var) :: l) entry k).trans
          (if_neg hk)).trans (by simp),
        fun _ hl => hl⟩
  index := fun _ _ => allocas_stay_first_of_eq (fun _ => rfl)
  assign := fun _ _ _ => allocas_stay_first_of_eq (fun _ => rfl)
  report := fun _ _ _ => allocas_stay_first_of_eq (fun _ => rfl)
  create := by
    intro name c k hk l1 hl1
    simp only [insts_of, List.getElem?_append] at hl1
    split at hl1
    · exact hk l1 hl1
    · cases hj : k - c.blocks.length with
      | zero =>
        rw [hj] at hl1
        simp only [List.getElem?_cons_zero, Option.map_some', Option.some.injEq] at hl1
        rw [← hl1]
        rfl
      | succ j =>
        rw [hj] at hl1
        simp at hl1
  push := by
    intro f block c
    refine allocas_stay_first_of_eq (fun k => ?_)
    simp only [insts_of, List.getElem?_modify]
    split
    · cases c.blocks[k]? <;> rfl
    · simp
  set_insert := fun _ _ => allocas_stay_first_of_eq (fun _ => rfl)


theorem allocas_stay_first_function_decl (x : ast.function) :
    gen.relates allocas_stay_first (function_decl x) := by
  intro c a c1 h
  unfold function_decl at h
  dsimp only at h
  split at h
  · simp only [Result.returns.injEq] at h
    rw [← h.2]
    exact allocas_stay_first_of_eq (fun _ => rfl)
  · split at h
    · simp only [gen_bind_apply, gen.bind, error_handler, gen_pure_apply,
        Result.returns.injEq] at h
      rw [← h.2]
      exact allocas_stay_first_of_eq (fun _ => rfl)
    · split at h
      · simp only [gen_bind_apply, gen.bind, error_handler, gen_pure_apply,
          Result.returns.injEq] at h
        rw [← h.2]
        exact allocas_stay_first_of_eq (fun _ => rfl)
      · simp only [Result.returns.injEq] at h
        rw [← h.2]
        exact allocas_stay_first_of_eq (fun _ => rfl)

theorem allocas_stay_first_function_allocas (x : ast.function) (function : String) :
    gen.relates allocas_stay_first (function_allocas x function) := by
  have hS := allocas_stay_first_block_closed.tosteps_closed
  unfold function_allocas
  refine gen.relates_bind hS (relates_function_allocas_args hS _ _ _) (fun _ => ?_)
  intro c a c1 h
  dsimp only at h
  split at h
  · simp only [gen_bind_apply] at h
    obtain ⟨v, c2, h2, h⟩ := gen_bind_returns h
    have s2 := relates_create_entry_block_alloca hS _ _ c v c2 h2
    simp only [Result.returns.injEq, true_and] at h
    rw [← h]
    exact hS.chain _ _ _ s2 (allocas_stay_first_of_eq (fun _ => rfl))
  · simp only [Result.returns.injEq, true_and] at h
    rw [← h]
    exact hS.same c

theorem allocas_stay_first_function_return :
    gen.relates allocas_stay_first function_return := by
  have hS := allocas_stay_first_block_closed.tosteps_closed
  intro c a c1 h
  unfold function_return at h
  split at h
  · exact relates_Insert hS _ (by rfl) c a c1 h
  · split at h
    · exact Result.noConfusion h
    · exact gen.relates_bind hS (relates_CreateLoad hS _ _)
        (fun _ => relates_Insert hS _ (by rfl)) c a c1 h

theorem allocas_stay_first_function (n : Nat) (x : ast.function) :
    gen.relates allocas_stay_first (function_ n x) := by
  have hR := allocas_stay_first_block_closed
  have hS := hR.tosteps_closed
  unfold function_
  refine gen.relates_bind hS (allocas_stay_first_function_decl x) (fun function => ?_)
  cases function with
  | none => exact gen.relates_pure hS _
  | some function =>
    cases x.body with
    | none => exact gen.relates_pure hS _
    | some body =>
      refine gen.relates_bind hS (relates_BasicBlock_Create_in hR _ _) (fun _ => ?_)
      refine gen.relates_bind hS (relates_SetInsertPoint hR _) (fun _ => ?_)
      refine gen.relates_bind hS (allocas_stay_first_function_allocas x _) (fun _ => ?_)
      refine gen.relates_bind hS (relates_BasicBlock_Create hR _) (fun _ => ?_)
      refine gen.relates_bind hS ?_ (fun _ => ?_)
      · intro c a c1 h
        rw [set_return_block_eq h]
        exact allocas_stay_first_of_eq (fun _ => rfl)
      refine gen.relates_bind hS (relates_statement_list hR n body) (fun ok => ?_)
      cases ok with
      | false =>
        refine gen.relates_bind hS ?_ (fun _ => gen.relates_pure hS _)
        intro c a c1 h
        simp only [eraseFromParent, Result.returns.injEq, true_and] at h
        rw [← h]
        exact allocas_stay_first_of_eq (fun _ => rfl)
      | true =>
        refine gen.relates_bind hS ?_ (fun last_block => ?_)
        · intro c a c1 h
          rw [(back_returns h).1]
          exact hS.same c
        refine gen.relates_bind hS (relates_getTerminator hS _) (fun t => ?_)
        refine gen.relates_bind hS ?_ (fun _ => ?_)
        · cases t with
          | none =>
            exact gen.relates_bind hS (relates_SetInsertPoint hR _)
              (fun _ => gen.relates_bind hS (relates_get_return_block hS)
                (fun _ => relates_Insert hS _ (by rfl)))
          | some t => exact gen.relates_pure hS _
        refine gen.relates_bind hS (relates_get_return_block hS) (fun _ => ?_)
        refine gen.relates_bind hS (relates_push_back hR _ _) (fun _ => ?_)
        refine gen.relates_bind hS (relates_SetInsertPoint hR _) (fun _ => ?_)
        exact gen.relates_bind hS allocas_stay_first_function_return
          (fun _ => gen.relates_pure hS _)

theorem allocas_stay_first_function_list (n : Nat) (fs : List ast.function) :
    gen.relates allocas_stay_first (function_list_ n fs) := by
  have hS := allocas_stay_first_block_closed.tosteps_closed
  induction fs with
  | nil => exact gen.relates_pure hS _
  | cons f rest ih =>
    rw [function_list_]
    refine gen.relates_bind hS ?_ (fun _ => ?_)
    · intro c a c1 h
      simp only [named_values_clear, Result.returns.injEq, true_and] at h
      rw [← h]
      exact allocas_stay_first_of_eq (fun _ => rfl)
    refine gen.relates_bind hS (allocas_stay_first_function n f) (fun ok => ?_)
    cases ok with
    | true => exact ih
    | false => exact gen.relates_pure hS _


/-- C26: a successful variable declaration, compiled at any insertion
point, allocates one slot: the alloca is put at the head of the first block
of the function the insertion block belongs to, and only the store of the
initializer value, when there is an initializer, is appended at the
insertion point (after the instructions of the initializer).  Compiling a
statement of any form keeps the allocas first in every block in which they
were first, and in every block of a module compiled from the initial state
every alloca precedes every other instruction. -/
theorem variable_declaration_allocates_at_the_head_of_the_entry_block (n : Nat)
    (x : ast.variable_declaration) (c : compiler) (f : String) (fn : Function) (entry : Nat)
    (hfind : named_values_find x.lhs.name c = none)
    (hparent : getParent c = .returns (some f) c)
    (hfn : getFunction f c = some fn) (hentry : fn.blocks.head? = some entry) :
    (x.rhs = none →
      variable_declaration_ n x c =
        .returns true
          (bound (alloca_at_head c entry x.lhs.name) x.lhs.name (.Alloca x.lhs.name))) ∧
    (∀ rhs v c1, x.rhs = some rhs → expression_ n rhs c = .returns (some v) c1 →
      variable_declaration_ n x c =
        .returns true
          (bound
            (emitted (alloca_at_head c1 entry x.lhs.name) [.Store v (.Alloca x.lhs.name)])
            x.lhs.name (.Alloca x.lhs.name))) ∧
    (∀ c0 var k, insts_of (alloca_at_head c0 entry var) k =
      if entry = k then (insts_of c0 k).map (fun l => .value (.Alloca var) :: l)
      else insts_of c0 k) ∧
    (∀ m s c0 ok c1, statement_ m s c0 = .returns ok c1 → allocas_stay_first c0 c1) ∧
    (∀ m fs ok c1 k l, function_list_ m fs compiler.init = .returns ok c1 →
      insts_of c1 k = some l → allocas_first l = true) := by
  refine ⟨?_, ?_, ?_, ?_, ?_⟩
  · intro hr
    simp only [variable_declaration_, hfind, gen_bind_apply, gen.bind, hparent, hr,
      create_entry_block_alloca, hfn, hentry, named_values_assign, gen_pure_apply]
    rfl
  · intro rhs v c1 hr he
    have hm := (relates_expression shape_step_closed n rhs c _ c1 he).module_eq
    have hfn1 : getFunction f c1 = some fn := by
      unfold getFunction at hfn ⊢
      rw [hm]
      exact hfn
    have hfn2 : getFunction f
        { c1 with
          blocks :=
            c1.blocks.modify
              (fun bb => { bb with insts := .value (.Alloca x.lhs.name) :: bb.insts })
              entry } = some fn := hfn1
    simp only [variable_declaration_, hfind, gen_bind_apply, gen.bind, hparent, hr, he,
      create_entry_block_alloca, hfn1, hentry, CreateStore, Insert_emitted,
      named_values_assign, gen_pure_apply]
    rfl
  · intro c0 var k
    exact insts_of_modify c0 (fun l => .value (.Alloca var) :: l) entry k
  · intro m s c0 ok c1 h
    exact (statement_layer_relates allocas_stay_first_block_closed m).1 s c0 ok c1 h
  · intro m fs ok c1 k l h hl
    exact allocas_stay_first_function_list m fs compiler.init ok c1 h k
      (fun l0 hl0 => by simp [insts_of, compiler.init] at hl0) l hl

theorem variable_declaration_allocates_at_the_head_of_the_entry_block_witness :
    variable_declaration_ 10 int_x_is_b in_then_block =
        .returns true
          (bound
            (emitted
              (alloca_at_head (emitted in_then_block [.value (.Load (.Alloca "b") "b")]) 0 "x")
              [.Store (.Load (.Alloca "b") "b") (.Alloca "x")])
            "x" (.Alloca "x")) ∧
      insts_of
          (bound
            (emitted
              (alloca_at_head (emitted in_then_block [.value (.Load (.Alloca "b") "b")]) 0 "x")
              [.Store (.Load (.Alloca "b") "b") (.Alloca "x")])
            "x" (.Alloca "x")) 0 =
        some
          [ .value (.Alloca "x"), .value (.Alloca "return.val"), .value (.Alloca "b"),
            .value (.Alloca "a"), .Store (.Argument "f" 0) (.Alloca "a"),
            .Store (.Argument "f" 1) (.Alloca "b") ] ∧
      insts_of
          (bound
            (emitted
              (alloca_at_head (emitted in_then_block [.value (.Load (.Alloca "b") "b")]) 0 "x")
              [.Store (.Load (.Alloca "b") "b") (.Alloca "x")])
            "x" (.Alloca "x")) 2 =
        some [.value (.Load (.Alloca "b") "b"), .Store (.Load (.Alloca "b") "b") (.Alloca "x")] :=
  ⟨(variable_declaration_allocates_at_the_head_of_the_entry_block 10 int_x_is_b in_then_block
      "f" { name := "f", void_return := false, args := ["", ""], blocks := [0, 2] } 0
      (by decide!) (by decide!) (by decide!) rfl).2.1 (identifier_expression ⟨3, "b"⟩)
      (.Load (.Alloca "b") "b") (emitted in_then_block [.value (.Load (.Alloca "b") "b")])
      rfl (by decide!),
    by decide!, by decide!⟩


/-! ## The blocks of a `while` statement (C25) -/

/-! ### What a statement leaves of the blocks before it -/

theorem grows_of_insts_eq {c c1 : compiler} (hl : c1.blocks.length = c.blocks.length)
    (hi : c1.insert_block = c.insert_block) (hb : ∀ k, insts_of c1 k = insts_of c k)
    (hm : c1.module = c.module) : grows c c1 where
  length_le := le_of_eq hl.symm
  insert_block := Or.inl hi
  insts := fun k _ => ⟨[], [], by rw [hb k]; simp, fun _ h => absurd h (List.not_mem_nil _),
    fun _ => rfl⟩
  block_list := fun name => ⟨[], by simp [block_list, getFunction, hm],
    fun _ h => absurd h (List.not_mem_nil _)⟩

theorem grows.grows_refl (c : compiler) : grows c c :=
  grows_of_insts_eq rfl rfl (fun _ => rfl) rfl

theorem grows.grows_trans {c c1 c2 : compiler} (h1 : grows c c1) (h2 : grows c1 c2) :
    grows c c2 where
  length_le := le_trans h1.length_le h2.length_le
  insert_block := by
    rcases h2.insert_block with h | ⟨b, hb, hle⟩
    · rw [h]; exact h1.insert_block
    · exact Or.inr ⟨b, hb, le_trans h1.length_le hle⟩
  insts := by
    intro k hk
    obtain ⟨pre1, post1, e1, a1, p1⟩ := h1.insts k hk
    obtain ⟨pre2, post2, e2, a2, p2⟩ := h2.insts k (lt_of_lt_of_le hk h1.length_le)
    refine ⟨pre2 ++ pre1, post1 ++ post2, ?_, ?_, ?_⟩
    · rw [e2, e1]
      cases insts_of c k <;> simp
    · intro i hi
      rcases List.mem_append.1 hi with hi | hi
      · exact a2 i hi
      · exact a1 i hi
    · intro hne
      have hne1 : c1.insert_block ≠ some k := by
        rcases h1.insert_block with h | ⟨b, hb, hle⟩
        · rw [h]; exact hne
        · rw [hb]
          intro hbk
          simp only [Option.some.injEq] at hbk
          omega
      rw [p1 hne, p2 hne1]
      rfl
  block_list := by
    intro name
    obtain ⟨x1, e1, b1⟩ := h1.block_list name
    obtain ⟨x2, e2, b2⟩ := h2.block_list name
    refine ⟨x1 ++ x2, by rw [e2, e1, List.append_assoc], ?_⟩
    intro b hb
    rcases List.mem_append.1 hb with hb | hb
    · exact b1 b hb
    · exact le_trans h1.length_le (b2 b hb)

theorem grows_step_closed : step_closed grows where
  same := grows.grows_refl
  chain := fun _ _ _ h1 h2 => h1.grows_trans h2
  insert := by
    intro i c _
    unfold emitted
    split
    · exact grows.grows_refl c
    · rename_i b hb
      refine ⟨by simp, Or.inl rfl, ?_, fun name => ⟨[], by simp [block_list, getFunction],
        fun _ h => absurd h (List.not_mem_nil _)⟩⟩
      intro k _
      by_cases hk : b = k
      · refine ⟨[], [i], ?_, fun _ h => absurd h (List.not_mem_nil _), ?_⟩
        · rw [(insts_of_modify c (fun l => l ++ [i]) b k).trans (if_pos hk)]
          simp
        · intro hne
          exact absurd (hk ▸ hb) hne
      · refine ⟨[], [], ?_, fun _ h => absurd h (List.not_mem_nil _), fun _ => rfl⟩
        rw [(insts_of_modify c (fun l => l ++ [i]) b k).trans (if_neg hk)]
        simp
  alloca := by
    intro _ var entry c
    refine ⟨by simp, Or.inl rfl, ?_, fun name => ⟨[], by simp [block_list, getFunction],
      fun _ h => absurd h (List.not_mem_nil _)⟩⟩
    intro k _
    by_cases hk : entry = k
    · refine ⟨[.value (.Alloca var)], [], ?_, ?_, fun _ => rfl⟩
      · rw [(insts_of_modify c (fun l => .value (.Alloca var) :: l) entry k).trans (if_pos hk)]
        simp
      · intro i hi
        simp only [List.mem_singleton] at hi
        rw [hi]
        rfl
    · refine ⟨[], [], ?_, fun _ h => absurd h (List.not_mem_nil _), fun _ => rfl⟩
      rw [(insts_of_modify c (fun l => .value (.Alloca var) :: l) entry k).trans (if_neg hk)]
      simp
  index := fun _ _ => grows_of_insts_eq rfl rfl (fun _ => rfl) rfl
  assign := fun _ _ _ => grows_of_insts_eq rfl rfl (fun _ => rfl) rfl
  report := fun _ _ _ => grows_of_insts_eq rfl rfl (fun _ => rfl) rfl


theorem grows_of_step {c0 c c1 : compiler} (g : grows c0 c)
    (hl : c.blocks.length ≤ c1.blocks.length)
    (hi : c1.insert_block = c.insert_block ∨
      ∃ b, c1.insert_block = some b ∧ c0.blocks.length ≤ b)
    (hinsts : ∀ k, k < c0.blocks.length → insts_of c1 k = insts_of c k)
    (hbl : ∀ name, ∃ extra : List Nat,
      block_list name c1 = block_list name c ++ extra ∧ ∀ y ∈ extra, c0.blocks.length ≤ y) :
    grows c0 c1 where
  length_le := le_trans g.length_le hl
  insert_block := by
    rcases hi with h | h
    · rw [h]; exact g.insert_block
    · exact Or.inr h
  insts := by
    intro k hk
    obtain ⟨pre, post, e, a, p⟩ := g.insts k hk
    exact ⟨pre, post, by rw [hinsts k hk, e], a, p⟩
  block_list := by
    intro name
    obtain ⟨x1, e1, b1⟩ := g.block_list name
    obtain ⟨x2, e2, b2⟩ := hbl name
    refine ⟨x1 ++ x2, by rw [e2, e1, List.append_assoc], ?_⟩
    intro b hb
    rcases List.mem_append.1 hb with hb | hb
    · exact b1 b hb
    · exact b2 b hb

theorem block_list_push_back {f : String} {b : Nat} {c c1 : compiler}
    (h : push_back (some f) b c = .returns () c1) (name : String) :
    ∃ extra : List Nat, block_list name c1 = block_list name c ++ extra ∧ ∀ y ∈ extra, y = b := by
  by_cases hn : name = f
  · subst hn
    exact ⟨[b], (push_back_eq h).1, fun y hy => by simpa using hy⟩
  · refine ⟨[], ?_, fun _ hy => absurd hy (List.not_mem_nil _)⟩
    unfold push_back at h
    simp only at h
    split at h
    · exact Result.noConfusion h
    · simp only [Result.returns.injEq, true_and] at h
      subst h
      simp only [block_list, getFunction, List.append_nil]
      rw [getFunction_map_blocks _ _ _ (fun g => by split <;> rfl)]
      cases hf : List.find? (fun g => g.name == name) c.module with
      | none => rfl
      | some fn =>
        have hname : fn.name = name := by
          have := List.find?_some hf
          simpa using this
        have hne : ¬ fn.name = f := fun e => hn (hname.symm.trans e)
        simp [hne]

theorem grows_push_back {c0 c c1 : compiler} {fn : Option String} {b : Nat} (g : grows c0 c)
    (hb : c0.blocks.length ≤ b) (h : push_back fn b c = .returns () c1) : grows c0 c1 := by
  cases fn with
  | none => exact Result.noConfusion h
  | some f =>
    obtain ⟨_, hi, hl, hins, _⟩ := push_back_eq h
    refine grows_of_step g (le_of_eq hl.symm) (Or.inl hins) (fun k _ => hi k) (fun name => ?_)
    obtain ⟨extra, e, hx⟩ := block_list_push_back h name
    exact ⟨extra, e, fun y hy => by rw [hx y hy]; exact hb⟩

theorem grows_SetInsertPoint {c0 c c1 : compiler} {b : Nat} (g : grows c0 c)
    (hb : c0.blocks.length ≤ b) (h : SetInsertPoint b c = .returns () c1) : grows c0 c1 := by
  rw [SetInsertPoint_eq h]
  exact grows_of_step g (le_refl _) (Or.inr ⟨b, rfl, hb⟩) (fun _ _ => rfl)
    (fun name => ⟨[], by simp [block_list, getFunction],
      fun _ hy => absurd hy (List.not_mem_nil _)⟩)

theorem grows_BasicBlock_Create {name : String} {c c1 : compiler} {b : Nat}
    (h : BasicBlock_Create name c = .returns b c1) :
    grows c c1 ∧ b = c.blocks.length ∧ c1.blocks.length = c.blocks.length + 1 := by
  simp only [BasicBlock_Create, Result.returns.injEq] at h
  obtain ⟨hb, hc⟩ := h
  subst hc
  subst hb
  refine ⟨⟨by simp, Or.inl rfl, ?_, fun name => ⟨[], by simp [block_list, getFunction],
    fun _ hy => absurd hy (List.not_mem_nil _)⟩⟩, rfl, by simp⟩
  intro k hk
  refine ⟨[], [], ?_, fun _ hy => absurd hy (List.not_mem_nil _), fun _ => rfl⟩
  simp only [insts_of, List.getElem?_append_left hk]
  cases c.blocks[k]? <;> simp

theorem grows_Insert {i : Instruction} {c c1 : compiler} (h : Insert i c = .returns () c1) :
    grows c c1 := by
  rw [Insert_emitted, Result.returns.injEq] at h
  rw [← h.2]
  unfold emitted
  split
  · exact grows.grows_refl c
  · rename_i b hb
    refine ⟨by simp, Or.inl rfl, ?_, fun name => ⟨[], by simp [block_list, getFunction],
      fun _ h => absurd h (List.not_mem_nil _)⟩⟩
    intro k _
    by_cases hk : b = k
    · refine ⟨[], [i], ?_, fun _ h => absurd h (List.not_mem_nil _), ?_⟩
      · rw [(insts_of_modify c (fun l => l ++ [i]) b k).trans (if_pos hk)]
        simp
      · intro hne
        exact absurd (hk ▸ hb) hne
    · refine ⟨[], [], ?_, fun _ h => absurd h (List.not_mem_nil _), fun _ => rfl⟩
      rw [(insts_of_modify c (fun l => l ++ [i]) b k).trans (if_neg hk)]
      simp

theorem grows_BasicBlock_Create_in {name : String} {fn : Option String} {c c1 : compiler}
    {b : Nat} (h : BasicBlock_Create_in name fn c = .returns b c1) :
    grows c c1 ∧ b = c.blocks.length ∧ c1.blocks.length = c.blocks.length + 1 := by
  unfold BasicBlock_Create_in at h
  simp only [gen_bind_apply] at h
  obtain ⟨b1, c2, h1, h⟩ := gen_bind_returns h
  obtain ⟨g2, hb1, hl2⟩ := grows_BasicBlock_Create h1
  cases fn with
  | none =>
    simp only [gen_pure_apply, Result.returns.injEq] at h
    rw [← h.1, ← h.2]
    exact ⟨g2, hb1, hl2⟩
  | some f =>
    simp only [gen_bind_apply] at h
    obtain ⟨u, c3, h3, h⟩ := gen_bind_returns h
    simp only [gen_pure_apply, Result.returns.injEq] at h
    rw [← h.1, ← h.2]
    exact ⟨grows_push_back g2 (le_of_eq hb1.symm) h3, hb1,
      by rw [(push_back_eq h3).2.2.1]; exact hl2⟩

theorem grows_if_statement_branch {condition : Value} {then_block : Nat} {has_else : Bool}
    {c c1 : compiler} {eb xb : Option Nat}
    (h : if_statement_branch condition then_block has_else c = .returns (eb, xb) c1) :
    grows c c1 ∧ (∀ y ∈ eb, c.blocks.length ≤ y) ∧ (∀ y ∈ xb, c.blocks.length ≤ y) := by
  unfold if_statement_branch at h
  cases has_else with
  | true =>
    simp only [if_true, gen_bind_apply] at h
    obtain ⟨b, c2, h2, h⟩ := gen_bind_returns h
    obtain ⟨g2, hb, _⟩ := grows_BasicBlock_Create h2
    obtain ⟨u, c3, h3, h⟩ := gen_bind_returns h
    have g3 := grows_Insert h3
    simp only [gen_pure_apply, Result.returns.injEq, Prod.mk.injEq] at h
    obtain ⟨⟨h4, h5⟩, h6⟩ := h
    subst h4 h5 h6
    refine ⟨g2.grows_trans g3, ?_, ?_⟩
    · intro y hy
      simp only [Option.mem_def, Option.some.injEq] at hy
      omega
    · intro y hy
      simp at hy
  | false =>
    simp only [Bool.false_eq_true, if_false, gen_bind_apply] at h
    obtain ⟨b, c2, h2, h⟩ := gen_bind_returns h
    obtain ⟨g2, hb, _⟩ := grows_BasicBlock_Create h2
    obtain ⟨u, c3, h3, h⟩ := gen_bind_returns h
    have g3 := grows_Insert h3
    simp only [gen_pure_apply, Result.returns.injEq, Prod.mk.injEq] at h
    obtain ⟨⟨h4, h5⟩, h6⟩ := h
    subst h4 h5 h6
    refine ⟨g2.grows_trans g3, ?_, ?_⟩
    · intro y hy
      simp at hy
    · intro y hy
      simp only [Option.mem_def, Option.some.injEq] at hy
      omega

theorem grows_if_statement_fall_through {c c1 : compiler} {block : Nat}
    {xb xb1 : Option Nat}
    (h : if_statement_fall_through block xb c = .returns xb1 c1) :
    grows c c1 ∧ (∀ y ∈ xb1, y ∈ xb ∨ c.blocks.length ≤ y) := by
  unfold if_statement_fall_through at h
  simp only [gen_bind_apply] at h
  obtain ⟨t, c2, h2, h⟩ := gen_bind_returns h
  rw [(getTerminator_returns h2).1] at h
  cases t with
  | some t =>
    simp only [gen_pure_apply, Result.returns.injEq] at h
    rw [← h.1, ← h.2]
    exact ⟨grows.grows_refl c, fun y hy => Or.inl hy⟩
  | none =>
    cases xb with
    | none =>
      simp only [gen_bind_apply] at h
      obtain ⟨b, c3, h3, h⟩ := gen_bind_returns h
      obtain ⟨g3, hb, _⟩ := grows_BasicBlock_Create h3
      obtain ⟨u, c4, h4, h⟩ := gen_bind_returns h
      have g4 := grows_Insert h4
      simp only [gen_pure_apply, Result.returns.injEq] at h
      rw [← h.1, ← h.2]
      refine ⟨g3.grows_trans g4, ?_⟩
      intro y hy
      simp only [Option.mem_def, Option.some.injEq] at hy
      right
      omega
    | some xb =>
      simp only [gen_bind_apply] at h
      obtain ⟨u, c4, h4, h⟩ := gen_bind_returns h
      have g4 := grows_Insert h4
      simp only [gen_pure_apply, Result.returns.injEq] at h
      rw [← h.1, ← h.2]
      exact ⟨g4, fun y hy => Or.inl hy⟩

theorem grows_if_statement_exit {c0 c c1 : compiler} {fn : Option String} {xb : Option Nat}
    {r : Bool} (g : grows c0 c) (hxb : ∀ y ∈ xb, c0.blocks.length ≤ y)
    (h : if_statement_exit fn xb c = .returns r c1) : grows c0 c1 := by
  unfold if_statement_exit at h
  cases xb with
  | none =>
    simp only [gen_pure_apply, Result.returns.injEq] at h
    rw [← h.2]
    exact g
  | some xb =>
    simp only [gen_bind_apply] at h
    obtain ⟨u, c2, h2, h⟩ := gen_bind_returns h
    obtain ⟨u3, c3, h3, h⟩ := gen_bind_returns h
    simp only [gen_pure_apply, Result.returns.injEq] at h
    rw [← h.2]
    exact grows_SetInsertPoint (grows_push_back g (hxb xb rfl) h2) (hxb xb rfl) h3


theorem statement_layer_grows : ∀ n : Nat,
    (∀ s, gen.relates grows (statement_ n s)) ∧
    (∀ l, gen.relates grows (statement_list_ n l)) ∧
    (∀ x t e, gen.relates grows (if_statement_ n x t e)) ∧
    (∀ x b, gen.relates grows (while_statement_ n x b)) := by
  have hS := grows_step_closed
  intro n
  induction n with
  | zero =>
    refine ⟨?_, ?_, ?_, ?_⟩ <;> intros <;>
      first
        | (rw [statement_]; exact relates_out_of_fuel)
        | (rw [statement_list_]; exact relates_out_of_fuel)
        | (rw [if_statement_]; exact relates_out_of_fuel)
        | (rw [while_statement_]; exact relates_out_of_fuel)
  | succ n ih =>
    obtain ⟨ih1, ih2, ih3, ih4⟩ := ih
    refine ⟨?_, ?_, ?_, ?_⟩
    · intro s
      cases s with
      | variable_declaration x => rw [statement_]; exact relates_variable_declaration hS n x
      | assignment x =>
        rw [statement_]
        exact gen.relates_bind hS (relates_assignment hS n x) (fun _ => gen.relates_pure hS _)
      | if_statement x t e => rw [statement_]; exact ih3 x t e
      | while_statement x b => rw [statement_]; exact ih4 x b
      | return_statement id e => rw [statement_]; exact relates_return_statement hS n id e
      | statement_list l => rw [statement_]; exact ih2 l
    · intro l
      cases l with
      | nil => rw [statement_list_]; exact gen.relates_pure hS _
      | cons s rest =>
        rw [statement_list_]
        refine gen.relates_bind hS (ih1 s) (fun ok => ?_)
        cases ok with
        | true => exact ih2 rest
        | false => exact gen.relates_pure hS _
    · intro x t e c0 r c9 h
      rw [if_statement_] at h
      simp only [gen_bind_apply] at h
      obtain ⟨cv, c1, h1, h⟩ := gen_bind_returns h
      have g1 : grows c0 c1 := relates_expression hS n x c0 cv c1 h1
      cases cv with
      | none =>
        simp only [gen_pure_apply, Result.returns.injEq] at h
        rw [← h.2]; exact g1
      | some cv =>
        simp only [gen_bind_apply] at h
        obtain ⟨fn, c2, h2, h⟩ := gen_bind_returns h
        rw [getParent_returns h2] at h
        simp only [gen_bind_apply] at h
        obtain ⟨tb, c3, h3, h⟩ := gen_bind_returns h
        obtain ⟨g13, htb, _⟩ := grows_BasicBlock_Create_in h3
        have g3 : grows c0 c3 := g1.grows_trans g13
        have htb0 : c0.blocks.length ≤ tb := by have := g1.length_le; omega
        simp only [gen_bind_apply] at h
        obtain ⟨⟨eb, xb⟩, c4, h4, h⟩ := gen_bind_returns h
        obtain ⟨g34, heb, hxb⟩ := grows_if_statement_branch h4
        have g4 : grows c0 c4 := g3.grows_trans g34
        simp only [gen_bind_apply] at h
        obtain ⟨u, c5, h5, h⟩ := gen_bind_returns h
        have g5 : grows c0 c5 := grows_SetInsertPoint g4 htb0 h5
        simp only [gen_bind_apply] at h
        obtain ⟨ok, c6, h6, h⟩ := gen_bind_returns h
        have g6 : grows c0 c6 := g5.grows_trans (ih1 t c5 ok c6 h6)
        have heb0 : ∀ y ∈ eb, c0.blocks.length ≤ y := fun y hy =>
          le_trans g3.length_le (heb y hy)
        have hxb0 : ∀ y ∈ xb, c0.blocks.length ≤ y := fun y hy =>
          le_trans g3.length_le (hxb y hy)
        cases ok with
        | false =>
          simp only [Bool.false_eq_true, if_false, gen_pure_apply, Result.returns.injEq] at h
          rw [← h.2]; exact g6
        | true =>
          simp only [if_true, gen_bind_apply] at h
          obtain ⟨xb1, c7, h7, h⟩ := gen_bind_returns h
          obtain ⟨g67, hxb1⟩ := grows_if_statement_fall_through h7
          have g7 : grows c0 c7 := g6.grows_trans g67
          have hx1 : ∀ y ∈ xb1, c0.blocks.length ≤ y := by
            intro y hy
            rcases hxb1 y hy with hy | hy
            · exact hxb0 y hy
            · exact le_trans g6.length_le hy
          cases e with
          | none => exact grows_if_statement_exit g7 hx1 h
          | some es =>
            cases eb with
            | none => exact Result.noConfusion h
            | some eb =>
              simp only [gen_bind_apply] at h
              obtain ⟨u8, c8, h8, h⟩ := gen_bind_returns h
              have g8 : grows c0 c8 := grows_push_back g7 (heb0 eb rfl) h8
              simp only [gen_bind_apply] at h
              obtain ⟨u9, c10, h10, h⟩ := gen_bind_returns h
              have g10 : grows c0 c10 := grows_SetInsertPoint g8 (heb0 eb rfl) h10
              simp only [gen_bind_apply] at h
              obtain ⟨ok2, c11, h11, h⟩ := gen_bind_returns h
              have g11 : grows c0 c11 := g10.grows_trans (ih1 es c10 ok2 c11 h11)
              cases ok2 with
              | false =>
                simp only [Bool.false_eq_true, if_false, gen_pure_apply,
                  Result.returns.injEq] at h
                rw [← h.2]; exact g11
              | true =>
                simp only [if_true, gen_bind_apply] at h
                obtain ⟨xb2, c12, h12, h⟩ := gen_bind_returns h
                obtain ⟨g1112, hxb2⟩ := grows_if_statement_fall_through h12
                refine grows_if_statement_exit (g11.grows_trans g1112) ?_ h
                intro y hy
                rcases hxb2 y hy with hy | hy
                · exact hx1 y hy
                · exact le_trans g11.length_le hy
    · intro x b c0 r c9 h
      rw [while_statement_] at h
      simp only [gen_bind_apply] at h
      obtain ⟨fn, c1, h1, h⟩ := gen_bind_returns h
      rw [getParent_returns h1] at h
      simp only [gen_bind_apply] at h
      obtain ⟨cb, c2, h2, h⟩ := gen_bind_returns h
      obtain ⟨g2, hcb, hl2⟩ := grows_BasicBlock_Create_in h2
      simp only [gen_bind_apply] at h
      obtain ⟨bb, c3, h3, h⟩ := gen_bind_returns h
      obtain ⟨g23, hbb, hl3⟩ := grows_BasicBlock_Create h3
      have g3 : grows c0 c3 := g2.grows_trans g23
      simp only [gen_bind_apply] at h
      obtain ⟨xb, c4, h4, h⟩ := gen_bind_returns h
      obtain ⟨g34, hxb, hl4⟩ := grows_BasicBlock_Create h4
      have g4 : grows c0 c4 := g3.grows_trans g34
      simp only [gen_bind_apply] at h
      obtain ⟨u5, c5, h5, h⟩ := gen_bind_returns h
      have g5 : grows c0 c5 := g4.grows_trans (grows_Insert h5)
      simp only [gen_bind_apply] at h
      obtain ⟨u6, c6, h6, h⟩ := gen_bind_returns h
      have g6 : grows c0 c6 := grows_SetInsertPoint g5 (le_of_eq hcb.symm) h6
      simp only [gen_bind_apply] at h
      obtain ⟨cv, c7, h7, h⟩ := gen_bind_returns h
      have g7 : grows c0 c7 := g6.grows_trans (relates_expression hS n x _ _ _ h7)
      cases cv with
      | none =>
        simp only [gen_pure_apply, Result.returns.injEq] at h
        rw [← h.2]; exact g7
      | some cv =>
        simp only [gen_bind_apply] at h
        obtain ⟨u8, c8, h8, h⟩ := gen_bind_returns h
        have g8 : grows c0 c8 := g7.grows_trans (grows_Insert h8)
        simp only [gen_bind_apply] at h
        obtain ⟨u10, c10, h10, h⟩ := gen_bind_returns h
        have g10 : grows c0 c10 := grows_push_back g8 (by omega) h10
        simp only [gen_bind_apply] at h
        obtain ⟨u11, c11, h11, h⟩ := gen_bind_returns h
        have g11 : grows c0 c11 := grows_SetInsertPoint g10 (by omega) h11
        simp only [gen_bind_apply] at h
        obtain ⟨ok, c12, h12, h⟩ := gen_bind_returns h
        have g12 : grows c0 c12 := g11.grows_trans (ih1 b c11 ok c12 h12)
        cases ok with
        | false =>
          simp only [Bool.false_eq_true, if_false, gen_pure_apply, Result.returns.injEq] at h
          rw [← h.2]; exact g12
        | true =>
          simp only [if_true, gen_bind_apply] at h
          obtain ⟨t, c13, h13, h⟩ := gen_bind_returns h
          rw [(getTerminator_returns h13).1] at h
          simp only [gen_bind_apply] at h
          obtain ⟨u14, c14, h14, h⟩ := gen_bind_returns h
          have g14 : grows c0 c14 := by
            cases t with
            | none => exact g12.grows_trans (grows_Insert h14)
            | some t =>
              simp only [gen_pure_apply, Result.returns.injEq] at h14
              rw [← h14.2]; exact g12
          simp only [gen_bind_apply] at h
          obtain ⟨u15, c15, h15, h⟩ := gen_bind_returns h
          have g15 : grows c0 c15 := grows_push_back g14 (by omega) h15
          simp only [gen_bind_apply] at h
          obtain ⟨u16, c16, h16, h⟩ := gen_bind_returns h
          simp only [gen_pure_apply, Result.returns.injEq] at h
          rw [← h.2]
          exact grows_SetInsertPoint g15 (by omega) h16


/-! ### The trace of a `while` statement -/

theorem prepended_of_eq {k : Nat} {c c1 : compiler} (h : insts_of c1 k = insts_of c k) :
    prepended k c c1 :=
  ⟨[], fun _ hi => absurd hi (List.not_mem_nil _), by rw [h]; simp⟩

theorem prepended.prepended_trans {k : Nat} {c c1 c2 : compiler} (h1 : prepended k c c1)
    (h2 : prepended k c1 c2) : prepended k c c2 := by
  obtain ⟨p1, a1, e1⟩ := h1
  obtain ⟨p2, a2, e2⟩ := h2
  refine ⟨p2 ++ p1, ?_, ?_⟩
  · intro i hi
    rcases List.mem_append.1 hi with hi | hi
    · exact a2 i hi
    · exact a1 i hi
  · rw [e2, e1]
    cases insts_of c k <;> simp

theorem prepended_of_grows {k : Nat} {c c1 : compiler} (g : grows c c1)
    (hk : k < c.blocks.length) (hne : c.insert_block ≠ some k) : prepended k c c1 := by
  obtain ⟨pre, post, e, a, p⟩ := g.insts k hk
  refine ⟨pre, a, ?_⟩
  rw [e, p hne]
  cases insts_of c k <;> simp

theorem BasicBlock_Create_eq {name : String} {c c1 : compiler} {b : Nat}
    (h : BasicBlock_Create name c = .returns b c1) :
    b = c.blocks.length ∧ c1.blocks.length = c.blocks.length + 1 ∧
      c1.insert_block = c.insert_block ∧ c1.module = c.module ∧
      (∀ k, k < c.blocks.length → insts_of c1 k = insts_of c k) ∧
      insts_of c1 b = some [] := by
  simp only [BasicBlock_Create, Result.returns.injEq] at h
  obtain ⟨hb, hc⟩ := h
  subst hc
  subst hb
  refine ⟨rfl, by simp, rfl, rfl, ?_, by simp [insts_of]⟩
  intro k hk
  simp only [insts_of, List.getElem?_append_left hk]

theorem BasicBlock_Create_in_eq {name f : String} {c c1 : compiler} {b : Nat}
    (h : BasicBlock_Create_in name (some f) c = .returns b c1) :
    b = c.blocks.length ∧ c1.blocks.length = c.blocks.length + 1 ∧
      c1.insert_block = c.insert_block ∧ block_list f c1 = block_list f c ++ [b] ∧
      (∀ k, k < c.blocks.length → insts_of c1 k = insts_of c k) ∧
      insts_of c1 b = some [] := by
  have h0 := BasicBlock_Create_in_some_returns h
  unfold BasicBlock_Create_in at h
  simp only [gen_bind_apply] at h
  obtain ⟨b1, c2, h1, h⟩ := gen_bind_returns h
  obtain ⟨hb1, hl2, hi2, _, hk2, he2⟩ := BasicBlock_Create_eq h1
  simp only [gen_bind_apply] at h
  obtain ⟨u, c3, h3, h⟩ := gen_bind_returns h
  simp only [gen_pure_apply, Result.returns.injEq] at h
  obtain ⟨hb, hc⟩ := h
  subst hb hc
  obtain ⟨_, hi3, _, hins3, _⟩ := push_back_eq h3
  exact ⟨h0.1, h0.2.1, hins3.trans hi2, h0.2.2, fun k hk => (hi3 k).trans (hk2 k hk),
    (hi3 _).trans he2⟩

theorem block_list_of_module_eq {c c1 : compiler} (h : c1.module = c.module) (f : String) :
    block_list f c1 = block_list f c := by
  simp only [block_list, getFunction, h]

theorem insts_of_emitted (c : compiler) (i : Instruction) (k : Nat) :
    insts_of (emitted c [i]) k =
      if c.insert_block = some k then (insts_of c k).map (fun l => l ++ [i])
      else insts_of c k := by
  unfold emitted
  split
  · rename_i hn
    rw [if_neg (by rw [hn]; exact fun e => Option.noConfusion e)]
  · rename_i b hb
    rw [insts_of_modify c (fun l => l ++ [i]) b k, hb]
    by_cases hk : b = k
    · rw [if_pos hk, if_pos (by rw [hk])]
    · rw [if_neg hk, if_neg (fun e => hk (Option.some.inj e))]


theorem push_back_of_block_list {f : String} {b : Nat} {c : compiler}
    (h : block_list f c ≠ []) : ∃ c1, push_back (some f) b c = .returns () c1 := by
  unfold block_list at h
  cases hg : getFunction f c with
  | none => rw [hg] at h; exact absurd rfl h
  | some g =>
    simp only [push_back, hg]
    exact ⟨_, rfl⟩

theorem getParent_inv {c c1 : compiler} {fn : Option String}
    (h : getParent c = .returns fn c1) :
    ∃ b bb, c.insert_block = some b ∧ c.blocks[b]? = some bb ∧ b < c.blocks.length ∧
      ∃ old, insts_of c b = some old := by
  unfold getParent at h
  split at h
  · exact Result.noConfusion h
  · rename_i b hb
    split at h
    · exact Result.noConfusion h
    · rename_i bb hbb
      exact ⟨b, bb, hb, hbb, (List.getElem?_eq_some.1 hbb).1, bb.insts, by simp [insts_of, hbb]⟩

theorem insts_of_some_of_lt {c : compiler} {k : Nat} (h : k < c.blocks.length) :
    ∃ l, insts_of c k = some l := by
  simp only [insts_of, List.getElem?_eq_getElem h, Option.map_some']
  exact ⟨_, rfl⟩


/-- C25: a `while` statement whose condition and body compile successfully
returns success.  Its three blocks are the next three blocks of the arena, in
the order cond, body, end; the block list of the function gains cond and
body before the body is compiled, then the blocks the body appends, then
end.  The block that was current keeps its instructions and gets the branch
to cond at its end; cond holds the instructions of the condition followed by
the conditional branch on the condition to body and end (in both blocks only
allocas of the body may have been put before); end is the insertion point
afterwards, whatever the last instruction of the body is. -/
theorem while_statement_adds_cond_body_end (n : Nat) (x : ast.expression)
    (body : ast.statement) (c c6 c7 c11 c12 : compiler) (fn : Option String)
    (cb bb xb : Nat) (cv : Value)
    (hb : while_statement_begin c = .returns (fn, cb, bb, xb) c6)
    (hc : expression_ n x c6 = .returns (some cv) c7)
    (he : while_statement_enter fn cv bb xb c7 = .returns () c11)
    (hs : statement_ n body c11 = .returns true c12) :
    ∃ (c1 : compiler) (f : String) (b0 : Nat) (old code : List Instruction)
      (extra : List Nat) (pre0 pre1 : List Instruction),
      while_statement_ (n + 1) x body c = .returns true c1 ∧
      fn = some f ∧ c.insert_block = some b0 ∧
      cb = c.blocks.length ∧ bb = c.blocks.length + 1 ∧ xb = c.blocks.length + 2 ∧
      block_list f c11 = block_list f c ++ [cb, bb] ∧
      block_list f c12 = block_list f c11 ++ extra ∧
      (∀ y ∈ extra, c.blocks.length + 3 ≤ y) ∧
      block_list f c1 = block_list f c ++ [cb, bb] ++ extra ++ [xb] ∧
      insts_of c b0 = some old ∧
      insts_of c1 b0 = some (pre0 ++ old ++ [.Br cb]) ∧
      (∀ i ∈ pre0, i.isAlloca = true) ∧
      insts_of c6 cb = some [] ∧ insts_of c7 cb = some code ∧
      insts_of c1 cb = some (pre1 ++ code ++ [.CondBr cv bb xb]) ∧
      (∀ i ∈ pre1, i.isAlloca = true) ∧
      c1.insert_block = some xb := by
  -- the first lines
  unfold while_statement_begin at hb
  simp only [gen_bind_apply] at hb
  obtain ⟨fn0, c1', h1, hb⟩ := gen_bind_returns hb
  obtain ⟨b0, blk0, hins0, _, hb0, old, hold⟩ := getParent_inv h1
  have e1 := getParent_returns h1
  rw [e1] at hb h1
  obtain ⟨cb0, c2, h2, hb⟩ := gen_bind_returns hb
  obtain ⟨bb0, c3, h3, hb⟩ := gen_bind_returns hb
  obtain ⟨xb0, c4, h4, hb⟩ := gen_bind_returns hb
  obtain ⟨u5, c5, h5, hb⟩ := gen_bind_returns hb
  obtain ⟨u6, c6', h6, hb⟩ := gen_bind_returns hb
  have hb' : Result.returns (fn0, cb0, bb0, xb0) c6' = .returns (fn, cb, bb, xb) c6 := hb
  simp only [Result.returns.injEq, Prod.mk.injEq] at hb'
  obtain ⟨⟨hfn, hcb, hbb, hxb⟩, hc6⟩ := hb'
  subst hfn hcb hbb hxb hc6
  -- the lines before the body
  unfold while_statement_enter at he
  simp only [gen_bind_apply] at he
  obtain ⟨u8, c8, h8, he⟩ := gen_bind_returns he
  obtain ⟨u10, c10, h10, h11⟩ := gen_bind_returns he
  cases fn0 with
  | none => exact Result.noConfusion h10
  | some f =>
    obtain ⟨ecb, el2, ei2, ebl2, ek2, ee2⟩ := BasicBlock_Create_in_eq h2
    obtain ⟨ebb, el3, ei3, em3, ek3, _⟩ := BasicBlock_Create_eq h3
    obtain ⟨exb, el4, ei4, em4, ek4, _⟩ := BasicBlock_Create_eq h4
    have hi4 : c4.insert_block = some b0 := by rw [ei4, ei3, ei2, hins0]
    have e5 : c5 = emitted c4 [.Br cb0] := by
      have := h5
      rw [CreateBr, Insert_emitted, Result.returns.injEq] at this
      exact this.2.symm
    have e6 := SetInsertPoint_eq h6
    have hne0 : b0 ≠ cb0 := by omega
    -- the block that was current, up to the condition
    have i6b0 : insts_of c6' b0 = some (old ++ [.Br cb0]) := by
      rw [e6]
      show insts_of c5 b0 = _
      rw [e5, insts_of_emitted, if_pos hi4, ek4 b0 (by omega), ek3 b0 (by omega), ek2 b0 hb0,
        hold]
      rfl
    have i6cb : insts_of c6' cb0 = some [] := by
      rw [e6]
      show insts_of c5 cb0 = _
      rw [e5, insts_of_emitted,
        if_neg (by rw [hi4]; exact fun e => hne0 (Option.some.inj e)),
        ek4 cb0 (by omega), ek3 cb0 (by omega), ee2]
    have l6 : c6'.blocks.length = c.blocks.length + 3 := by
      rw [e6]
      show c5.blocks.length = _
      rw [e5]
      have : (emitted c4 [.Br cb0]).blocks.length = c4.blocks.length := by
        unfold emitted
        split
        · rfl
        · simp
      omega
    have hi6 : c6'.insert_block = some cb0 := by rw [e6]
    have bl6 : block_list f c6' = block_list f c ++ [cb0] := by
      rw [e6]
      show block_list f c5 = _
      rw [e5, block_list_of_module_eq (emitted_module c4 _), block_list_of_module_eq em4,
        block_list_of_module_eq em3, ebl2]
    -- the condition
    have s7 := relates_expression shape_step_closed n x c6' _ c7 hc
    have g7 := relates_expression grows_step_closed n x c6' _ c7 hc
    have l7 : c7.blocks.length = c.blocks.length + 3 := by rw [s7.length_eq, l6]
    have hi7 : c7.insert_block = some cb0 := by rw [s7.insert_block_eq, hi6]
    have p7b0 : prepended b0 c6' c7 :=
      prepended_of_grows g7 (by omega) (by rw [hi6]; exact fun e => hne0 (Option.some.inj e).symm)
    obtain ⟨code, hcode⟩ := insts_of_some_of_lt (c := c7) (k := cb0) (by omega)
    -- the conditional branch and the body block
    have e8 : c8 = emitted c7 [.CondBr cv bb0 xb0] := by
      have := h8
      rw [CreateCondBr, Insert_emitted, Result.returns.injEq] at this
      exact this.2.symm
    obtain ⟨ebl10, ek10, el10, ei10, _⟩ := push_back_eq h10
    have e11 := SetInsertPoint_eq h11
    have l8 : c8.blocks.length = c.blocks.length + 3 := by
      rw [e8]
      have : (emitted c7 [.CondBr cv bb0 xb0]).blocks.length = c7.blocks.length := by
        unfold emitted
        split
        · rfl
        · simp
      omega
    have l11 : c11.blocks.length = c.blocks.length + 3 := by
      rw [e11]
      show c10.blocks.length = _
      omega
    have hi11 : c11.insert_block = some bb0 := by rw [e11]
    have i11 : ∀ k, insts_of c11 k = insts_of c8 k := by
      intro k
      rw [e11]
      exact ek10 k
    have i8b0 : insts_of c8 b0 = insts_of c7 b0 := by
      rw [e8, insts_of_emitted,
        if_neg (by rw [hi7]; exact fun e => hne0 (Option.some.inj e).symm)]
    have i8cb : insts_of c8 cb0 = some (code ++ [.CondBr cv bb0 xb0]) := by
      rw [e8, insts_of_emitted, if_pos hi7, hcode]
      rfl
    have bl11 : block_list f c11 = block_list f c ++ [cb0, bb0] := by
      rw [e11]
      show block_list f c10 = _
      rw [ebl10, e8, block_list_of_module_eq (emitted_module c7 _),
        block_list_of_module_eq s7.module_eq, bl6]
      simp
    -- the body
    have g12 := (statement_layer_grows n).1 body c11 true c12 hs
    obtain ⟨extra, ebl12, hextra⟩ := g12.block_list f
    have hne12 : ∀ k, k < c11.blocks.length → k ≠ bb0 → c12.insert_block ≠ some k := by
      intro k hk hkb
      rcases g12.insert_block with h | ⟨b, hb, hle⟩
      · rw [h, hi11]
        exact fun e => hkb (Option.some.inj e).symm
      · rw [hb]
        intro e
        have := Option.some.inj e
        omega
    have p12 : ∀ k, k < c11.blocks.length → k ≠ bb0 → prepended k c11 c12 := fun k hk hkb =>
      prepended_of_grows g12 hk (by rw [hi11]; exact fun e => hkb (Option.some.inj e).symm)
    -- the last lines
    obtain ⟨blk12, hblk12⟩ : ∃ blk, c12.blocks[bb0]? = some blk := by
      have : bb0 < c12.blocks.length := by have := g12.length_le; omega
      exact ⟨_, List.getElem?_eq_getElem this⟩
    have h13 : getTerminator bb0 c12 = .returns blk12.getTerminator c12 := by
      simp only [getTerminator, hblk12]
    have hbl12 : block_list f c12 ≠ [] := by
      rw [ebl12, bl11]
      simp
    have tail : ∀ c14, c14.module = c12.module →
        (∀ k, k < c11.blocks.length → k ≠ bb0 → insts_of c14 k = insts_of c12 k) →
        ∃ c16, (do
            push_back (some f) xb0
            SetInsertPoint xb0
            pure true : gen Bool) c14 = .returns true c16 ∧
          block_list f c16 = block_list f c ++ [cb0, bb0] ++ extra ++ [xb0] ∧
          (∀ k, k < c11.blocks.length → k ≠ bb0 → prepended k c11 c16) ∧
          c16.insert_block = some xb0 := by
      intro c14 hm14 hi14
      obtain ⟨c15, h15⟩ := push_back_of_block_list (f := f) (b := xb0) (c := c14)
        (by rw [block_list_of_module_eq hm14]; exact hbl12)
      obtain ⟨ebl15, ek15, _, _, _⟩ := push_back_eq h15
      refine ⟨{ c15 with insert_block := some xb0 }, ?_, ?_, ?_, rfl⟩
      · simp only [gen_bind_apply, gen.bind, h15, SetInsertPoint, gen_pure_apply]
      · show block_list f c15 = _
        rw [ebl15, block_list_of_module_eq hm14, ebl12, bl11]
      · intro k hk hkb
        refine (p12 k hk hkb).prepended_trans (prepended_of_eq ?_)
        show insts_of c15 k = _
        rw [ek15 k, hi14 k hk hkb]
    have fin : ∃ c16, while_statement_ (n + 1) x body c = .returns true c16 ∧
        block_list f c16 = block_list f c ++ [cb0, bb0] ++ extra ++ [xb0] ∧
        (∀ k, k < c11.blocks.length → k ≠ bb0 → prepended k c11 c16) ∧
        c16.insert_block = some xb0 := by
      cases ht : blk12.getTerminator with
      | some t =>
        rw [ht] at h13
        obtain ⟨c16, hrun, hbl, hp, hi⟩ := tail c12 rfl (fun _ _ _ => rfl)
        refine ⟨c16, ?_, hbl, hp, hi⟩
        rw [while_statement_]
        simp only [gen_bind_apply, gen.bind, h1, h2, h3, h4, h5, h6, hc, h8, h10, h11, hs,
          h13, if_true, gen_pure_apply] at hrun ⊢
        exact hrun
      | none =>
        rw [ht] at h13
        obtain ⟨c16, hrun, hbl, hp, hi⟩ := tail (emitted c12 [.Br cb0]) (emitted_module c12 _)
          (fun k hk hkb => by rw [insts_of_emitted, if_neg (hne12 k hk hkb)])
        refine ⟨c16, ?_, hbl, hp, hi⟩
        rw [while_statement_]
        simp only [gen_bind_apply, gen.bind, h1, h2, h3, h4, h5, h6, hc, h8, h10, h11, hs,
          h13, if_true, gen_pure_apply] at hrun ⊢
        simp only [CreateBr, Insert_emitted]
        exact hrun
    obtain ⟨c16, hrun, hbl16, hp16, hi16⟩ := fin
    obtain ⟨pre0, a0, q0⟩ := (p7b0.prepended_trans
      ((prepended_of_eq ((i11 b0).trans i8b0)).prepended_trans
        (hp16 b0 (by omega) (by omega))))
    obtain ⟨pre1, a1, q1⟩ := (prepended_of_eq (i11 cb0)).prepended_trans
      (hp16 cb0 (by omega) (by omega))
    refine ⟨c16, f, b0, old, code, extra, pre0, pre1, hrun, rfl, hins0, ecb, by omega,
      by omega, bl11, ebl12, fun y hy => by have := hextra y hy; omega, hbl16, hold, ?_, a0,
      i6cb, hcode, ?_, a1, hi16⟩
    · rw [q0, i6b0]
      simp
    · rw [q1, i8cb]
      simp


theorem while_statement_adds_cond_body_end_witness :
    ∃ (c1 : compiler) (f : String) (extra : List Nat),
      while_statement_ (9 + 1) (identifier_expression ⟨1, "a"⟩) if_b_body in_f_a_b =
        .returns true c1 ∧
      some "f" = some f ∧
      block_list f c1 = block_list f in_f_a_b ++ [2, 3] ++ extra ++ [4] ∧
      c1.insert_block = some 4 :=
  match while_statement_adds_cond_body_end 9 (identifier_expression ⟨1, "a"⟩) if_b_body
      in_f_a_b while_a_begun while_a_tested while_a_entered
      ((statement_ 9 if_b_body while_a_entered).state_or in_f_a_b)
      (some "f") 2 3 4 (.Load (.Alloca "a") "a")
      (Result.eq_returns_of_value _ _ _ (by decide!))
      (Result.eq_returns_of_value _ _ _ (by decide!))
      (Result.eq_returns_of_value _ _ _ (by decide!))
      (Result.eq_returns_of_value _ _ _ (by decide!)) with
  | ⟨c1, f, _, _, _, extra, _, _, hrun, hf, _, _, _, _, _, _, _, hbl, _, _, _, _, _, _, _, hi⟩ =>
    ⟨c1, f, extra, hrun, hf, hbl, hi⟩

end code_gen

end client

namespace lexertl

/-! ## Theorems on the lexer functor (C28) -/

theorem invoke_actions_first {actions_ : semantic_actions_type} (h : keeps_position actions_)
    (d : data) (state id unique_id end_ : Nat) :
    (d.invoke_actions actions_ state id unique_id end_).2.first = d.first := by
  unfold data.invoke_actions
  split
  · rfl
  · rename_i actions ha
    split
    · rfl
    · rfl
    · rename_i action hb
      exact h actions (List.getElem?_mem ha) action (List.getElem?_mem hb) _ _ _ _

theorem get_next_of_match (tokenizer : tokenizer_type) (actions_ : semantic_actions_type)
    (d : data) (h : d.first ≠ d.last) (h1 : (tokenized tokenizer d).id ≠ npos)
    (h2 : (tokenized tokenizer d).id ≠ 0) :
    functor.get_next tokenizer actions_ d =
      if !(data.invoke_actions actions_ { d with state := (tokenized tokenizer d).dfa_state }
          (tokenized tokenizer d).dfa_state (tokenized tokenizer d).id
          (tokenized tokenizer d).unique_id (tokenized tokenizer d).end_).1 then
        (.of_int 0,
          (data.invoke_actions actions_ { d with state := (tokenized tokenizer d).dfa_state }
            (tokenized tokenizer d).dfa_state (tokenized tokenizer d).id
            (tokenized tokenizer d).unique_id (tokenized tokenizer d).end_).2)
      else
        (.matched (tokenized tokenizer d).id (tokenized tokenizer d).dfa_state
            (data.invoke_actions actions_ { d with state := (tokenized tokenizer d).dfa_state }
              (tokenized tokenizer d).dfa_state (tokenized tokenizer d).id
              (tokenized tokenizer d).unique_id (tokenized tokenizer d).end_).2.first
            (tokenized tokenizer d).end_,
          { (data.invoke_actions actions_
              { d with state := (tokenized tokenizer d).dfa_state }
              (tokenized tokenizer d).dfa_state (tokenized tokenizer d).id
              (tokenized tokenizer d).unique_id (tokenized tokenizer d).end_).2 with
            first := (tokenized tokenizer d).end_ }) := by
  unfold functor.get_next
  simp only [if_neg h, data.next]
  rw [if_neg (fun e => h1 e.symm), if_neg (fun e => h2 e.symm)]
  rfl

/-- C28 (counterexample): an action receives the data by reference and may
assign its public member `first`.  At position 2 the match of id 8 is
rejected by an action that moved `first` to 3: the result is
`result_type(0)` and `first` is 3 afterwards, not 2, although no match was
accepted.  At position 0 the match of id 7 is accepted by an action that
moved `first` to 1: the range of the token starts at 1, not at the old
position 0. -/
theorem get_next_moves_first_with_a_moving_action :
    functor.get_next sample_tokenizer moving_actions ⟨2, 4, 1⟩ = (.of_int 0, ⟨3, 4, 1⟩) ∧
    (functor.get_next sample_tokenizer moving_actions ⟨2, 4, 1⟩).2.first ≠
      (⟨2, 4, 1⟩ : data).first ∧
    functor.get_next sample_tokenizer moving_actions ⟨0, 4, 1⟩ =
      (.matched 7 1 1 2, ⟨2, 4, 1⟩) := by
  decide

/-- C28 (amended): `get_next` with actions that leave the position `first`
alone.  On exhausted input the result is the eof token and the data is untouched.  When
the tokenizer returns `npos` the result is `result_type(0)`, when it returns
0 the result is the eof token, and when an action rejects the match the
result is `result_type(0)`; in these cases `first` is where it was.  When
the tokenizer returns another id and the actions accept, the token carries
that id, the lexer state read after the tokenizer and before the actions
ran, and the range from the old `first` to the end of the match, and `first`
is the end of the match afterwards.  So `first` moves only with a matched
token whose range runs from the old position to the new one. -/
theorem get_next_advances_exactly_on_an_accepted_match (tokenizer : tokenizer_type)
    (actions_ : semantic_actions_type) (d : data) (hk : keeps_position actions_) :
    (d.first = d.last → functor.get_next tokenizer actions_ d = (functor.eof, d)) ∧
    (d.first ≠ d.last → (tokenized tokenizer d).id = npos →
      functor.get_next tokenizer actions_ d =
        (.of_int 0, { d with state := (tokenized tokenizer d).dfa_state })) ∧
    (d.first ≠ d.last → (tokenized tokenizer d).id = 0 →
      functor.get_next tokenizer actions_ d =
        (functor.eof, { d with state := (tokenized tokenizer d).dfa_state })) ∧
    (d.first ≠ d.last → (tokenized tokenizer d).id ≠ npos → (tokenized tokenizer d).id ≠ 0 →
      ∀ accepted d2,
        data.invoke_actions actions_ { d with state := (tokenized tokenizer d).dfa_state }
          (tokenized tokenizer d).dfa_state (tokenized tokenizer d).id
          (tokenized tokenizer d).unique_id (tokenized tokenizer d).end_ = (accepted, d2) →
        (accepted = false →
          functor.get_next tokenizer actions_ d = (.of_int 0, d2) ∧ d2.first = d.first) ∧
        (accepted = true →
          functor.get_next tokenizer actions_ d =
            (.matched (tokenized tokenizer d).id (tokenized tokenizer d).dfa_state d.first
                (tokenized tokenizer d).end_,
              { d2 with first := (tokenized tokenizer d).end_ }))) ∧
    ((functor.get_next tokenizer actions_ d).2.first = d.first ∨
      ∃ id state, (functor.get_next tokenizer actions_ d).1 =
        .matched id state d.first (functor.get_next tokenizer actions_ d).2.first) := by
  have e1 : d.first = d.last → functor.get_next tokenizer actions_ d = (functor.eof, d) := by
    intro h
    unfold functor.get_next
    rw [if_pos h]
  have e2 : d.first ≠ d.last → (tokenized tokenizer d).id = npos →
      functor.get_next tokenizer actions_ d =
        (.of_int 0, { d with state := (tokenized tokenizer d).dfa_state }) := by
    intro h h1
    unfold functor.get_next
    simp only [if_neg h, data.next]
    rw [if_pos (show npos = (tokenizer d.state d.first d.first d.last npos).id from h1.symm)]
    rfl
  have e3 : d.first ≠ d.last → (tokenized tokenizer d).id = 0 →
      functor.get_next tokenizer actions_ d =
        (functor.eof, { d with state := (tokenized tokenizer d).dfa_state }) := by
    intro h h1
    have hn : ¬ npos = (tokenizer d.state d.first d.first d.last npos).id := by
      rw [show (tokenizer d.state d.first d.first d.last npos).id = 0 from h1]; decide
    unfold functor.get_next
    simp only [if_neg h, data.next]
    rw [if_neg hn, if_pos (show 0 = (tokenizer d.state d.first d.first d.last npos).id from h1.symm)]
    rfl
  have e4 : d.first ≠ d.last → (tokenized tokenizer d).id ≠ npos →
      (tokenized tokenizer d).id ≠ 0 → ∀ accepted d2,
        data.invoke_actions actions_ { d with state := (tokenized tokenizer d).dfa_state }
          (tokenized tokenizer d).dfa_state (tokenized tokenizer d).id
          (tokenized tokenizer d).unique_id (tokenized tokenizer d).end_ = (accepted, d2) →
        (accepted = false →
          functor.get_next tokenizer actions_ d = (.of_int 0, d2) ∧ d2.first = d.first) ∧
        (accepted = true →
          functor.get_next tokenizer actions_ d =
            (.matched (tokenized tokenizer d).id (tokenized tokenizer d).dfa_state d.first
                (tokenized tokenizer d).end_,
              { d2 with first := (tokenized tokenizer d).end_ })) := by
    intro h h1 h2 accepted d2 ha
    have hf : d2.first = d.first := by
      have := invoke_actions_first hk { d with state := (tokenized tokenizer d).dfa_state }
        (tokenized tokenizer d).dfa_state (tokenized tokenizer d).id
        (tokenized tokenizer d).unique_id (tokenized tokenizer d).end_
      rw [ha] at this
      exact this
    constructor
    · intro hacc
      subst hacc
      rw [get_next_of_match tokenizer actions_ d h h1 h2, ha]
      exact ⟨rfl, hf⟩
    · intro hacc
      subst hacc
      rw [get_next_of_match tokenizer actions_ d h h1 h2, ha]
      simp only [Bool.not_true, Bool.false_eq_true, if_false, hf]
  refine ⟨e1, e2, e3, e4, ?_⟩
  by_cases h : d.first = d.last
  · left; rw [e1 h]
  · by_cases h1 : (tokenized tokenizer d).id = npos
    · left; rw [e2 h h1]
    · by_cases h2 : (tokenized tokenizer d).id = 0
      · left; rw [e3 h h2]
      · obtain ⟨hrej, hacc⟩ := e4 h h1 h2 _ _ rfl
        cases hb : (data.invoke_actions actions_
            { d with state := (tokenized tokenizer d).dfa_state }
            (tokenized tokenizer d).dfa_state (tokenized tokenizer d).id
            (tokenized tokenizer d).unique_id (tokenized tokenizer d).end_).1 with
        | false =>
          left
          rw [(hrej hb).1]
          exact (hrej hb).2
        | true =>
          right
          rw [hacc hb]
          exact ⟨_, _, rfl⟩

theorem sample_actions_keep_position : keeps_position sample_actions := by
  intro actions ha action hb itp id accepted d
  simp only [sample_actions, List.mem_cons, List.mem_singleton, List.not_mem_nil, or_false]
    at ha
  rcases ha with ha | ha
  · subst ha
    simp at hb
  · subst ha
    simp only [List.mem_cons, Option.some.injEq, List.mem_singleton, List.not_mem_nil,
      or_false] at hb
    rcases hb with hb | hb <;> subst hb <;> rfl

theorem get_next_advances_exactly_on_an_accepted_match_witness :
    functor.get_next sample_tokenizer sample_actions ⟨0, 3, 1⟩ =
        (.matched 7 1 0 2, ⟨2, 3, 5⟩) ∧
      (functor.get_next sample_tokenizer sample_actions ⟨2, 3, 1⟩ = (.of_int 0, ⟨2, 3, 1⟩) ∧
        (⟨2, 3, 1⟩ : data).first = 2) ∧
      functor.get_next sample_tokenizer sample_actions ⟨3, 3, 1⟩ = (functor.eof, ⟨3, 3, 1⟩) ∧
      functor.get_next sample_tokenizer sample_actions ⟨1, 3, 1⟩ = (.of_int 0, ⟨1, 3, 1⟩) :=
  ⟨((get_next_advances_exactly_on_an_accepted_match sample_tokenizer sample_actions ⟨0, 3, 1⟩
      sample_actions_keep_position).2.2.2.1 (by decide) (by decide) (by decide) true
      ⟨0, 3, 5⟩ (by decide)).2 rfl,
    ((get_next_advances_exactly_on_an_accepted_match sample_tokenizer sample_actions ⟨2, 3, 1⟩
      sample_actions_keep_position).2.2.2.1 (by decide) (by decide) (by decide) false
      ⟨2, 3, 1⟩ (by decide)).1 rfl,
    (get_next_advances_exactly_on_an_accepted_match sample_tokenizer sample_actions ⟨3, 3, 1⟩
      sample_actions_keep_position).1 rfl,
    (get_next_advances_exactly_on_an_accepted_match sample_tokenizer sample_actions ⟨1, 3, 1⟩
      sample_actions_keep_position).2.1 (by decide) (by decide)⟩

end lexertl
